import Mathlib

/-!
# Illumination demo: orbit camera and OBJ mesh loader

A shallow embedding of `include/camera.h`, `include/model.h` and `include/light.h`.

Modelling conventions.

* `float` is modelled by an arbitrary linearly ordered field `K` (exact
  arithmetic: no rounding, no NaN, no infinities).  Every definition is
  polymorphic in `K` and computable; it can be run at `K = ℚ`.
* The orbit camera is embedded a second time over the finite IEEE 754 binary32
  numbers with round-to-nearest-even (`F32`, namespace `Binary32`), where the
  rounding of `+`, `-`, `*`, `/` and `sqrt` is visible.  Theorems about the
  field model are statements about exact arithmetic; what is claimed of the
  program's own arithmetic is stated in the binary32 model.
* The math-library primitives the code calls (`sqrt`, `inversesqrt`, `cos`,
  `sin`, `glm::radians`) are not part of the repository; they are passed in
  as a record `FloatOps K`.
* `unsigned int` is modelled by `Nat` with an explicit `% 2^32` where the code
  can wrap.
* An out-of-range `operator[]` on a `std::vector` is undefined behaviour; the
  functions that index return `Option` and yield `none` there.
* The OpenGL buffers are modelled by the data last uploaded into them.
* `glm::normalize` of a vector of length zero multiplies by `inversesqrt 0`.  The model
  gives that value no meaning: in a field the product is zero, in IEEE arithmetic
  it is NaN.  Where the code normalizes a zero vector, the theorems say so.
-/

set_option linter.unusedSectionVars false

namespace Illumination

/-! ## Vectors (`glm::vec3`) -/

/-- Three-component vector, the model of `glm::vec3`. -/
@[ext] structure Vec3 (K : Type) where
  x : K
  y : K
  z : K
deriving DecidableEq

/-- Primitives of the C and glm math libraries used by the program. -/
structure FloatOps (K : Type) where
  sqrt : K → K
  inversesqrt : K → K
  cos : K → K
  sin : K → K
  radians : K → K

namespace Vec3

variable {K : Type} [LinearOrderedField K]

/-- The vector `glm::vec3(0.0f)`. -/
def zero : Vec3 K := ⟨0, 0, 0⟩

/-- Componentwise sum, `a + b`. -/
def add (a b : Vec3 K) : Vec3 K := ⟨a.x + b.x, a.y + b.y, a.z + b.z⟩

/-- Componentwise difference, `a - b`. -/
def sub (a b : Vec3 K) : Vec3 K := ⟨a.x - b.x, a.y - b.y, a.z - b.z⟩

/-- Vector times scalar, `v * s`. -/
def scale (v : Vec3 K) (s : K) : Vec3 K := ⟨v.x * s, v.y * s, v.z * s⟩

instance : Add (Vec3 K) := ⟨add⟩
instance : Sub (Vec3 K) := ⟨sub⟩
instance : HMul (Vec3 K) K (Vec3 K) := ⟨scale⟩

/-- Scalar product, `glm::dot`. -/
def dot (a b : Vec3 K) : K := a.x * b.x + a.y * b.y + a.z * b.z

/-- Vector product, `glm::cross`. -/
def cross (a b : Vec3 K) : Vec3 K :=
  ⟨a.y * b.z - b.y * a.z, a.z * b.x - b.z * a.x, a.x * b.y - b.x * a.y⟩

/-- Euclidean length, `glm::length(v) = sqrt(dot(v, v))`. -/
def length (ops : FloatOps K) (v : Vec3 K) : K := ops.sqrt (dot v v)

/-- Unit vector, `glm::normalize(v) = v * inversesqrt(dot(v, v))`. -/
def normalize (ops : FloatOps K) (v : Vec3 K) : Vec3 K := v * ops.inversesqrt (dot v v)

end Vec3

/-! ## Orbit camera (`include/camera.h`) -/

section CameraDefs

variable {K : Type} [LinearOrderedField K]

/-- Default yaw, `YAW`. -/
def YAW : K := -90
/-- Default pitch, `PITCH`. -/
def PITCH : K := 0
/-- Default mouse sensitivity, `SENSITIVITY`. -/
def SENSITIVITY : K := 0.15
/-- Default field of view, `ZOOM`. -/
def ZOOM : K := 45
/-- Default distance to the target, `DISTANCE`. -/
def DISTANCE : K := 5

/-- The data members of `class Camera`. -/
structure Camera (K : Type) where
  Position : Vec3 K
  Front : Vec3 K
  Up : Vec3 K
  Right : Vec3 K
  WorldUp : Vec3 K
  Target : Vec3 K
  Yaw : K
  Pitch : K
  Distance : K
  MouseSensitivity : K
  Zoom : K

/-- The private method `Camera::updateCameraVectors`. -/
def updateCameraVectors (ops : FloatOps K) (c : Camera K) : Camera K :=
  let front : Vec3 K :=
    ⟨ops.cos (ops.radians c.Yaw) * ops.cos (ops.radians c.Pitch),
     ops.sin (ops.radians c.Pitch),
     ops.sin (ops.radians c.Yaw) * ops.cos (ops.radians c.Pitch)⟩
  let c1 : Camera K := { c with Front := Vec3.normalize ops front }
  let c2 : Camera K := { c1 with Position := c1.Target - c1.Front * c1.Distance }
  let c3 : Camera K := { c2 with Right := Vec3.normalize ops (Vec3.cross c2.Front c2.WorldUp) }
  { c3 with Up := Vec3.normalize ops (Vec3.cross c3.Right c3.Front) }

/-- The constructor `Camera::Camera(position, up, yaw, pitch)`.  `Up` and `Right` are not
initialised before `updateCameraVectors` assigns them; the model starts them at zero. -/
def Camera.new (ops : FloatOps K) (position up : Vec3 K) (yaw pitch : K) : Camera K :=
  updateCameraVectors ops
    { Position := position
      Front := ⟨0, 0, -1⟩
      Up := Vec3.zero
      Right := Vec3.zero
      WorldUp := up
      Target := ⟨0, 0, 0⟩
      Yaw := yaw
      Pitch := pitch
      Distance := DISTANCE
      MouseSensitivity := SENSITIVITY
      Zoom := ZOOM }

/-- The camera built with every constructor argument at its default. -/
def Camera.default (ops : FloatOps K) : Camera K :=
  Camera.new ops ⟨0, 0, DISTANCE⟩ ⟨0, 1, 0⟩ YAW PITCH

/-- The method `Camera::ProcessMouseMovement` (orbit rotation). -/
def ProcessMouseMovement (ops : FloatOps K) (c : Camera K) (xoffset yoffset : K)
    (constrainPitch : Bool) : Camera K :=
  let xoffset := xoffset * c.MouseSensitivity
  let yoffset := yoffset * c.MouseSensitivity
  let c1 : Camera K := { c with Yaw := c.Yaw + xoffset }
  let c2 : Camera K := { c1 with Pitch := c1.Pitch + yoffset }
  let c3 : Camera K :=
    if constrainPitch then
      let d1 : Camera K := if c2.Pitch > 89 then { c2 with Pitch := 89 } else c2
      if d1.Pitch < -89 then { d1 with Pitch := -89 } else d1
    else c2
  updateCameraVectors ops c3

/-- The method `Camera::ProcessMousePan` (translation of target and position). -/
def ProcessMousePan (c : Camera K) (xoffset yoffset : K) : Camera K :=
  let sensitivity : K := 0.01
  let offset : Vec3 K := c.Right * (-xoffset * sensitivity) - c.Up * (yoffset * sensitivity)
  let c1 : Camera K := { c with Target := c.Target + offset }
  { c1 with Position := c1.Position + offset }

/-- The method `Camera::ProcessMouseScroll` (field of view and distance). -/
def ProcessMouseScroll (ops : FloatOps K) (c : Camera K) (yoffset : K) : Camera K :=
  let c1 : Camera K := { c with Zoom := c.Zoom - yoffset }
  let c2 : Camera K := if c1.Zoom < 1 then { c1 with Zoom := 1 } else c1
  let c3 : Camera K := if c2.Zoom > 90 then { c2 with Zoom := 90 } else c2
  let c4 : Camera K := { c3 with Distance := c3.Distance - yoffset * 0.3 }
  let c5 : Camera K := if c4.Distance < 1 then { c4 with Distance := 1 } else c4
  let c6 : Camera K := if c5.Distance > 20 then { c5 with Distance := 20 } else c5
  updateCameraVectors ops c6

/-- One mutating call on a camera, with its arguments. -/
inductive CameraOp (K : Type) where
  | rotate (xoffset yoffset : K) (constrainPitch : Bool)
  | pan (xoffset yoffset : K)
  | zoom (yoffset : K)

/-- Performs one mutating call. -/
def CameraOp.run (ops : FloatOps K) (c : Camera K) : CameraOp K → Camera K
  | .rotate dx dy cp => ProcessMouseMovement ops c dx dy cp
  | .pan dx dy => ProcessMousePan c dx dy
  | .zoom dy => ProcessMouseScroll ops c dy

/-- Performs a sequence of mutating calls, first to last. -/
def runCameraOps (ops : FloatOps K) (c : Camera K) (calls : List (CameraOp K)) : Camera K :=
  calls.foldl (CameraOp.run ops) c

/-- The derivation formula of the specification for the front vector. -/
def specFront (ops : FloatOps K) (yaw pitch : K) : Vec3 K :=
  Vec3.normalize ops
    ⟨ops.cos (ops.radians yaw) * ops.cos (ops.radians pitch),
     ops.sin (ops.radians pitch),
     ops.sin (ops.radians yaw) * ops.cos (ops.radians pitch)⟩

/-- The cached vectors agree with the values derived from target, yaw, pitch and distance. -/
def CacheConsistent (ops : FloatOps K) (c : Camera K) : Prop :=
  c.Position = c.Target - c.Front * c.Distance ∧
  c.Front = specFront ops c.Yaw c.Pitch ∧
  c.Right = Vec3.normalize ops (Vec3.cross c.Front c.WorldUp) ∧
  c.Up = Vec3.normalize ops (Vec3.cross c.Right c.Front)

/-- The value `x` limited to the interval from `lo` to `hi`. -/
def clamp (x lo hi : K) : K := if x < lo then lo else if hi < x then hi else x

end CameraDefs

/-! ## Mesh loader and normal engine (`include/model.h`) -/

section ModelDefs

variable {K : Type} [LinearOrderedField K]

/-- The record `struct Vertex`. -/
structure Vertex (K : Type) where
  Position : Vec3 K
  Normal : Vec3 K
deriving DecidableEq

/-- The record `struct Face`: three `unsigned int` vertex indices. -/
structure Face where
  v1 : Nat
  v2 : Nat
  v3 : Nat
deriving DecidableEq

/-- One line of the mesh file, as the stream extractions of `loadModel` see it.
`tag` is the first whitespace-delimited token (the local `prefix`; empty on a blank line);
`x y z` are the values `iss >> x >> y >> z` yields on the rest of the line; `v1 v2 v3` are the
`unsigned int` values `iss >> face.v1 >> face.v2 >> face.v3` yields on the rest of the line. -/
structure Line (K : Type) where
  tag : String
  x : K
  y : K
  z : K
  v1 : Nat
  v2 : Nat
  v3 : Nat

/-- The vertex record `v x y z`. -/
def Line.vertex (x y z : K) : Line K := ⟨"v", x, y, z, 0, 0, 0⟩

/-- The face record `f a b c`. -/
def Line.face (a b c : Nat) : Line K := ⟨"f", 0, 0, 0, a, b, c⟩

/-- The three face fields of a line are values of a 32-bit `unsigned int`. -/
def Line.IsU32 (l : Line K) : Prop := l.v1 < 2 ^ 32 ∧ l.v2 < 2 ^ 32 ∧ l.v3 < 2 ^ 32

instance (l : Line K) : Decidable l.IsU32 := by
  unfold Line.IsU32; infer_instance

/-- The data members of `class Model`.  `vboData` and `eboData` are the contents last uploaded
with `glBufferData` into the buffers `VBO` and `EBO`. -/
structure Model (K : Type) where
  vertices : List (Vertex K)
  faces : List Face
  faceNormals : List (Vec3 K)
  indices : List Nat
  modelColor : Vec3 K
  useVertexNormal : Bool
  vboData : List K
  eboData : List Nat
deriving DecidableEq

/-- The members as they are when the constructor body starts: the four vectors are empty; the
colour, the flag and the buffers hold nothing meaningful until they are assigned. -/
def Model.empty : Model K :=
  { vertices := [], faces := [], faceNormals := [], indices := []
    modelColor := Vec3.zero, useVertexNormal := false, vboData := [], eboData := [] }

/-- The statement `xs[i] = a` on a `std::vector`; `none` when `i` is out of range. -/
def assignAt {α : Type} (xs : List α) (i : Nat) (a : α) : Option (List α) :=
  if i < xs.length then some (xs.set i a) else none

/-- The statement `vertices[i].Normal += normal`; `none` when `i` is out of range. -/
def addNormal (vertices : List (Vertex K)) (i : Nat) (normal : Vec3 K) :
    Option (List (Vertex K)) :=
  match vertices[i]? with
  | none => none
  | some v => some (vertices.set i { v with Normal := v.Normal + normal })

/-- The statement `face.v -= 1` on an `unsigned int`. -/
def decrU32 (v : Nat) : Nat := (v + 2 ^ 32 - 1) % 2 ^ 32

/-- The body of the `while (std::getline(file, line))` loop of `Model::loadModel`, for one line.
The state is the model together with the local vector `positions`. -/
def loadLine (ops : FloatOps K) (m : Model K) (positions : List (Vec3 K)) (l : Line K) :
    Option (Model K × List (Vec3 K)) :=
  if l.tag = "v" then
    let positions := positions ++ [⟨l.x, l.y, l.z⟩]
    let vertex : Vertex K := { Position := ⟨l.x, l.y, l.z⟩, Normal := Vec3.zero }
    some ({ m with vertices := m.vertices ++ [vertex] }, positions)
  else if l.tag = "f" then
    let face : Face := ⟨decrU32 l.v1, decrU32 l.v2, decrU32 l.v3⟩
    let m1 : Model K := { m with faces := m.faces ++ [face] }
    let m2 : Model K := { m1 with indices := ((m1.indices ++ [face.v1]) ++ [face.v2]) ++ [face.v3] }
    match positions[face.v1]?, positions[face.v2]?, positions[face.v3]? with
    | some pos1, some pos2, some pos3 =>
      let normal := Vec3.normalize ops (Vec3.cross (pos2 - pos1) (pos3 - pos1))
      let m3 : Model K := { m2 with faceNormals := m2.faceNormals ++ [normal] }
      match addNormal m3.vertices face.v1 normal with
      | none => none
      | some vs1 =>
        match addNormal vs1 face.v2 normal with
        | none => none
        | some vs2 =>
          match addNormal vs2 face.v3 normal with
          | none => none
          | some vs3 => some ({ m3 with vertices := vs3 }, positions)
    | _, _, _ => none
  else
    some (m, positions)

/-- The `while` loop of `Model::loadModel` over the lines of the file. -/
def loadLines (ops : FloatOps K) :
    Model K → List (Vec3 K) → List (Line K) → Option (Model K × List (Vec3 K))
  | m, positions, [] => some (m, positions)
  | m, positions, l :: rest =>
    match loadLine ops m positions l with
    | none => none
    | some (m1, positions1) => loadLines ops m1 positions1 rest

/-- The body of the final loop of `Model::loadModel`, for one vertex. -/
def normalizeVertex (ops : FloatOps K) (vertex : Vertex K) : Vertex K :=
  if Vec3.length ops vertex.Normal > 0 then
    { vertex with Normal := Vec3.normalize ops vertex.Normal }
  else vertex

/-- The method `Model::loadModel`.  The file is `none` when it cannot be opened, and the list of
its lines otherwise. -/
def loadModel (ops : FloatOps K) (m : Model K) (file : Option (List (Line K))) :
    Option (Model K) :=
  match file with
  | none => some m
  | some lines =>
    match loadLines ops m [] lines with
    | none => none
    | some (m1, _) => some { m1 with vertices := m1.vertices.map (normalizeVertex ops) }

/-- The face-normal loop of `Model::updateNormals`: iteration `i` reads `faces[i]` and
`faceNormals[i]` and overwrites three slots of `newNormals`.  The two list arguments are the
parts of `faces` and `faceNormals` from index `i` on. -/
def overwriteFaceNormals :
    List Face → List (Vec3 K) → List (Vec3 K) → Option (List (Vec3 K))
  | [], _, newNormals => some newNormals
  | _ :: _, [], _ => none
  | face :: faces, faceNormal :: faceNormals, newNormals =>
    match assignAt newNormals face.v1 faceNormal with
    | none => none
    | some n1 =>
      match assignAt n1 face.v2 faceNormal with
      | none => none
      | some n2 =>
        match assignAt n2 face.v3 faceNormal with
        | none => none
        | some n3 => overwriteFaceNormals faces faceNormals n3

/-- The local `newNormals` of `Model::updateNormals` once its first `if` statement is done. -/
def newNormals (m : Model K) : Option (List (Vec3 K)) :=
  if m.useVertexNormal then
    some (m.vertices.map fun vertex => vertex.Normal)
  else
    overwriteFaceNormals m.faces m.faceNormals (List.replicate m.vertices.length Vec3.zero)

/-- The interleaving loop of `Model::updateNormals`: six floats per vertex, the position and
then `newNormals[i]`.  The second argument is the part of `newNormals` from index `i` on. -/
def interleave : List (Vertex K) → List (Vec3 K) → Option (List K)
  | [], _ => some []
  | _ :: _, [] => none
  | vertex :: vertices, n :: normals =>
    match interleave vertices normals with
    | none => none
    | some data =>
      some (vertex.Position.x :: vertex.Position.y :: vertex.Position.z :: n.x :: n.y :: n.z :: data)

/-- The method `Model::updateNormals`. -/
def updateNormals (m : Model K) : Option (Model K) :=
  match newNormals m with
  | none => none
  | some normals =>
    match interleave m.vertices normals with
    | none => none
    | some data => some { m with vboData := data }

/-- The method `Model::toggleNormalMode`. -/
def toggleNormalMode (m : Model K) : Option (Model K) :=
  updateNormals { m with useVertexNormal := !m.useVertexNormal }

/-- The vertex data assembled by `Model::setupMesh`: six floats per vertex. -/
def meshData : List (Vertex K) → List K
  | [] => []
  | vertex :: vertices =>
    vertex.Position.x :: vertex.Position.y :: vertex.Position.z ::
      vertex.Normal.x :: vertex.Normal.y :: vertex.Normal.z :: meshData vertices

/-- The method `Model::setupMesh`, as far as buffer contents go. -/
def setupMesh (m : Model K) : Model K :=
  let m1 : Model K := { m with vboData := meshData m.vertices }
  { m1 with eboData := m1.indices }

/-- The constructor `Model::Model(path)`.  `color` is the colour `randomColor` draws. -/
def Model.new (ops : FloatOps K) (file : Option (List (Line K))) (color : Vec3 K) :
    Option (Model K) :=
  match loadModel ops Model.empty file with
  | none => none
  | some m1 =>
    let m2 := setupMesh m1
    let m3 : Model K := { m2 with useVertexNormal := true }
    some { m3 with modelColor := color }

/-- The element count `Model::Draw` passes to `glDrawElements`. -/
def drawCount (m : Model K) : Nat := m.indices.length

/-- The flattening of a face list: three indices per face, in order. -/
def flattenFaces : List Face → List Nat
  | [] => []
  | face :: faces => face.v1 :: face.v2 :: face.v3 :: flattenFaces faces

/-- Specification side: what one face with normal `fn.2` contributes to the sum for vertex `v`,
one summand for each of the three index fields that equals `v`. -/
def accumulateStep (v : Nat) (s : Vec3 K) (fn : Face × Vec3 K) : Vec3 K :=
  let s1 := if fn.1.v1 = v then s + fn.2 else s
  let s2 := if fn.1.v2 = v then s1 + fn.2 else s1
  if fn.1.v3 = v then s2 + fn.2 else s2

/-- Specification side: the sum of face normals accumulated for vertex `v`, one summand for each
occurrence of `v` in a face, over the faces in load order, starting from the zero vector. -/
def accumulatedNormal (faces : List Face) (faceNormals : List (Vec3 K)) (v : Nat) : Vec3 K :=
  (faces.zip faceNormals).foldl (accumulateStep v) Vec3.zero

/-- The face refers to vertex `v`. -/
def Face.Mentions (face : Face) (v : Nat) : Prop := face.v1 = v ∨ face.v2 = v ∨ face.v3 = v

instance (face : Face) (v : Nat) : Decidable (face.Mentions v) := by
  unfold Face.Mentions; infer_instance

/-- The positions of the vertex records among the given lines, in order. -/
def vertexPositions (lines : List (Line K)) : List (Vec3 K) :=
  (lines.filter fun l => l.tag = "v").map fun l => ⟨l.x, l.y, l.z⟩

/-- The number of face records among the given lines. -/
def faceCount (lines : List (Line K)) : Nat :=
  (lines.filter fun l => l.tag = "f").length

/-- Every index of every face is a valid index into a vector of `n` elements. -/
def FacesBelow (faces : List Face) (n : Nat) : Prop :=
  ∀ f ∈ faces, f.v1 < n ∧ f.v2 < n ∧ f.v3 < n

/-- The loop invariant of the `while` loop of `Model::loadModel`. -/
def LoadInv (m : Model K) (positions : List (Vec3 K)) : Prop :=
  positions = m.vertices.map (fun vertex => vertex.Position) ∧
  FacesBelow m.faces m.vertices.length ∧
  m.faceNormals.length = m.faces.length ∧
  m.indices = flattenFaces m.faces ∧
  ∀ v x, m.vertices[v]? = some x → x.Normal = accumulatedNormal m.faces m.faceNormals v

/-- Every face record among the lines has `unsigned int` fields that lie between 1 and the
number of vertex records read before it, `n` of which precede the first line. -/
def WellIndexedFrom : Nat → List (Line K) → Prop
  | _, [] => True
  | n, l :: rest =>
    if l.tag = "v" then WellIndexedFrom (n + 1) rest
    else if l.tag = "f" then
      (l.IsU32 ∧ (1 ≤ l.v1 ∧ l.v1 ≤ n) ∧ (1 ≤ l.v2 ∧ l.v2 ≤ n) ∧ (1 ≤ l.v3 ∧ l.v3 ≤ n)) ∧
        WellIndexedFrom n rest
    else WellIndexedFrom n rest

/-- The method `Model::toggleNormalMode` called `n` times in a row. -/
def toggleTimes : Nat → Model K → Option (Model K)
  | 0, m => some m
  | n + 1, m =>
    match toggleNormalMode m with
    | none => none
    | some m1 => toggleTimes n m1

/-- The shape invariant of the mesh: the index buffer is the flattening of the face list, three
entries per face, and `faceNormals` is parallel to `faces`. -/
def MeshShape (m : Model K) : Prop :=
  m.indices.length = 3 * m.faces.length ∧
  m.indices = flattenFaces m.faces ∧
  (∀ i f, m.faces[i]? = some f →
    m.indices[3 * i]? = some f.v1 ∧ m.indices[3 * i + 1]? = some f.v2 ∧
    m.indices[3 * i + 2]? = some f.v3) ∧
  m.faceNormals.length = m.faces.length

/-- Two models hold the same mesh: positions and stored normals, faces, face normals, index
buffer and uploaded index data. -/
def SameMesh (m m' : Model K) : Prop :=
  m'.vertices = m.vertices ∧ m'.faces = m.faces ∧ m'.faceNormals = m.faceNormals ∧
  m'.indices = m.indices ∧ m'.eboData = m.eboData ∧ m'.modelColor = m.modelColor

/-! ### A rational instance of the math primitives -/

/-- Heron iteration for the square root of `q`, `n` steps from `x`. -/
def heron (q : ℚ) : Nat → ℚ → ℚ
  | 0, x => x
  | n + 1, x => heron q n ((x + q / x) / 2)

/-- Rational approximation of the square root. -/
def ratSqrt (q : ℚ) : ℚ := if q ≤ 0 then 0 else heron q 6 1

/-- Rational approximations of the math primitives: Heron square root, Taylor polynomials for
cosine and sine, and `355/113` for π. -/
def ratOps : FloatOps ℚ where
  sqrt := ratSqrt
  inversesqrt q := 1 / ratSqrt q
  cos t := 1 - t ^ 2 / 2 + t ^ 4 / 24
  sin t := t - t ^ 3 / 6 + t ^ 5 / 120
  radians d := d * (355 / 113) / 180

/-! ### A small mesh for running the model -/

/-- A mesh file: four vertex records, a comment line, and two faces that share the vertices
`1` and `3`. -/
def demoLines : List (Line ℚ) :=
  [Line.vertex 0 0 0, Line.vertex 1 0 0, Line.vertex 0 1 0, Line.vertex 0 0 1,
   ⟨"#", 0, 0, 0, 0, 0, 0⟩, Line.face 1 2 3, Line.face 1 3 4]

/-- The members after `loadModel` on `demoLines`. -/
def demoLoaded : Model ℚ :=
  { vertices :=
      [⟨⟨0, 0, 0⟩, Vec3.normalize ratOps ⟨1, 0, 1⟩⟩, ⟨⟨1, 0, 0⟩, ⟨0, 0, 1⟩⟩,
       ⟨⟨0, 1, 0⟩, Vec3.normalize ratOps ⟨1, 0, 1⟩⟩, ⟨⟨0, 0, 1⟩, ⟨1, 0, 0⟩⟩]
    faces := [⟨0, 1, 2⟩, ⟨0, 2, 3⟩]
    faceNormals := [⟨0, 0, 1⟩, ⟨1, 0, 0⟩]
    indices := [0, 1, 2, 0, 2, 3]
    modelColor := Vec3.zero
    useVertexNormal := false
    vboData := []
    eboData := [] }

/-- The colour drawn for the demo model. -/
def demoColor : Vec3 ℚ := ⟨1 / 2, 1 / 4, 3 / 4⟩

/-- The model the constructor builds from `demoLines`. -/
def demoModel : Model ℚ :=
  { demoLoaded with
    vboData := meshData demoLoaded.vertices
    eboData := demoLoaded.indices
    useVertexNormal := true
    modelColor := demoColor }

/-- The demo model with the flag switched to face-normal mode, before the upload. -/
def demoFaceMode : Model ℚ := { demoModel with useVertexNormal := false }

/-- The demo model after one call of `toggleNormalMode`. -/
def demoToggled : Model ℚ :=
  { demoFaceMode with
    vboData := [0, 0, 0, 1, 0, 0, 1, 0, 0, 0, 0, 1, 0, 1, 0, 1, 0, 0, 0, 0, 1, 1, 0, 0] }

end ModelDefs

/-! ## Light (`include/light.h`) -/

section LightDefs

variable {K : Type} [LinearOrderedField K]

/-- The data members of `class Light`. -/
structure Light (K : Type) where
  position : Vec3 K
  ambient : Vec3 K
  diffuse : Vec3 K
  specular : Vec3 K
  intensity : K
  direction : Vec3 K

/-- The constructor `Light::Light(pos)`. -/
def Light.new (pos : Vec3 K) : Light K :=
  { position := pos
    ambient := ⟨0.2, 0.2, 0.2⟩
    diffuse := ⟨0.5, 0.5, 0.5⟩
    specular := ⟨1, 1, 1⟩
    intensity := 1
    direction := ⟨0, -1, 0⟩ }

/-- The light built with the constructor argument at its default. -/
def Light.default : Light K := Light.new ⟨0, 1, -1⟩

/-- The method `Light::adjustIntensity`. -/
def Light.adjustIntensity (l : Light K) (amount : K) : Light K :=
  let l1 : Light K := { l with intensity := l.intensity + amount }
  let l2 : Light K := if l1.intensity < 0.1 then { l1 with intensity := 0.1 } else l1
  if l2.intensity > 3 then { l2 with intensity := 3 } else l2

/-- The method `Light::move`. -/
def Light.move (l : Light K) (offset : Vec3 K) : Light K :=
  { l with position := l.position + offset }

/-- The method `Light::getDirection`. -/
def Light.getDirection (l : Light K) : Vec3 K := l.direction

/-- The expression `glm::vec3(glm::rotate(glm::mat4(1.0f), angle, axis) * glm::vec4(d, 0.0f))`.
The glm library is not part of the repository: `glm::rotate` on the identity is the rotation
matrix about the normalized axis, with columns
`(c + t.x a.x, t.x a.y + s a.z, t.x a.z - s a.y)`, `(t.y a.x - s a.z, c + t.y a.y, t.y a.z + s a.x)`,
`(t.z a.x + s a.y, t.z a.y - s a.x, c + t.z a.z)` for `c = cos angle`, `s = sin angle`,
`a = normalize axis`, `t = (1 - c) a`; the fourth component of the vector is zero. -/
def rotateDirection (ops : FloatOps K) (angle : K) (axis d : Vec3 K) : Vec3 K :=
  let c := ops.cos angle
  let s := ops.sin angle
  let a := Vec3.normalize ops axis
  let t : Vec3 K := ⟨(1 - c) * a.x, (1 - c) * a.y, (1 - c) * a.z⟩
  ⟨(c + t.x * a.x) * d.x + (t.y * a.x - s * a.z) * d.y + (t.z * a.x + s * a.y) * d.z,
   (t.x * a.y + s * a.z) * d.x + (c + t.y * a.y) * d.y + (t.z * a.y - s * a.x) * d.z,
   (t.x * a.z - s * a.y) * d.x + (t.y * a.z + s * a.x) * d.y + (c + t.z * a.z) * d.z⟩

/-- The method `Light::rotate`.  The body never reads `pivot`. -/
def Light.rotate (ops : FloatOps K) (l : Light K) (angle : K) (axis _pivot : Vec3 K) : Light K :=
  let l1 : Light K := { l with direction := rotateDirection ops angle axis l.direction }
  { l1 with direction := Vec3.normalize ops l1.direction }

/-- The three colour vectors `Light::setUniforms` passes to the shader, each scaled by the
intensity: ambient, diffuse, specular. -/
def Light.scaledColors (l : Light K) : Vec3 K × Vec3 K × Vec3 K :=
  (l.ambient * l.intensity, l.diffuse * l.intensity, l.specular * l.intensity)

end LightDefs

/-! ## Specification-side predicates for the later theorems -/

section SpecDefs

variable {K : Type} [LinearOrderedField K]

/-- Every face record's three indices are `unsigned int` values that lie between 1 and the number
of vertex records that precede the record in the file. -/
def WellIndexed (lines : List (Line K)) : Prop :=
  ∀ (pre : List (Line K)) (l : Line K) (post : List (Line K)), lines = pre ++ l :: post →
    l.tag = "f" →
    l.IsU32 ∧ (1 ≤ l.v1 ∧ l.v1 ≤ (vertexPositions pre).length) ∧
    (1 ≤ l.v2 ∧ l.v2 ≤ (vertexPositions pre).length) ∧
    (1 ≤ l.v3 ∧ l.v3 ≤ (vertexPositions pre).length)

/-- The lines of a file that `loadModel` acts on: vertex records and face records. -/
def recognizedLines (lines : List (Line K)) : List (Line K) :=
  lines.filter fun l => l.tag = "v" ∨ l.tag = "f"

/-- The local `front` of `updateCameraVectors` before it is normalized. -/
def rawFront (ops : FloatOps K) (yaw pitch : K) : Vec3 K :=
  ⟨ops.cos (ops.radians yaw) * ops.cos (ops.radians pitch),
   ops.sin (ops.radians pitch),
   ops.sin (ops.radians yaw) * ops.cos (ops.radians pitch)⟩

/-- Closed form of the right vector for the world up vector `(0, 1, 0)`. -/
def explicitRight (ops : FloatOps K) (yaw : K) : Vec3 K :=
  ⟨-ops.sin (ops.radians yaw), 0, ops.cos (ops.radians yaw)⟩

/-- Closed form of the up vector for the world up vector `(0, 1, 0)`. -/
def explicitUp (ops : FloatOps K) (yaw pitch : K) : Vec3 K :=
  ⟨-(ops.sin (ops.radians pitch) * ops.cos (ops.radians yaw)),
   ops.cos (ops.radians pitch),
   -(ops.sin (ops.radians yaw) * ops.sin (ops.radians pitch))⟩

/-- Three mutually orthogonal vectors of length one. -/
def OrthonormalBasis (ops : FloatOps K) (a b c : Vec3 K) : Prop :=
  Vec3.length ops a = 1 ∧ Vec3.length ops b = 1 ∧ Vec3.length ops c = 1 ∧
  Vec3.dot a b = 0 ∧ Vec3.dot a c = 0 ∧ Vec3.dot b c = 0

/-- Every rotation among the calls clamps the pitch (`constrainPitch = true`, the default). -/
def PitchConstrained : List (CameraOp K) → Prop
  | [] => True
  | .rotate _ _ cp :: rest => cp = true ∧ PitchConstrained rest
  | .pan _ _ :: rest => PitchConstrained rest
  | .zoom _ :: rest => PitchConstrained rest

/-- A mesh file with one face whose three vertices lie on a line. -/
def degenerateLines : List (Line K) :=
  [Line.vertex 0 0 0, Line.vertex 1 0 0, Line.vertex 2 0 0, Line.face 1 2 3]

end SpecDefs

/-! ## IEEE 754 binary32 arithmetic

The program computes in `float`.  To exhibit a rounding error the camera is embedded a second
time over the finite binary32 numbers with round-to-nearest-even, the arithmetic of `+`, `-`,
`*`, `/` and `sqrt` on the target.  Overflow, infinities and NaN are not modelled (the model
divides by zero to zero); every value that occurs in the theorems below is finite. -/

section Binary32Defs

set_option exponentiation.threshold 1024

/-- A finite binary32 number: sign and magnitude, the magnitude counted in units of `2^-149`,
the smallest positive binary32 number. -/
structure F32 where
  neg : Bool
  mag : Nat
deriving DecidableEq

namespace F32

/-- The number with the given sign and magnitude; zero always gets the positive sign, so that
two numbers are equal as terms exactly if they are equal as numbers. -/
def ofMag (neg : Bool) (mag : Nat) : F32 := if mag = 0 then ⟨false, 0⟩ else ⟨neg, mag⟩

/-- The least `s` from `s0` upwards, within the fuel, for which `n / 2^s` fits 24 bits. -/
def findShift : Nat → Nat → Nat → Nat
  | 0, s, _ => s
  | fuel + 1, s, n => if n / 2 ^ s < 2 ^ 24 then s else findShift fuel (s + 1) n

/-- Round to nearest, ties to even: the multiple of `2^s` nearest to `n`, where `s` is the least
exponent from `minShift` upwards that leaves at most 24 significant bits. -/
def roundNat (minShift n : Nat) : Nat :=
  let shift := findShift 1000 minShift n
  let q := n / 2 ^ shift
  let r := n % 2 ^ shift
  let q1 := if 2 * r > 2 ^ shift ∨ (2 * r = 2 ^ shift ∧ q % 2 = 1) then q + 1 else q
  q1 * 2 ^ shift

/-- The binary32 quotient of two natural numbers, as a magnitude: the quotient is taken with 64
further binary places and a sticky bit, then rounded. -/
def divMag (n d : Nat) : Nat :=
  let num := n * 2 ^ (149 + 64)
  let t := num / d
  let sticky := if num % d = 0 then 0 else 1
  roundNat 65 (2 * t + sticky) / 2 ^ 65

/-- Integer square root by bisection on the bits below `2^b`. -/
def isqrtAux : Nat → Nat → Nat → Nat
  | 0, _, acc => acc
  | b + 1, n, acc =>
    if (acc + 2 ^ b) * (acc + 2 ^ b) ≤ n then isqrtAux b n (acc + 2 ^ b) else isqrtAux b n acc

/-- Integer square root of a number below `2^600`. -/
def isqrt (n : Nat) : Nat := isqrtAux 300 n 0

/-- Float addition, `a + b`. -/
def add (a b : F32) : F32 :=
  if a.neg = b.neg then ofMag a.neg (roundNat 0 (a.mag + b.mag))
  else if b.mag ≤ a.mag then ofMag a.neg (roundNat 0 (a.mag - b.mag))
  else ofMag b.neg (roundNat 0 (b.mag - a.mag))

/-- Float negation, `-a`. -/
def negate (a : F32) : F32 := ofMag (!a.neg) a.mag

/-- Float subtraction, `a - b`. -/
def sub (a b : F32) : F32 := add a (negate b)

/-- Float multiplication, `a * b`. -/
def mul (a b : F32) : F32 := ofMag (a.neg != b.neg) (roundNat 149 (a.mag * b.mag) / 2 ^ 149)

/-- Float division, `a / b`. -/
def div (a b : F32) : F32 := ofMag (a.neg != b.neg) (divMag a.mag b.mag)

/-- Float square root, `sqrt(a)`, correctly rounded. -/
def sqrt (a : F32) : F32 :=
  let num := a.mag * 2 ^ 149 * 2 ^ 128
  let t := isqrt num
  let sticky := if t * t = num then 0 else 1
  ofMag false (roundNat 65 (2 * t + sticky) / 2 ^ 65)

/-- The comparison `a < b`. -/
def lt (a b : F32) : Bool :=
  if a.neg then (if b.neg then decide (b.mag < a.mag) else decide (0 < a.mag + b.mag))
  else (if b.neg then false else decide (a.mag < b.mag))

/-- The float nearest to a natural number, such as the literal `89.0f`. -/
def ofNat (n : Nat) : F32 := ofMag false (roundNat 0 (n * 2 ^ 149))

/-- The float nearest to a decimal literal `m * 10^-e`, such as `0.15f`. -/
def ofDecimal (m e : Nat) : F32 := ofMag false (divMag m (10 ^ e))

/-- The float with the given IEEE 754 bit pattern (finite patterns only). -/
def ofBits (b : Nat) : F32 :=
  ofMag (decide (b / 2 ^ 31 = 1))
    (if b / 2 ^ 23 % 256 = 0 then b % 2 ^ 23 else (2 ^ 23 + b % 2 ^ 23) * 2 ^ (b / 2 ^ 23 % 256 - 1))

instance : Add F32 := ⟨add⟩
instance : Sub F32 := ⟨sub⟩
instance : Mul F32 := ⟨mul⟩
instance : Div F32 := ⟨div⟩
instance : Neg F32 := ⟨negate⟩
instance : LT F32 := ⟨fun a b => lt a b = true⟩
instance (a b : F32) : Decidable (a < b) := inferInstanceAs (Decidable (lt a b = true))
instance (n : Nat) : OfNat F32 n := ⟨ofNat n⟩
instance : OfScientific F32 := ⟨fun m s e => if s then ofDecimal m e else ofNat (m * 10 ^ e)⟩

end F32

/-! ### The camera in binary32

The same methods as in the section on the orbit camera, statement for statement, with the
binary32 operations in place of the field operations. -/

namespace Binary32

/-- Componentwise sum, `a + b`. -/
def add (a b : Vec3 F32) : Vec3 F32 := ⟨a.x + b.x, a.y + b.y, a.z + b.z⟩

/-- Componentwise difference, `a - b`. -/
def sub (a b : Vec3 F32) : Vec3 F32 := ⟨a.x - b.x, a.y - b.y, a.z - b.z⟩

/-- Vector times scalar, `v * s`. -/
def scale (v : Vec3 F32) (s : F32) : Vec3 F32 := ⟨v.x * s, v.y * s, v.z * s⟩

instance : Add (Vec3 F32) := ⟨add⟩
instance : Sub (Vec3 F32) := ⟨sub⟩
instance : HMul (Vec3 F32) F32 (Vec3 F32) := ⟨scale⟩

/-- Scalar product, `glm::dot`. -/
def dot (a b : Vec3 F32) : F32 := a.x * b.x + a.y * b.y + a.z * b.z

/-- Vector product, `glm::cross`. -/
def cross (a b : Vec3 F32) : Vec3 F32 :=
  ⟨a.y * b.z - b.y * a.z, a.z * b.x - b.z * a.x, a.x * b.y - b.x * a.y⟩

/-- Euclidean length, `glm::length(v) = sqrt(dot(v, v))`. -/
def length (ops : FloatOps F32) (v : Vec3 F32) : F32 := ops.sqrt (dot v v)

/-- Unit vector, `glm::normalize(v) = v * inversesqrt(dot(v, v))`. -/
def normalize (ops : FloatOps F32) (v : Vec3 F32) : Vec3 F32 := v * ops.inversesqrt (dot v v)

/-- The private method `Camera::updateCameraVectors`. -/
def updateCameraVectors (ops : FloatOps F32) (c : Camera F32) : Camera F32 :=
  let front : Vec3 F32 :=
    ⟨ops.cos (ops.radians c.Yaw) * ops.cos (ops.radians c.Pitch),
     ops.sin (ops.radians c.Pitch),
     ops.sin (ops.radians c.Yaw) * ops.cos (ops.radians c.Pitch)⟩
  let c1 : Camera F32 := { c with Front := normalize ops front }
  let c2 : Camera F32 := { c1 with Position := c1.Target - c1.Front * c1.Distance }
  let c3 : Camera F32 := { c2 with Right := normalize ops (cross c2.Front c2.WorldUp) }
  { c3 with Up := normalize ops (cross c3.Right c3.Front) }

/-- The constructor `Camera::Camera(position, up, yaw, pitch)`. -/
def Camera.new (ops : FloatOps F32) (position up : Vec3 F32) (yaw pitch : F32) : Camera F32 :=
  updateCameraVectors ops
    { Position := position
      Front := ⟨0, 0, -1⟩
      Up := ⟨0, 0, 0⟩
      Right := ⟨0, 0, 0⟩
      WorldUp := up
      Target := ⟨0, 0, 0⟩
      Yaw := yaw
      Pitch := pitch
      Distance := 5
      MouseSensitivity := 0.15
      Zoom := 45 }

/-- The camera built with every constructor argument at its default. -/
def Camera.default (ops : FloatOps F32) : Camera F32 :=
  Camera.new ops ⟨0, 0, 5⟩ ⟨0, 1, 0⟩ (-90) 0

/-- The method `Camera::ProcessMouseMovement` (orbit rotation). -/
def ProcessMouseMovement (ops : FloatOps F32) (c : Camera F32) (xoffset yoffset : F32)
    (constrainPitch : Bool) : Camera F32 :=
  let xoffset := xoffset * c.MouseSensitivity
  let yoffset := yoffset * c.MouseSensitivity
  let c1 : Camera F32 := { c with Yaw := c.Yaw + xoffset }
  let c2 : Camera F32 := { c1 with Pitch := c1.Pitch + yoffset }
  let c3 : Camera F32 :=
    if constrainPitch then
      let d1 : Camera F32 := if c2.Pitch > 89 then { c2 with Pitch := 89 } else c2
      if d1.Pitch < -89 then { d1 with Pitch := -89 } else d1
    else c2
  updateCameraVectors ops c3

/-- The method `Camera::ProcessMousePan` (translation of target and position). -/
def ProcessMousePan (c : Camera F32) (xoffset yoffset : F32) : Camera F32 :=
  let sensitivity : F32 := 0.01
  let offset : Vec3 F32 := c.Right * (-xoffset * sensitivity) - c.Up * (yoffset * sensitivity)
  let c1 : Camera F32 := { c with Target := c.Target + offset }
  { c1 with Position := c1.Position + offset }

/-- The method `Camera::ProcessMouseScroll` (field of view and distance). -/
def ProcessMouseScroll (ops : FloatOps F32) (c : Camera F32) (yoffset : F32) : Camera F32 :=
  let c1 : Camera F32 := { c with Zoom := c.Zoom - yoffset }
  let c2 : Camera F32 := if c1.Zoom < 1 then { c1 with Zoom := 1 } else c1
  let c3 : Camera F32 := if c2.Zoom > 90 then { c2 with Zoom := 90 } else c2
  let c4 : Camera F32 := { c3 with Distance := c3.Distance - yoffset * 0.3 }
  let c5 : Camera F32 := if c4.Distance < 1 then { c4 with Distance := 1 } else c4
  let c6 : Camera F32 := if c5.Distance > 20 then { c5 with Distance := 20 } else c5
  updateCameraVectors ops c6

/-- Performs one mutating call. -/
def run (ops : FloatOps F32) (c : Camera F32) : CameraOp F32 → Camera F32
  | .rotate dx dy cp => ProcessMouseMovement ops c dx dy cp
  | .pan dx dy => ProcessMousePan c dx dy
  | .zoom dy => ProcessMouseScroll ops c dy

/-- Performs a sequence of mutating calls, first to last. -/
def runCameraOps (ops : FloatOps F32) (c : Camera F32) (calls : List (CameraOp F32)) :
    Camera F32 :=
  calls.foldl (run ops) c

/-- The library functions as a table.  `sqrt` is the float square root, `inversesqrt(x)` is
`1 / sqrt(x)` and `glm::radians` is the product with `0.017453292f` (bits `0x3c8efa35`), the
float nearest to `π / 180`.  Cosine and sine are given at the three arguments that occur:
`radians(-90) = -1.5707964f` (bits `0xbfc90fdb`), where the sine is `-1` and the cosine is the
parameter `cy`; `radians(45) = 0.7853982f` (bits `0x3f490fdb`), where cosine and sine are the
parameters `cp` and `sp`; and `radians(0) = 0`, where they are `1` and `0`. -/
def tableOps (cy cp sp : F32) : FloatOps F32 where
  sqrt := F32.sqrt
  inversesqrt x := 1 / F32.sqrt x
  radians d := d * F32.ofBits 0x3c8efa35
  cos t := if t = F32.ofBits 0xbfc90fdb then cy else if t = F32.ofBits 0x3f490fdb then cp else 1
  sin t := if t = F32.ofBits 0xbfc90fdb then -1 else if t = F32.ofBits 0x3f490fdb then sp else 0

/-- The table with the correctly rounded results: `cos(-1.5707964f) = -4.371139e-8f` (bits
`0xb33bbd2e`) and `cos(0.7853982f) = sin(0.7853982f) = 0.70710677f` (bits `0x3f3504f3`). -/
def roundedOps : FloatOps F32 :=
  tableOps (F32.ofBits 0xb33bbd2e) (F32.ofBits 0x3f3504f3) (F32.ofBits 0x3f3504f3)

end Binary32

end Binary32Defs

/-! ### Specification-side predicates for the binary32 camera -/

section Binary32SpecDefs

set_option exponentiation.threshold 1024

namespace Binary32

/-- The local `front` of `updateCameraVectors` before it is normalized. -/
def rawFront (ops : FloatOps F32) (yaw pitch : F32) : Vec3 F32 :=
  ⟨ops.cos (ops.radians yaw) * ops.cos (ops.radians pitch),
   ops.sin (ops.radians pitch),
   ops.sin (ops.radians yaw) * ops.cos (ops.radians pitch)⟩

/-- The cached `Front`, `Right`, `Up` are the values derived from yaw, pitch and world up. -/
def Derived (ops : FloatOps F32) (c : Camera F32) : Prop :=
  c.Front = normalize ops (rawFront ops c.Yaw c.Pitch) ∧
  c.Right = normalize ops (cross c.Front c.WorldUp) ∧
  c.Up = normalize ops (cross c.Right c.Front)

/-- The round-trip law `Position = Target - Front * Distance`. -/
def PositionLaw (c : Camera F32) : Prop :=
  c.Position = c.Target - c.Front * c.Distance

/-- Every rotation among the calls clamps the pitch (`constrainPitch = true`, the default). -/
def PitchConstrained : List (CameraOp F32) → Prop
  | [] => True
  | .rotate _ _ cp :: rest => cp = true ∧ PitchConstrained rest
  | .pan _ _ :: rest => PitchConstrained rest
  | .zoom _ :: rest => PitchConstrained rest

/-- The four library results that `updateCameraVectors` uses are in range: cosines and sines of
magnitude at most 1, the cosine of the pitch of magnitude at least `2^-6`, and the cosine or the
sine of the yaw of magnitude at least `1/2`. -/
def TrigInRange (ops : FloatOps F32) (yaw pitch : F32) : Prop :=
  (ops.cos (ops.radians yaw)).mag ≤ 2 ^ 149 ∧ (ops.sin (ops.radians yaw)).mag ≤ 2 ^ 149 ∧
  (ops.cos (ops.radians pitch)).mag ≤ 2 ^ 149 ∧ (ops.sin (ops.radians pitch)).mag ≤ 2 ^ 149 ∧
  2 ^ 143 ≤ (ops.cos (ops.radians pitch)).mag ∧
  (2 ^ 148 ≤ (ops.cos (ops.radians yaw)).mag ∨ 2 ^ 148 ≤ (ops.sin (ops.radians yaw)).mag)

end Binary32

end Binary32SpecDefs

/-! ## Theorems: orbit camera -/

section CameraTheorems

variable {K : Type} [LinearOrderedField K]

theorem Vec3.add_def (a b : Vec3 K) : a + b = ⟨a.x + b.x, a.y + b.y, a.z + b.z⟩ := rfl

theorem Vec3.sub_def (a b : Vec3 K) : a - b = ⟨a.x - b.x, a.y - b.y, a.z - b.z⟩ := rfl

theorem Vec3.mul_def (v : Vec3 K) (s : K) : v * s = ⟨v.x * s, v.y * s, v.z * s⟩ := rfl

/-- In a field, translating minuend and difference by the same offset keeps the difference law.
The binary32 operations do not satisfy this equation. -/
theorem Vec3.sub_add_offset (t w o : Vec3 K) : (t - w) + o = (t + o) - w := by
  simp only [Vec3.add_def, Vec3.sub_def]
  ext <;> simp <;> ring

/-- Whatever the state before, `updateCameraVectors` establishes cache consistency. -/
theorem updateCameraVectors_consistent (ops : FloatOps K) (c : Camera K) :
    CacheConsistent ops (updateCameraVectors ops c) :=
  ⟨rfl, rfl, rfl, rfl⟩

/-- In exact arithmetic the method `ProcessMousePan` keeps a consistent cache consistent. -/
theorem ProcessMousePan_consistent (ops : FloatOps K) (c : Camera K) (dx dy : K)
    (h : CacheConsistent ops c) : CacheConsistent ops (ProcessMousePan c dx dy) := by
  obtain ⟨hp, hf, hr, hu⟩ := h
  refine ⟨?_, hf, hr, hu⟩
  show c.Position + _ = (c.Target + _) - c.Front * c.Distance
  rw [hp]
  exact Vec3.sub_add_offset _ _ _

/-- In exact arithmetic every mutating call keeps a consistent cache consistent. -/
theorem CameraOp.run_consistent (ops : FloatOps K) (c : Camera K) (call : CameraOp K)
    (h : CacheConsistent ops c) : CacheConsistent ops (call.run ops c) := by
  cases call with
  | rotate dx dy cp => exact updateCameraVectors_consistent ops _
  | pan dx dy => exact ProcessMousePan_consistent ops c dx dy h
  | zoom dy => exact updateCameraVectors_consistent ops _

/-- In exact arithmetic a sequence of mutating calls keeps a consistent cache consistent. -/
theorem runCameraOps_consistent (ops : FloatOps K) (calls : List (CameraOp K)) :
    ∀ c : Camera K, CacheConsistent ops c → CacheConsistent ops (runCameraOps ops c calls) := by
  induction calls with
  | nil => intro c h; exact h
  | cons call rest ih =>
    intro c h
    exact ih _ (CameraOp.run_consistent ops c call h)

theorem updateCameraVectors_frame (ops : FloatOps K) (c : Camera K) :
    (updateCameraVectors ops c).Yaw = c.Yaw ∧ (updateCameraVectors ops c).Pitch = c.Pitch ∧
    (updateCameraVectors ops c).Target = c.Target ∧
    (updateCameraVectors ops c).Distance = c.Distance ∧
    (updateCameraVectors ops c).Zoom = c.Zoom ∧
    (updateCameraVectors ops c).WorldUp = c.WorldUp ∧
    (updateCameraVectors ops c).MouseSensitivity = c.MouseSensitivity :=
  ⟨rfl, rfl, rfl, rfl, rfl, rfl, rfl⟩

/-- The two guarded assignments of the code compute `clamp`, when `lo ≤ hi`. -/
theorem clamp_low_then_high (x lo hi : K) (h : lo ≤ hi) :
    (if (if x < lo then lo else x) > hi then hi else (if x < lo then lo else x)) =
      clamp x lo hi := by
  unfold clamp
  split_ifs <;> first | rfl | (exfalso; linarith)

/-- The guarded assignments in the order high, low compute `clamp` as well. -/
theorem clamp_high_then_low (x lo hi : K) (h : lo ≤ hi) :
    (if (if x > hi then hi else x) < lo then lo else (if x > hi then hi else x)) =
      clamp x lo hi := by
  unfold clamp
  split_ifs <;> first | rfl | (exfalso; linarith)

theorem clamp_mem (x lo hi : K) (h : lo ≤ hi) : lo ≤ clamp x lo hi ∧ clamp x lo hi ≤ hi := by
  unfold clamp
  split_ifs <;> constructor <;> linarith

theorem ProcessMouseScroll_Zoom (ops : FloatOps K) (c : Camera K) (dy : K) :
    (ProcessMouseScroll ops c dy).Zoom = clamp (c.Zoom - dy) 1 90 := by
  rw [← clamp_low_then_high _ _ _ (by norm_num)]
  simp only [ProcessMouseScroll, updateCameraVectors]
  split_ifs <;> rfl

theorem ProcessMouseScroll_Distance (ops : FloatOps K) (c : Camera K) (dy : K) :
    (ProcessMouseScroll ops c dy).Distance = clamp (c.Distance - 0.3 * dy) 1 20 := by
  rw [← clamp_low_then_high _ _ _ (by norm_num), mul_comm (0.3 : K) dy]
  simp only [ProcessMouseScroll, updateCameraVectors]
  split_ifs <;> rfl

theorem ProcessMouseScroll_frame (ops : FloatOps K) (c : Camera K) (dy : K) :
    (ProcessMouseScroll ops c dy).Yaw = c.Yaw ∧ (ProcessMouseScroll ops c dy).Pitch = c.Pitch ∧
    (ProcessMouseScroll ops c dy).Target = c.Target := by
  simp only [ProcessMouseScroll, updateCameraVectors]
  split_ifs <;> exact ⟨rfl, rfl, rfl⟩

/-- C2: for every camera state and every scroll delta, `ProcessMouseScroll` sets `Zoom` to
`clamp (Zoom - dy) 1 90` and `Distance` to `clamp (Distance - 0.3 * dy) 1 20` in the same call,
so both lie in their intervals afterwards; `Yaw`, `Pitch` and `Target` are unchanged. -/
theorem ProcessMouseScroll_spec (ops : FloatOps K) (c : Camera K) (dy : K) :
    (ProcessMouseScroll ops c dy).Zoom = clamp (c.Zoom - dy) 1 90 ∧
    (ProcessMouseScroll ops c dy).Distance = clamp (c.Distance - 0.3 * dy) 1 20 ∧
    (1 ≤ (ProcessMouseScroll ops c dy).Zoom ∧ (ProcessMouseScroll ops c dy).Zoom ≤ 90) ∧
    (1 ≤ (ProcessMouseScroll ops c dy).Distance ∧
      (ProcessMouseScroll ops c dy).Distance ≤ 20) ∧
    (ProcessMouseScroll ops c dy).Yaw = c.Yaw ∧
    (ProcessMouseScroll ops c dy).Pitch = c.Pitch ∧
    (ProcessMouseScroll ops c dy).Target = c.Target := by
  refine ⟨ProcessMouseScroll_Zoom ops c dy, ProcessMouseScroll_Distance ops c dy, ?_, ?_,
    ?_, ?_, ?_⟩
  · rw [ProcessMouseScroll_Zoom]; exact clamp_mem _ _ _ (by norm_num)
  · rw [ProcessMouseScroll_Distance]; exact clamp_mem _ _ _ (by norm_num)
  · exact (ProcessMouseScroll_frame ops c dy).1
  · exact (ProcessMouseScroll_frame ops c dy).2.1
  · exact (ProcessMouseScroll_frame ops c dy).2.2

/-- The constructor sets the sensitivity to `SENSITIVITY` and no mutating call changes it. -/
theorem runCameraOps_MouseSensitivity (ops : FloatOps K) (calls : List (CameraOp K)) :
    ∀ c : Camera K, (runCameraOps ops c calls).MouseSensitivity = c.MouseSensitivity := by
  induction calls with
  | nil => intro c; rfl
  | cons call rest ih =>
    intro c
    show (runCameraOps ops (call.run ops c) rest).MouseSensitivity = _
    rw [ih]
    cases call with
    | rotate dx dy cp =>
      simp only [CameraOp.run, ProcessMouseMovement, updateCameraVectors]
      split_ifs <;> rfl
    | pan dx dy => rfl
    | zoom dy =>
      simp only [CameraOp.run, ProcessMouseScroll, updateCameraVectors]
      split_ifs <;> rfl

theorem ProcessMouseMovement_Pitch (ops : FloatOps K) (c : Camera K) (dx dy : K) :
    (ProcessMouseMovement ops c dx dy true).Pitch =
      clamp (c.Pitch + dy * c.MouseSensitivity) (-89) 89 := by
  rw [← clamp_high_then_low _ _ _ (by norm_num)]
  simp only [ProcessMouseMovement, updateCameraVectors]
  split_ifs <;> rfl

/-- C3: for every camera state whose sensitivity is the constant `SENSITIVITY = 0.15` set by the
constructor, `ProcessMouseMovement dx dy` with `constrainPitch = true` sets `Yaw` to
`Yaw + 0.15 * dx` without clamping or wrapping and `Pitch` to `clamp (Pitch + 0.15 * dy) (-89) 89`,
so the new `Pitch` lies between `-89` and `89`; `Target`, `Distance` and `Zoom` are unchanged. -/
theorem ProcessMouseMovement_spec (ops : FloatOps K) (c : Camera K) (dx dy : K)
    (hs : c.MouseSensitivity = SENSITIVITY) :
    (ProcessMouseMovement ops c dx dy true).Yaw = c.Yaw + 0.15 * dx ∧
    (ProcessMouseMovement ops c dx dy true).Pitch = clamp (c.Pitch + 0.15 * dy) (-89) 89 ∧
    (-89 ≤ (ProcessMouseMovement ops c dx dy true).Pitch ∧
      (ProcessMouseMovement ops c dx dy true).Pitch ≤ 89) ∧
    (ProcessMouseMovement ops c dx dy true).Target = c.Target ∧
    (ProcessMouseMovement ops c dx dy true).Distance = c.Distance ∧
    (ProcessMouseMovement ops c dx dy true).Zoom = c.Zoom := by
  have hp := ProcessMouseMovement_Pitch ops c dx dy
  rw [hs] at hp
  have hp2 : (ProcessMouseMovement ops c dx dy true).Pitch =
      clamp (c.Pitch + 0.15 * dy) (-89) 89 := by
    rw [hp, mul_comm dy]; rfl
  refine ⟨?_, hp2, ?_, ?_, ?_, ?_⟩
  · have : (ProcessMouseMovement ops c dx dy true).Yaw = c.Yaw + dx * c.MouseSensitivity := by
      simp only [ProcessMouseMovement, updateCameraVectors]
      split_ifs <;> rfl
    rw [this, hs, mul_comm dx]; rfl
  · rw [hp2]; exact clamp_mem _ _ _ (by norm_num)
  all_goals
    simp only [ProcessMouseMovement, updateCameraVectors, if_true]
    split_ifs <;> rfl

/-- Witness for C3: the default camera, rotated by `(10, 1000)`; the pitch is clamped. -/
theorem ProcessMouseMovement_spec_witness :
    (Camera.default ratOps).MouseSensitivity = SENSITIVITY ∧
    (ProcessMouseMovement ratOps (Camera.default ratOps) 10 1000 true).Yaw =
      (Camera.default ratOps).Yaw + 0.15 * 10 ∧
    (ProcessMouseMovement ratOps (Camera.default ratOps) 10 1000 true).Pitch =
      clamp ((Camera.default ratOps).Pitch + 0.15 * 1000) (-89) 89 :=
  ⟨rfl, (ProcessMouseMovement_spec ratOps (Camera.default ratOps) 10 1000 rfl).1,
    (ProcessMouseMovement_spec ratOps (Camera.default ratOps) 10 1000 rfl).2.1⟩

/-- C4: for every camera state and every `(dx, dy)`, `ProcessMousePan` adds the one offset
`Right * (-dx * 0.01) - Up * (dy * 0.01)`, taken from the state before the call, to both `Target`
and `Position`, and leaves `Yaw`, `Pitch`, `Distance`, `Zoom`, `Front`, `Right`, `Up`, `WorldUp`
(and the sensitivity) unchanged. -/
theorem ProcessMousePan_spec (c : Camera K) (dx dy : K) :
    (ProcessMousePan c dx dy).Target =
      c.Target + (c.Right * (-dx * 0.01) - c.Up * (dy * 0.01)) ∧
    (ProcessMousePan c dx dy).Position =
      c.Position + (c.Right * (-dx * 0.01) - c.Up * (dy * 0.01)) ∧
    (ProcessMousePan c dx dy).Yaw = c.Yaw ∧
    (ProcessMousePan c dx dy).Pitch = c.Pitch ∧
    (ProcessMousePan c dx dy).Distance = c.Distance ∧
    (ProcessMousePan c dx dy).Zoom = c.Zoom ∧
    (ProcessMousePan c dx dy).Front = c.Front ∧
    (ProcessMousePan c dx dy).Right = c.Right ∧
    (ProcessMousePan c dx dy).Up = c.Up ∧
    (ProcessMousePan c dx dy).WorldUp = c.WorldUp ∧
    (ProcessMousePan c dx dy).MouseSensitivity = c.MouseSensitivity :=
  ⟨rfl, rfl, rfl, rfl, rfl, rfl, rfl, rfl, rfl, rfl, rfl⟩

end CameraTheorems

/-! ## Theorems: the cache of the orbit camera in binary32 -/

section CacheTheorems

variable {K : Type} [LinearOrderedField K]

set_option maxRecDepth 100000
set_option exponentiation.threshold 1024

/-- Whatever the state before, the binary32 `updateCameraVectors` re-derives the cache. -/
theorem Binary32.updateCameraVectors_rederives (ops : FloatOps F32) (c : Camera F32) :
    Binary32.PositionLaw (Binary32.updateCameraVectors ops c) ∧
    Binary32.Derived ops (Binary32.updateCameraVectors ops c) :=
  ⟨rfl, rfl, rfl, rfl⟩

/-- Every binary32 call keeps the derived basis: a pan writes neither the basis nor the
angles, a rotation and a zoom end in `updateCameraVectors`. -/
theorem Binary32.run_Derived (ops : FloatOps F32) (c : Camera F32) (call : CameraOp F32)
    (h : Binary32.Derived ops c) : Binary32.Derived ops (Binary32.run ops c call) := by
  cases call with
  | rotate dx dy cp => exact (Binary32.updateCameraVectors_rederives ops _).2
  | pan dx dy => exact h
  | zoom dy => exact (Binary32.updateCameraVectors_rederives ops _).2

/-- A sequence of binary32 calls keeps the derived basis. -/
theorem Binary32.runCameraOps_Derived (ops : FloatOps F32) (calls : List (CameraOp F32)) :
    ∀ c : Camera F32, Binary32.Derived ops c →
      Binary32.Derived ops (Binary32.runCameraOps ops c calls) := by
  induction calls with
  | nil => intro c h; exact h
  | cons call rest ih =>
    intro c h
    exact ih _ (Binary32.run_Derived ops c call h)

/-- C1, counterexample: in binary32 the default camera after two calls `ProcessMousePan(10, 0)`
has `Target.x = -0.19999999` (bits `0xbe4ccccc`), `Front.x = -4.371139e-8` (bits `0xb33bbd2e`),
`Distance = 5` and `Position.x = -0.19999978` (bits `0xbe4cccbe`), while `Target - Front * Distance`
has the component `x = -0.19999976` (bits `0xbe4cccbd`): after a pan `Position` is not
`Target - Front * Distance`.  The same holds if the library returns either neighbour of
`-4.371139e-8` for the cosine of `-1.5707964`. -/
theorem camera_pan_breaks_position_law :
    (Binary32.runCameraOps Binary32.roundedOps (Binary32.Camera.default Binary32.roundedOps)
      [.pan 10 0, .pan 10 0]).Target.x = F32.ofBits 0xbe4ccccc ∧
    (Binary32.runCameraOps Binary32.roundedOps (Binary32.Camera.default Binary32.roundedOps)
      [.pan 10 0, .pan 10 0]).Front.x = F32.ofBits 0xb33bbd2e ∧
    (Binary32.runCameraOps Binary32.roundedOps (Binary32.Camera.default Binary32.roundedOps)
      [.pan 10 0, .pan 10 0]).Distance = 5 ∧
    (Binary32.runCameraOps Binary32.roundedOps (Binary32.Camera.default Binary32.roundedOps)
      [.pan 10 0, .pan 10 0]).Position.x = F32.ofBits 0xbe4cccbe ∧
    ((Binary32.runCameraOps Binary32.roundedOps (Binary32.Camera.default Binary32.roundedOps)
      [.pan 10 0, .pan 10 0]).Target -
      (Binary32.runCameraOps Binary32.roundedOps (Binary32.Camera.default Binary32.roundedOps)
        [.pan 10 0, .pan 10 0]).Front *
      (Binary32.runCameraOps Binary32.roundedOps (Binary32.Camera.default Binary32.roundedOps)
        [.pan 10 0, .pan 10 0]).Distance).x = F32.ofBits 0xbe4cccbd ∧
    ¬ Binary32.PositionLaw
      (Binary32.runCameraOps Binary32.roundedOps (Binary32.Camera.default Binary32.roundedOps)
        [.pan 10 0, .pan 10 0]) ∧
    ∀ cy ∈ [F32.ofBits 0xb33bbd2d, F32.ofBits 0xb33bbd2f],
      ¬ Binary32.PositionLaw
        (Binary32.runCameraOps
          (Binary32.tableOps cy (F32.ofBits 0x3f3504f3) (F32.ofBits 0x3f3504f3))
          (Binary32.Camera.default
            (Binary32.tableOps cy (F32.ofBits 0x3f3504f3) (F32.ofBits 0x3f3504f3)))
          [.pan 10 0, .pan 10 0]) := by
  unfold Binary32.PositionLaw
  decide

/-- C1, amended: in binary32, for every library, all constructor arguments and every sequence
of rotate, pan and zoom calls, `Front`, `Right` and `Up` equal the values derived from the
current `Yaw`, `Pitch` and `WorldUp`; `Position` equals `Target - Front * Distance` after
construction and after a rotation or a zoom made in the state reached; a pan adds one and the
same offset to `Target` and to `Position` and leaves `Front`, `Yaw`, `Pitch` and `Distance` as
they are.  In exact arithmetic `Position` equals `Target - Front * Distance`, and the basis is
the derived one, after every sequence of calls, pans included. -/
theorem camera_cache_rederived (fops : FloatOps F32) (fposition fup : Vec3 F32)
    (fyaw fpitch : F32) (fcalls : List (CameraOp F32)) (ops : FloatOps K)
    (position up : Vec3 K) (yaw pitch : K) (calls : List (CameraOp K)) :
    Binary32.Derived fops
      (Binary32.runCameraOps fops (Binary32.Camera.new fops fposition fup fyaw fpitch) fcalls) ∧
    Binary32.PositionLaw (Binary32.Camera.new fops fposition fup fyaw fpitch) ∧
    (∀ dx dy cp, Binary32.PositionLaw
      (Binary32.ProcessMouseMovement fops
        (Binary32.runCameraOps fops (Binary32.Camera.new fops fposition fup fyaw fpitch) fcalls)
        dx dy cp)) ∧
    (∀ dy, Binary32.PositionLaw
      (Binary32.ProcessMouseScroll fops
        (Binary32.runCameraOps fops (Binary32.Camera.new fops fposition fup fyaw fpitch) fcalls)
        dy)) ∧
    (∀ (s : Camera F32) (dx dy : F32),
      (Binary32.ProcessMousePan s dx dy).Target =
        s.Target + (s.Right * (-dx * 0.01) - s.Up * (dy * 0.01)) ∧
      (Binary32.ProcessMousePan s dx dy).Position =
        s.Position + (s.Right * (-dx * 0.01) - s.Up * (dy * 0.01)) ∧
      (Binary32.ProcessMousePan s dx dy).Front = s.Front ∧
      (Binary32.ProcessMousePan s dx dy).Yaw = s.Yaw ∧
      (Binary32.ProcessMousePan s dx dy).Pitch = s.Pitch ∧
      (Binary32.ProcessMousePan s dx dy).Distance = s.Distance) ∧
    CacheConsistent ops (runCameraOps ops (Camera.new ops position up yaw pitch) calls) :=
  ⟨Binary32.runCameraOps_Derived fops fcalls _ (Binary32.updateCameraVectors_rederives fops _).2,
    (Binary32.updateCameraVectors_rederives fops _).1,
    fun _ _ _ => (Binary32.updateCameraVectors_rederives fops _).1,
    fun _ => (Binary32.updateCameraVectors_rederives fops _).1,
    fun _ _ _ => ⟨rfl, rfl, rfl, rfl, rfl, rfl⟩,
    runCameraOps_consistent ops calls _ (updateCameraVectors_consistent ops _)⟩

end CacheTheorems

/-! ## Theorems: mesh loader and normal engine -/

section ModelTheorems

variable {K : Type} [LinearOrderedField K]

theorem addNormal_eq_some {vs vs' : List (Vertex K)} {i : Nat} {n : Vec3 K}
    (h : addNormal vs i n = some vs') :
    ∃ v, vs[i]? = some v ∧ vs' = vs.set i { v with Normal := v.Normal + n } := by
  unfold addNormal at h
  cases hv : vs[i]? with
  | none => simp [hv] at h
  | some v =>
    simp only [hv, Option.some.injEq] at h
    exact ⟨v, rfl, h.symm⟩

theorem addNormal_length {vs vs' : List (Vertex K)} {i : Nat} {n : Vec3 K}
    (h : addNormal vs i n = some vs') : vs'.length = vs.length := by
  obtain ⟨v, _, rfl⟩ := addNormal_eq_some h
  simp

theorem addNormal_getElem? {vs vs' : List (Vertex K)} {i : Nat} {n : Vec3 K}
    (h : addNormal vs i n = some vs') (j : Nat) :
    vs'[j]? = (vs[j]?).map
      (fun v => if i = j then { v with Normal := v.Normal + n } else v) := by
  obtain ⟨v, hv, rfl⟩ := addNormal_eq_some h
  rw [List.getElem?_set]
  by_cases hij : i = j
  · subst hij
    have hlt : i < vs.length := (List.getElem?_eq_some.1 hv).1
    simp [hv, hlt]
  · simp [hij]

theorem addNormal_positions {vs vs' : List (Vertex K)} {i : Nat} {n : Vec3 K}
    (h : addNormal vs i n = some vs') :
    vs'.map (fun vertex => vertex.Position) = vs.map (fun vertex => vertex.Position) := by
  apply List.ext_getElem?
  intro j
  rw [List.getElem?_map, List.getElem?_map, addNormal_getElem? h j]
  cases vs[j]? with
  | none => rfl
  | some v =>
    simp only [Option.map_some']
    split_ifs <;> rfl

theorem addNormal_total (vs : List (Vertex K)) {i : Nat} (n : Vec3 K) (hi : i < vs.length) :
    ∃ vs', addNormal vs i n = some vs' := by
  unfold addNormal
  rw [List.getElem?_eq_getElem hi]
  exact ⟨_, rfl⟩

theorem flattenFaces_append (fs : List Face) (f : Face) :
    flattenFaces (fs ++ [f]) = flattenFaces fs ++ [f.v1, f.v2, f.v3] := by
  induction fs with
  | nil => rfl
  | cons g gs ih => simp [flattenFaces, ih]

theorem flattenFaces_length (fs : List Face) : (flattenFaces fs).length = 3 * fs.length := by
  induction fs with
  | nil => rfl
  | cons g gs ih => simp [flattenFaces, ih]; ring

theorem flattenFaces_getElem? (fs : List Face) :
    ∀ (i : Nat) (f : Face), fs[i]? = some f →
      (flattenFaces fs)[3 * i]? = some f.v1 ∧ (flattenFaces fs)[3 * i + 1]? = some f.v2 ∧
      (flattenFaces fs)[3 * i + 2]? = some f.v3 := by
  induction fs with
  | nil => intro i f h; simp at h
  | cons g gs ih =>
    intro i f h
    cases i with
    | zero =>
      simp only [List.getElem?_cons_zero, Option.some.injEq] at h
      subst h
      simp [flattenFaces]
    | succ k =>
      simp only [List.getElem?_cons_succ] at h
      have := ih k f h
      have e0 : 3 * (k + 1) = (3 * k) + 1 + 1 + 1 := by ring
      have e1 : 3 * (k + 1) + 1 = (3 * k + 1) + 1 + 1 + 1 := by ring
      have e2 : 3 * (k + 1) + 2 = (3 * k + 2) + 1 + 1 + 1 := by ring
      refine ⟨?_, ?_, ?_⟩
      · rw [e0]; simpa [flattenFaces] using this.1
      · rw [e1]; simpa [flattenFaces] using this.2.1
      · rw [e2]; simpa [flattenFaces] using this.2.2

theorem accumulatedNormal_eq_foldl (faces : List Face) (faceNormals : List (Vec3 K)) (v : Nat) :
    accumulatedNormal faces faceNormals v =
      (faces.zip faceNormals).foldl (accumulateStep v) Vec3.zero := rfl

theorem accumulatedNormal_append (faces : List Face) (faceNormals : List (Vec3 K)) (f : Face)
    (n : Vec3 K) (v : Nat) (hlen : faceNormals.length = faces.length) :
    accumulatedNormal (faces ++ [f]) (faceNormals ++ [n]) v =
      accumulateStep v (accumulatedNormal faces faceNormals v) (f, n) := by
  rw [accumulatedNormal_eq_foldl, accumulatedNormal_eq_foldl, List.zip_append hlen.symm,
    List.foldl_append]
  rfl

theorem foldl_accumulateStep_of_not_mentioned (v : Nat) (faces : List Face) :
    ∀ (faceNormals : List (Vec3 K)) (s : Vec3 K), (∀ f ∈ faces, ¬ f.Mentions v) →
      (faces.zip faceNormals).foldl (accumulateStep v) s = s := by
  induction faces with
  | nil => intro fns s _; rfl
  | cons g gs ih =>
    intro fns s h
    cases fns with
    | nil => rfl
    | cons n ns =>
      have hg : ¬ g.Mentions v := h g (List.mem_cons_self _ _)
      simp only [Face.Mentions, not_or] at hg
      simp only [List.zip_cons_cons, List.foldl_cons]
      have hstep : accumulateStep v s (g, n) = s := by
        simp [accumulateStep, hg.1, hg.2.1, hg.2.2]
      rw [hstep]
      exact ih ns s (fun f hf => h f (List.mem_cons_of_mem _ hf))

theorem accumulatedNormal_of_not_mentioned (faces : List Face) (faceNormals : List (Vec3 K))
    (v : Nat) (h : ∀ f ∈ faces, ¬ f.Mentions v) :
    accumulatedNormal faces faceNormals v = Vec3.zero :=
  foldl_accumulateStep_of_not_mentioned v faces faceNormals Vec3.zero h

theorem FacesBelow.mono {faces : List Face} {n k : Nat} (h : FacesBelow faces n) (hk : n ≤ k) :
    FacesBelow faces k :=
  fun f hf => ⟨lt_of_lt_of_le (h f hf).1 hk, lt_of_lt_of_le (h f hf).2.1 hk,
    lt_of_lt_of_le (h f hf).2.2 hk⟩

theorem LoadInv_empty : LoadInv (Model.empty : Model K) [] := by
  refine ⟨rfl, ?_, rfl, rfl, ?_⟩
  · intro f hf; simp [Model.empty] at hf
  · intro v x h; simp [Model.empty] at h

theorem loadLine_vertex (ops : FloatOps K) (m : Model K) (ps : List (Vec3 K)) (l : Line K)
    (hv : l.tag = "v") :
    loadLine ops m ps l =
      some ({ m with vertices := m.vertices ++ [⟨⟨l.x, l.y, l.z⟩, Vec3.zero⟩] },
        ps ++ [⟨l.x, l.y, l.z⟩]) := by
  simp [loadLine, hv]

theorem loadLine_other (ops : FloatOps K) (m : Model K) (ps : List (Vec3 K)) (l : Line K)
    (hv : ¬ l.tag = "v") (hf : ¬ l.tag = "f") : loadLine ops m ps l = some (m, ps) := by
  simp [loadLine, hv, hf]

theorem loadLine_face {ops : FloatOps K} {m m' : Model K} {ps ps' : List (Vec3 K)} {l : Line K}
    (hv : ¬ l.tag = "v") (hf : l.tag = "f") (h : loadLine ops m ps l = some (m', ps')) :
    ∃ pos1 pos2 pos3 vs1 vs2 vs3,
      ps[decrU32 l.v1]? = some pos1 ∧ ps[decrU32 l.v2]? = some pos2 ∧
      ps[decrU32 l.v3]? = some pos3 ∧
      addNormal m.vertices (decrU32 l.v1)
        (Vec3.normalize ops (Vec3.cross (pos2 - pos1) (pos3 - pos1))) = some vs1 ∧
      addNormal vs1 (decrU32 l.v2)
        (Vec3.normalize ops (Vec3.cross (pos2 - pos1) (pos3 - pos1))) = some vs2 ∧
      addNormal vs2 (decrU32 l.v3)
        (Vec3.normalize ops (Vec3.cross (pos2 - pos1) (pos3 - pos1))) = some vs3 ∧
      m' = { m with
              vertices := vs3
              faces := m.faces ++ [⟨decrU32 l.v1, decrU32 l.v2, decrU32 l.v3⟩]
              faceNormals := m.faceNormals ++
                [Vec3.normalize ops (Vec3.cross (pos2 - pos1) (pos3 - pos1))]
              indices := m.indices ++ [decrU32 l.v1, decrU32 l.v2, decrU32 l.v3] } ∧
      ps' = ps := by
  unfold loadLine at h
  rw [if_neg hv, if_pos hf] at h
  simp only at h
  split at h
  · rename_i pos1 pos2 pos3 h1 h2 h3
    split at h
    · exact absurd h (by simp)
    · rename_i vs1 ha1
      split at h
      · exact absurd h (by simp)
      · rename_i vs2 ha2
        split at h
        · exact absurd h (by simp)
        · rename_i vs3 ha3
          simp only [Option.some.injEq, Prod.mk.injEq] at h
          refine ⟨pos1, pos2, pos3, vs1, vs2, vs3, h1, h2, h3, ha1, ha2, ha3, ?_, h.2.symm⟩
          rw [← h.1]
          simp
  · exact absurd h (by simp)

theorem loadLine_inv {ops : FloatOps K} {m m' : Model K} {ps ps' : List (Vec3 K)} {l : Line K}
    (hinv : LoadInv m ps) (h : loadLine ops m ps l = some (m', ps')) : LoadInv m' ps' := by
  obtain ⟨hpos, hbelow, hlen, hidx, hacc⟩ := hinv
  by_cases hv : l.tag = "v"
  · rw [loadLine_vertex ops m ps l hv] at h
    simp only [Option.some.injEq, Prod.mk.injEq] at h
    obtain ⟨rfl, rfl⟩ := h
    refine ⟨by simp [hpos], hbelow.mono (by simp), hlen, hidx, ?_⟩
    intro v x hx
    simp only at hx ⊢
    by_cases hlt : v < m.vertices.length
    · rw [List.getElem?_append_left hlt] at hx
      exact hacc v x hx
    · rw [List.getElem?_append_right (not_lt.1 hlt)] at hx
      have hv0 : v - m.vertices.length = 0 := by
        by_contra hne
        rw [List.getElem?_eq_none (by simp; omega)] at hx
        exact absurd hx (by simp)
      rw [hv0] at hx
      simp only [List.getElem?_cons_zero, Option.some.injEq] at hx
      subst hx
      symm
      apply accumulatedNormal_of_not_mentioned
      intro f hf hm
      have hb := hbelow f hf
      rcases hm with e | e | e <;> omega
  · by_cases hf : l.tag = "f"
    · obtain ⟨pos1, pos2, pos3, vs1, vs2, vs3, h1, h2, h3, ha1, ha2, ha3, rfl, hps⟩ :=
        loadLine_face hv hf h
      rw [hps]
      have hl1 := addNormal_length ha1
      have hl2 := addNormal_length ha2
      have hl3 := addNormal_length ha3
      have hplen : ps.length = m.vertices.length := by rw [hpos]; simp
      have b1 : decrU32 l.v1 < m.vertices.length :=
        hplen ▸ (List.getElem?_eq_some.1 h1).1
      have b2 : decrU32 l.v2 < m.vertices.length :=
        hplen ▸ (List.getElem?_eq_some.1 h2).1
      have b3 : decrU32 l.v3 < m.vertices.length :=
        hplen ▸ (List.getElem?_eq_some.1 h3).1
      refine ⟨?_, ?_, ?_, ?_, ?_⟩
      · show ps = vs3.map _
        rw [addNormal_positions ha3, addNormal_positions ha2, addNormal_positions ha1]
        exact hpos
      · show FacesBelow (m.faces ++ [_]) vs3.length
        rw [hl3, hl2, hl1]
        intro f hfm
        rcases List.mem_append.1 hfm with hfm | hfm
        · exact hbelow f hfm
        · simp only [List.mem_singleton] at hfm
          subst hfm
          exact ⟨b1, b2, b3⟩
      · show (m.faceNormals ++ [_]).length = (m.faces ++ [_]).length
        simp [hlen]
      · show m.indices ++ _ = flattenFaces (m.faces ++ [_])
        rw [flattenFaces_append, hidx]
      · intro v x hx
        simp only at hx ⊢
        rw [accumulatedNormal_append _ _ _ _ _ hlen]
        rw [addNormal_getElem? ha3, addNormal_getElem? ha2, addNormal_getElem? ha1] at hx
        cases hx0 : m.vertices[v]? with
        | none => rw [hx0] at hx; exact absurd hx (by simp)
        | some x0 =>
          rw [hx0] at hx
          simp only [Option.map_some', Option.some.injEq] at hx
          rw [← hacc v x0 hx0, ← hx]
          simp only [accumulateStep]
          split_ifs <;> rfl
    · rw [loadLine_other ops m ps l hv hf] at h
      simp only [Option.some.injEq, Prod.mk.injEq] at h
      obtain ⟨rfl, rfl⟩ := h
      exact ⟨hpos, hbelow, hlen, hidx, hacc⟩

theorem loadLines_cons (ops : FloatOps K) (m : Model K) (ps : List (Vec3 K)) (l : Line K)
    (rest : List (Line K)) :
    loadLines ops m ps (l :: rest) =
      (loadLine ops m ps l).bind (fun s => loadLines ops s.1 s.2 rest) := by
  simp only [loadLines]
  cases loadLine ops m ps l <;> rfl

theorem loadLines_inv (ops : FloatOps K) (lines : List (Line K)) :
    ∀ (m m' : Model K) (ps ps' : List (Vec3 K)), LoadInv m ps →
      loadLines ops m ps lines = some (m', ps') → LoadInv m' ps' := by
  induction lines with
  | nil =>
    intro m m' ps ps' hinv h
    simp only [loadLines, Option.some.injEq, Prod.mk.injEq] at h
    obtain ⟨rfl, rfl⟩ := h
    exact hinv
  | cons l rest ih =>
    intro m m' ps ps' hinv h
    rw [loadLines_cons] at h
    cases hl : loadLine ops m ps l with
    | none => rw [hl] at h; exact absurd h (by simp)
    | some s =>
      rw [hl] at h
      exact ih s.1 m' s.2 ps' (loadLine_inv hinv hl) h

theorem loadModel_eq_some {ops : FloatOps K} {m m' : Model K} {lines : List (Line K)}
    (h : loadModel ops m (some lines) = some m') :
    ∃ m1 ps, loadLines ops m [] lines = some (m1, ps) ∧
      m' = { m1 with vertices := m1.vertices.map (normalizeVertex ops) } := by
  simp only [loadModel] at h
  split at h
  · exact absurd h (by simp)
  · rename_i m1 ps hl
    simp only [Option.some.injEq] at h
    exact ⟨m1, ps, hl, h.symm⟩

/-- What a successful `loadModel` on the empty model guarantees about the mesh. -/
theorem loadModel_inv {ops : FloatOps K} {m : Model K} {file : Option (List (Line K))}
    (h : loadModel ops Model.empty file = some m) :
    FacesBelow m.faces m.vertices.length ∧ m.faceNormals.length = m.faces.length ∧
    m.indices = flattenFaces m.faces := by
  cases file with
  | none =>
    simp only [loadModel, Option.some.injEq] at h
    subst h
    refine ⟨?_, rfl, rfl⟩
    intro f hf
    simp [Model.empty] at hf
  | some lines =>
    obtain ⟨m1, ps, hl, rfl⟩ := loadModel_eq_some h
    obtain ⟨_, hbelow, hlen, hidx, _⟩ := loadLines_inv ops lines _ _ _ _ LoadInv_empty hl
    refine ⟨?_, hlen, hidx⟩
    simpa using hbelow

theorem MeshShape_of_flatten {m : Model K} (hidx : m.indices = flattenFaces m.faces)
    (hlen : m.faceNormals.length = m.faces.length) : MeshShape m := by
  refine ⟨?_, hidx, ?_, hlen⟩
  · rw [hidx, flattenFaces_length]
  · intro i f hf
    rw [hidx]
    exact flattenFaces_getElem? _ i f hf

theorem assignAt_eq_some {α : Type} {xs ys : List α} {i : Nat} {a : α}
    (h : assignAt xs i a = some ys) : i < xs.length ∧ ys = xs.set i a := by
  unfold assignAt at h
  split_ifs at h with hi
  simp only [Option.some.injEq] at h
  exact ⟨hi, h.symm⟩

theorem assignAt_length {α : Type} {xs ys : List α} {i : Nat} {a : α}
    (h : assignAt xs i a = some ys) : ys.length = xs.length := by
  rw [(assignAt_eq_some h).2, List.length_set]

theorem overwriteFaceNormals_cons_some {f : Face} {fs : List Face} {ns nn out : List (Vec3 K)}
    (h : overwriteFaceNormals (f :: fs) ns nn = some out) :
    ∃ n ns' n1 n2 n3, ns = n :: ns' ∧ assignAt nn f.v1 n = some n1 ∧
      assignAt n1 f.v2 n = some n2 ∧ assignAt n2 f.v3 n = some n3 ∧
      overwriteFaceNormals fs ns' n3 = some out := by
  cases ns with
  | nil => simp [overwriteFaceNormals] at h
  | cons n ns' =>
    simp only [overwriteFaceNormals] at h
    split at h
    · exact absurd h (by simp)
    · rename_i n1 h1
      split at h
      · exact absurd h (by simp)
      · rename_i n2 h2
        split at h
        · exact absurd h (by simp)
        · rename_i n3 h3
          exact ⟨n, ns', n1, n2, n3, rfl, h1, h2, h3, h⟩

theorem overwriteFaceNormals_length (fs : List Face) :
    ∀ (ns nn out : List (Vec3 K)), overwriteFaceNormals fs ns nn = some out →
      out.length = nn.length := by
  induction fs with
  | nil =>
    intro ns nn out h
    simp only [overwriteFaceNormals, Option.some.injEq] at h
    rw [h]
  | cons f fs ih =>
    intro ns nn out h
    obtain ⟨n, ns', n1, n2, n3, _, h1, h2, h3, hrest⟩ := overwriteFaceNormals_cons_some h
    rw [ih ns' n3 out hrest, assignAt_length h3, assignAt_length h2, assignAt_length h1]

theorem overwriteFaceNormals_total (fs : List Face) :
    ∀ (ns nn : List (Vec3 K)), fs.length ≤ ns.length → FacesBelow fs nn.length →
      ∃ out, overwriteFaceNormals fs ns nn = some out := by
  induction fs with
  | nil => intro ns nn _ _; exact ⟨nn, rfl⟩
  | cons f fs ih =>
    intro ns nn hlen hbelow
    cases ns with
    | nil => simp at hlen
    | cons n ns' =>
      have hf := hbelow f (List.mem_cons_self _ _)
      have e1 : assignAt nn f.v1 n = some (nn.set f.v1 n) := by simp [assignAt, hf.1]
      have e2 : assignAt (nn.set f.v1 n) f.v2 n = some ((nn.set f.v1 n).set f.v2 n) := by
        simp [assignAt, hf.2.1]
      have e3 : assignAt ((nn.set f.v1 n).set f.v2 n) f.v3 n =
          some (((nn.set f.v1 n).set f.v2 n).set f.v3 n) := by
        simp [assignAt, hf.2.2]
      simp only [overwriteFaceNormals, e1, e2, e3]
      apply ih
      · simpa using hlen
      · intro g hg
        simpa using hbelow g (List.mem_cons_of_mem _ hg)

theorem interleave_total (vs : List (Vertex K)) :
    ∀ ns : List (Vec3 K), vs.length ≤ ns.length → ∃ data, interleave vs ns = some data := by
  induction vs with
  | nil => intro ns _; exact ⟨[], rfl⟩
  | cons v vs ih =>
    intro ns hlen
    cases ns with
    | nil => simp at hlen
    | cons n ns' =>
      obtain ⟨d, hd⟩ := ih ns' (by simpa using hlen)
      simp only [interleave, hd]
      exact ⟨_, rfl⟩

theorem interleave_stored_normals (vs : List (Vertex K)) :
    interleave vs (vs.map fun vertex => vertex.Normal) = some (meshData vs) := by
  induction vs with
  | nil => rfl
  | cons v vs ih => simp only [List.map_cons, interleave, ih, meshData]

theorem updateNormals_eq_some {m m' : Model K} (h : updateNormals m = some m') :
    ∃ normals, newNormals m = some normals ∧
      interleave m.vertices normals = some m'.vboData ∧
      m' = { m with vboData := m'.vboData } := by
  unfold updateNormals at h
  split at h
  · exact absurd h (by simp)
  · rename_i normals hn
    split at h
    · exact absurd h (by simp)
    · rename_i data hd
      simp only [Option.some.injEq] at h
      subst h
      exact ⟨normals, hn, hd, rfl⟩

/-- A toggle flips the flag and replaces the uploaded vertex data; nothing else changes. -/
theorem toggleNormalMode_frame {m m' : Model K} (h : toggleNormalMode m = some m') :
    m'.useVertexNormal = !m.useVertexNormal ∧ SameMesh m m' := by
  obtain ⟨_, _, _, he⟩ := updateNormals_eq_some h
  rw [he]
  exact ⟨rfl, rfl, rfl, rfl, rfl, rfl, rfl⟩

/-- In vertex-normal mode `updateNormals` uploads the stored normals, as `setupMesh` does. -/
theorem updateNormals_vertex_mode (m : Model K) (hmode : m.useVertexNormal = true) :
    updateNormals m = some { m with vboData := meshData m.vertices } := by
  simp only [updateNormals, newNormals, hmode, if_true, interleave_stored_normals]

/-- On a mesh whose face indices are in range, `updateNormals` succeeds in either mode. -/
theorem updateNormals_total (m : Model K) (hbelow : FacesBelow m.faces m.vertices.length)
    (hlen : m.faces.length ≤ m.faceNormals.length) : ∃ m', updateNormals m = some m' := by
  cases hmode : m.useVertexNormal with
  | true => exact ⟨_, updateNormals_vertex_mode m hmode⟩
  | false =>
    obtain ⟨out, hout⟩ := overwriteFaceNormals_total m.faces m.faceNormals
      (List.replicate m.vertices.length Vec3.zero) hlen (by simpa using hbelow)
    have hol := overwriteFaceNormals_length _ _ _ _ hout
    obtain ⟨d, hd⟩ := interleave_total m.vertices out (by rw [hol]; simp)
    refine ⟨{ m with vboData := d }, ?_⟩
    simp [updateNormals, newNormals, hmode, hout, hd]

theorem toggleNormalMode_total (m : Model K) (hbelow : FacesBelow m.faces m.vertices.length)
    (hlen : m.faces.length ≤ m.faceNormals.length) : ∃ m', toggleNormalMode m = some m' :=
  updateNormals_total _ hbelow hlen

theorem SameMesh.shape {m m' : Model K} (h : SameMesh m m') (hs : MeshShape m) :
    MeshShape m' := by
  obtain ⟨_, hf, hn, hi, _, _⟩ := h
  unfold MeshShape
  rw [hf, hn, hi]
  exact hs

theorem toggleTimes_shape (n : Nat) :
    ∀ m : Model K, FacesBelow m.faces m.vertices.length → MeshShape m →
      ∃ s, toggleTimes n m = some s ∧ MeshShape s ∧ SameMesh m s := by
  induction n with
  | zero => intro m _ hs; exact ⟨m, rfl, hs, rfl, rfl, rfl, rfl, rfl, rfl⟩
  | succ k ih =>
    intro m hbelow hs
    obtain ⟨m1, h1⟩ := toggleNormalMode_total m hbelow (le_of_eq hs.2.2.2.symm)
    obtain ⟨_, hsame⟩ := toggleNormalMode_frame h1
    have hbelow1 : FacesBelow m1.faces m1.vertices.length := by
      rw [hsame.1, hsame.2.1]; exact hbelow
    obtain ⟨s, hs1, hshape, hsame1⟩ := ih m1 hbelow1 (hsame.shape hs)
    refine ⟨s, by simp only [toggleTimes, h1, hs1], hshape, ?_⟩
    obtain ⟨a1, a2, a3, a4, a5, a6⟩ := hsame
    obtain ⟨b1, b2, b3, b4, b5, b6⟩ := hsame1
    exact ⟨b1.trans a1, b2.trans a2, b3.trans a3, b4.trans a4, b5.trans a5, b6.trans a6⟩

theorem Model.new_eq_some {ops : FloatOps K} {file : Option (List (Line K))} {color : Vec3 K}
    {m : Model K} (h : Model.new ops file color = some m) :
    ∃ m1, loadModel ops Model.empty file = some m1 ∧
      m = { m1 with vboData := meshData m1.vertices, eboData := m1.indices,
                    useVertexNormal := true, modelColor := color } := by
  unfold Model.new at h
  split at h
  · exact absurd h (by simp)
  · rename_i m1 h1
    simp only [Option.some.injEq] at h
    exact ⟨m1, h1, h.symm⟩

/-- C9: after `loadModel` the index buffer has exactly three entries per face and is the
flattening of the face list in load order, and `faceNormals` has the length of `faces`; the model
the constructor builds from the same file keeps this shape through any number of calls of
`toggleNormalMode`, all of which succeed. -/
theorem mesh_shape_invariant (ops : FloatOps K) (file : Option (List (Line K))) (m : Model K)
    (h : loadModel ops Model.empty file = some m) :
    MeshShape m ∧
    ∀ (color : Vec3 K) (n : Nat), ∃ mc s, Model.new ops file color = some mc ∧
      toggleTimes n mc = some s ∧ MeshShape s := by
  obtain ⟨hbelow, hlen, hidx⟩ := loadModel_inv h
  have hshape := MeshShape_of_flatten hidx hlen
  refine ⟨hshape, ?_⟩
  intro color n
  have hnew : Model.new ops file color =
      some { m with vboData := meshData m.vertices, eboData := m.indices,
                    useVertexNormal := true, modelColor := color } := by
    simp only [Model.new, h, setupMesh]
  obtain ⟨s, hs, hsh, _⟩ := toggleTimes_shape n
    { m with vboData := meshData m.vertices, eboData := m.indices,
             useVertexNormal := true, modelColor := color } hbelow hshape
  exact ⟨_, s, hnew, hs, hsh⟩

/-- C10: when the file cannot be opened, `loadModel` returns and leaves the model as it was; the
model the constructor then builds has no vertices, faces, face normals or indices, and `Draw`
passes the element count zero. -/
theorem loadModel_unopenable (ops : FloatOps K) (color : Vec3 K) :
    (∀ m : Model K, loadModel ops m none = some m) ∧
    ∃ m : Model K, Model.new ops none color = some m ∧
      m.vertices.length = 0 ∧ m.faces.length = 0 ∧ m.faceNormals.length = 0 ∧
      m.indices.length = 0 ∧ m.eboData.length = 0 ∧ drawCount m = 0 :=
  ⟨fun _ => rfl, _, rfl, rfl, rfl, rfl, rfl, rfl, rfl⟩

/-- C7: for the model the constructor builds, the vertex data uploaded by `setupMesh` holds the
stored per-vertex normals; `toggleNormalMode` succeeds and switches to face-normal mode, and a
second call leads back to exactly the constructed model (flag and uploaded array included); no
call of `toggleNormalMode`, in any state, changes the vertex positions, the stored per-vertex
normals, the faces, the face normals, the index buffer or the uploaded index data. -/
theorem toggleNormalMode_involution (ops : FloatOps K) (file : Option (List (Line K)))
    (color : Vec3 K) (m : Model K) (h : Model.new ops file color = some m) :
    (m.useVertexNormal = true ∧ m.vboData = meshData m.vertices) ∧
    (∃ m1, toggleNormalMode m = some m1 ∧ m1.useVertexNormal = false ∧
      toggleNormalMode m1 = some m) ∧
    ∀ s s' : Model K, toggleNormalMode s = some s' →
      s'.useVertexNormal = (!s.useVertexNormal) ∧ SameMesh s s' := by
  obtain ⟨m0, h0, hm⟩ := Model.new_eq_some h
  obtain ⟨hbelow, hlen, _⟩ := loadModel_inv h0
  have hflag : m.useVertexNormal = true := by rw [hm]
  have hvbo : m.vboData = meshData m.vertices := by rw [hm]
  have hbelow' : FacesBelow m.faces m.vertices.length := by rw [hm]; exact hbelow
  have hlen' : m.faces.length ≤ m.faceNormals.length := by rw [hm]; exact le_of_eq hlen.symm
  refine ⟨⟨hflag, hvbo⟩, ?_, fun s s' hs => toggleNormalMode_frame hs⟩
  obtain ⟨m1, h1⟩ := toggleNormalMode_total m hbelow' hlen'
  obtain ⟨_, _, _, he⟩ := updateNormals_eq_some h1
  have hflag1 : m1.useVertexNormal = false := by rw [he]; simp [hflag]
  refine ⟨m1, h1, hflag1, ?_⟩
  unfold toggleNormalMode
  rw [updateNormals_vertex_mode _ (by simp [hflag1])]
  have hv1 : m1.vertices = m.vertices := by rw [he]
  have hf1 : m1.faces = m.faces := by rw [he]
  have hn1 : m1.faceNormals = m.faceNormals := by rw [he]
  have hi1 : m1.indices = m.indices := by rw [he]
  have hc1 : m1.modelColor = m.modelColor := by rw [he]
  have he1 : m1.eboData = m.eboData := by rw [he]
  simp only [hflag1, Bool.not_false, hv1, hf1, hn1, hi1, hc1, he1, ← hvbo, ← hflag]

theorem assignAt_getElem? {α : Type} {xs ys : List α} {i : Nat} {a : α}
    (h : assignAt xs i a = some ys) (j : Nat) :
    ys[j]? = if i = j then some a else xs[j]? := by
  obtain ⟨hi, rfl⟩ := assignAt_eq_some h
  rw [List.getElem?_set]
  simp [hi]

/-- The face-normal loop leaves the slot of a vertex that no face refers to untouched. -/
theorem overwriteFaceNormals_untouched (v : Nat) (fs : List Face) :
    ∀ (ns nn out : List (Vec3 K)), overwriteFaceNormals fs ns nn = some out →
      (∀ f ∈ fs, ¬ f.Mentions v) → out[v]? = nn[v]? := by
  induction fs with
  | nil =>
    intro ns nn out h _
    simp only [overwriteFaceNormals, Option.some.injEq] at h
    rw [h]
  | cons f fs ih =>
    intro ns nn out h hno
    obtain ⟨n, ns', n1, n2, n3, _, h1, h2, h3, hrest⟩ := overwriteFaceNormals_cons_some h
    have hf : ¬ f.Mentions v := hno f (List.mem_cons_self _ _)
    simp only [Face.Mentions, not_or] at hf
    rw [ih ns' n3 out hrest (fun g hg => hno g (List.mem_cons_of_mem _ hg)),
      assignAt_getElem? h3, if_neg hf.2.2, assignAt_getElem? h2, if_neg hf.2.1,
      assignAt_getElem? h1, if_neg hf.1]

/-- The face-normal loop is last-writer-wins. -/
theorem overwriteFaceNormals_last (v : Nat) (fs : List Face) :
    ∀ (ns nn out : List (Vec3 K)), overwriteFaceNormals fs ns nn = some out →
      ∀ (i : Nat) (f : Face) (n : Vec3 K), fs[i]? = some f → ns[i]? = some n → f.Mentions v →
        (∀ j g, i < j → fs[j]? = some g → ¬ g.Mentions v) → out[v]? = some n := by
  induction fs with
  | nil => intro ns nn out _ i f n hf; simp at hf
  | cons f0 fs ih =>
    intro ns nn out h i f n hf hn hm hlast
    obtain ⟨n0, ns', n1, n2, n3, rfl, h1, h2, h3, hrest⟩ := overwriteFaceNormals_cons_some h
    cases i with
    | zero =>
      simp only [List.getElem?_cons_zero, Option.some.injEq] at hf hn
      subst hf hn
      have hno : ∀ g ∈ fs, ¬ g.Mentions v := by
        intro g hg
        obtain ⟨k, hk, hgk⟩ := List.getElem_of_mem hg
        exact hlast (k + 1) g (Nat.succ_pos k)
          (by rw [List.getElem?_cons_succ, List.getElem?_eq_getElem hk, hgk])
      rw [overwriteFaceNormals_untouched v fs ns' n3 out hrest hno, assignAt_getElem? h3,
        assignAt_getElem? h2, assignAt_getElem? h1]
      rcases hm with e | e | e
      · by_cases e3 : f0.v3 = v
        · rw [if_pos e3]
        · by_cases e2 : f0.v2 = v
          · rw [if_neg e3, if_pos e2]
          · rw [if_neg e3, if_neg e2, if_pos e]
      · by_cases e3 : f0.v3 = v
        · rw [if_pos e3]
        · rw [if_neg e3, if_pos e]
      · rw [if_pos e]
    | succ k =>
      simp only [List.getElem?_cons_succ] at hf hn
      exact ih ns' n3 out hrest k f n hf hn hm
        (fun j g hj hg => hlast (j + 1) g (Nat.succ_lt_succ hj)
          (by rw [List.getElem?_cons_succ]; exact hg))

/-- The interleaved array holds, for vertex `v`, its position at `6 v .. 6 v + 2` and the normal
`normals[v]` at `6 v + 3 .. 6 v + 5`. -/
theorem interleave_getElem? (vs : List (Vertex K)) :
    ∀ (ns : List (Vec3 K)) (data : List K), interleave vs ns = some data →
      ∀ (v : Nat) (x : Vertex K) (n : Vec3 K), vs[v]? = some x → ns[v]? = some n →
        data[6 * v]? = some x.Position.x ∧ data[6 * v + 1]? = some x.Position.y ∧
        data[6 * v + 2]? = some x.Position.z ∧ data[6 * v + 3]? = some n.x ∧
        data[6 * v + 4]? = some n.y ∧ data[6 * v + 5]? = some n.z := by
  induction vs with
  | nil => intro ns data _ v x n hx; simp at hx
  | cons v0 vs ih =>
    intro ns data h v x n hx hn
    cases ns with
    | nil => simp at hn
    | cons n0 ns' =>
      simp only [interleave] at h
      split at h
      · exact absurd h (by simp)
      · rename_i d hd
        simp only [Option.some.injEq] at h
        subst h
        cases v with
        | zero =>
          simp only [List.getElem?_cons_zero, Option.some.injEq] at hx hn
          subst hx hn
          simp
        | succ k =>
          simp only [List.getElem?_cons_succ] at hx hn
          obtain ⟨a0, a1, a2, a3, a4, a5⟩ := ih ns' d hd k x n hx hn
          have e0 : 6 * (k + 1) = (6 * k) + 1 + 1 + 1 + 1 + 1 + 1 := by ring
          have e1 : 6 * (k + 1) + 1 = (6 * k + 1) + 1 + 1 + 1 + 1 + 1 + 1 := by ring
          have e2 : 6 * (k + 1) + 2 = (6 * k + 2) + 1 + 1 + 1 + 1 + 1 + 1 := by ring
          have e3 : 6 * (k + 1) + 3 = (6 * k + 3) + 1 + 1 + 1 + 1 + 1 + 1 := by ring
          have e4 : 6 * (k + 1) + 4 = (6 * k + 4) + 1 + 1 + 1 + 1 + 1 + 1 := by ring
          have e5 : 6 * (k + 1) + 5 = (6 * k + 5) + 1 + 1 + 1 + 1 + 1 + 1 := by ring
          refine ⟨?_, ?_, ?_, ?_, ?_, ?_⟩
          · rw [e0]; simpa using a0
          · rw [e1]; simpa using a1
          · rw [e2]; simpa using a2
          · rw [e3]; simpa using a3
          · rw [e4]; simpa using a4
          · rw [e5]; simpa using a5

/-- C6: in face-normal mode the normal array built by `updateNormals` has one slot per vertex,
and the slot of every vertex `v` that occurs in a face holds the stored normal of the last face in
load order that refers to `v`; the uploaded array carries that normal in the normal slots of `v`.
With `v` shared by a face with normal `n1` and a later face with normal `n2`, the slot holds `n2`. -/
theorem face_mode_last_writer_wins (m m' : Model K) (hmode : m.useVertexNormal = false)
    (h : updateNormals m = some m') :
    ∃ normals, newNormals m = some normals ∧ normals.length = m.vertices.length ∧
      ∀ (v i : Nat) (f : Face) (n : Vec3 K), m.faces[i]? = some f → m.faceNormals[i]? = some n →
        f.Mentions v → (∀ j g, i < j → m.faces[j]? = some g → ¬ g.Mentions v) →
        normals[v]? = some n ∧ m'.vboData[6 * v + 3]? = some n.x ∧
        m'.vboData[6 * v + 4]? = some n.y ∧ m'.vboData[6 * v + 5]? = some n.z := by
  obtain ⟨normals, hn, hd, _⟩ := updateNormals_eq_some h
  have hn' := hn
  simp only [newNormals, hmode, Bool.false_eq_true, if_false] at hn'
  have hlen : normals.length = m.vertices.length := by
    rw [overwriteFaceNormals_length _ _ _ _ hn']; simp
  refine ⟨normals, hn, hlen, ?_⟩
  intro v i f n hf hfn hm hlast
  have hv := overwriteFaceNormals_last v m.faces _ _ _ hn' i f n hf hfn hm hlast
  have hvlt : v < m.vertices.length := hlen ▸ (List.getElem?_eq_some.1 hv).1
  obtain ⟨_, _, _, a3, a4, a5⟩ := interleave_getElem? m.vertices normals m'.vboData hd v
    m.vertices[v] n (List.getElem?_eq_getElem hvlt) hv
  exact ⟨hv, a3, a4, a5⟩

theorem meshData_getElem? (vs : List (Vertex K)) (v : Nat) (x : Vertex K)
    (hx : vs[v]? = some x) :
    (meshData vs)[6 * v + 3]? = some x.Normal.x ∧ (meshData vs)[6 * v + 4]? = some x.Normal.y ∧
    (meshData vs)[6 * v + 5]? = some x.Normal.z := by
  obtain ⟨_, _, _, a3, a4, a5⟩ := interleave_getElem? vs _ _ (interleave_stored_normals vs) v x
    x.Normal hx (by rw [List.getElem?_map, hx]; rfl)
  exact ⟨a3, a4, a5⟩

theorem normalizeVertex_of_pos (ops : FloatOps K) (x : Vertex K)
    (h : Vec3.length ops x.Normal > 0) :
    (normalizeVertex ops x).Normal = Vec3.normalize ops x.Normal := by
  simp only [normalizeVertex, if_pos h]

/-- After `loadModel`, before the final loop, each vertex holds its accumulated sum; the final
loop replaces it by `normalizeVertex` of it. -/
theorem loadModel_vertex_normal {ops : FloatOps K} {file : Option (List (Line K))} {m : Model K}
    (h : loadModel ops Model.empty file = some m) (v : Nat) (x : Vertex K)
    (hx : m.vertices[v]? = some x) :
    ∃ x1 : Vertex K, x1.Normal = accumulatedNormal m.faces m.faceNormals v ∧
      x = normalizeVertex ops x1 := by
  cases file with
  | none =>
    simp only [loadModel, Option.some.injEq] at h
    subst h
    simp [Model.empty] at hx
  | some lines =>
    obtain ⟨m1, ps, hl, rfl⟩ := loadModel_eq_some h
    obtain ⟨_, _, _, _, hacc⟩ := loadLines_inv ops lines _ _ _ _ LoadInv_empty hl
    simp only [List.getElem?_map] at hx
    cases hx1 : m1.vertices[v]? with
    | none => rw [hx1] at hx; exact absurd hx (by simp)
    | some x1 =>
      rw [hx1] at hx
      simp only [Option.map_some', Option.some.injEq] at hx
      exact ⟨x1, hacc v x1 hx1, hx.symm⟩

/-- C5: after `loadModel`, a vertex `v` whose accumulated sum `S` of face normals (one summand
per occurrence of `v` in a face, over all faces in load order) has positive length stores
`normalize S`; this is the normal in the array `setupMesh` uploads at construction and in the
array `updateNormals` uploads in vertex-normal mode. -/
theorem vertex_normal_is_normalized_sum (ops : FloatOps K) (file : Option (List (Line K)))
    (m : Model K) (h : loadModel ops Model.empty file = some m) (v : Nat) (x : Vertex K)
    (hx : m.vertices[v]? = some x)
    (hpos : Vec3.length ops (accumulatedNormal m.faces m.faceNormals v) > 0) :
    x.Normal = Vec3.normalize ops (accumulatedNormal m.faces m.faceNormals v) ∧
    (∀ (color : Vec3 K) (mc : Model K), Model.new ops file color = some mc →
      mc.useVertexNormal = true ∧ mc.vboData[6 * v + 3]? = some x.Normal.x ∧
      mc.vboData[6 * v + 4]? = some x.Normal.y ∧ mc.vboData[6 * v + 5]? = some x.Normal.z) ∧
    (∀ s : Model K, s.vertices = m.vertices → s.useVertexNormal = true →
      ∃ s', updateNormals s = some s' ∧ s'.vboData[6 * v + 3]? = some x.Normal.x ∧
        s'.vboData[6 * v + 4]? = some x.Normal.y ∧ s'.vboData[6 * v + 5]? = some x.Normal.z) := by
  refine ⟨?_, ?_, ?_⟩
  · obtain ⟨x1, hx1, rfl⟩ := loadModel_vertex_normal h v x hx
    rw [← hx1] at hpos ⊢
    exact normalizeVertex_of_pos ops x1 hpos
  · intro color mc hmc
    obtain ⟨m0, h0, rfl⟩ := Model.new_eq_some hmc
    rw [h] at h0
    simp only [Option.some.injEq] at h0
    subst h0
    exact ⟨rfl, meshData_getElem? m.vertices v x hx⟩
  · intro s hs hmode
    refine ⟨_, updateNormals_vertex_mode s hmode, ?_⟩
    rw [hs]
    exact meshData_getElem? m.vertices v x hx

theorem loadLines_append (ops : FloatOps K) (a b : List (Line K)) :
    ∀ (m : Model K) (ps : List (Vec3 K)),
      loadLines ops m ps (a ++ b) =
        (loadLines ops m ps a).bind (fun s => loadLines ops s.1 s.2 b) := by
  induction a with
  | nil => intro m ps; rfl
  | cons l rest ih =>
    intro m ps
    rw [List.cons_append, loadLines_cons, loadLines_cons]
    cases loadLine ops m ps l with
    | none => rfl
    | some s => exact ih s.1 s.2

/-- One line extends `positions`, `faces` and `faceNormals` at the end only. -/
theorem loadLine_extends {ops : FloatOps K} {m m' : Model K} {ps ps' : List (Vec3 K)}
    {l : Line K} (h : loadLine ops m ps l = some (m', ps')) :
    ps' = ps ++ vertexPositions [l] ∧ m'.faces.length = m.faces.length + faceCount [l] ∧
    (∃ t, m'.faces = m.faces ++ t) ∧ (∃ t, m'.faceNormals = m.faceNormals ++ t) := by
  by_cases hv : l.tag = "v"
  · rw [loadLine_vertex ops m ps l hv] at h
    simp only [Option.some.injEq, Prod.mk.injEq] at h
    obtain ⟨rfl, rfl⟩ := h
    have hf : ¬ l.tag = "f" := by rw [hv]; decide
    exact ⟨by simp [vertexPositions, hv], by simp [faceCount, hf], ⟨[], by simp⟩, ⟨[], by simp⟩⟩
  · by_cases hf : l.tag = "f"
    · obtain ⟨pos1, pos2, pos3, vs1, vs2, vs3, _, _, _, _, _, _, rfl, rfl⟩ :=
        loadLine_face hv hf h
      exact ⟨by simp [vertexPositions, hv], by simp [faceCount, hf], ⟨_, rfl⟩, ⟨_, rfl⟩⟩
    · rw [loadLine_other ops m ps l hv hf] at h
      simp only [Option.some.injEq, Prod.mk.injEq] at h
      obtain ⟨rfl, rfl⟩ := h
      exact ⟨by simp [vertexPositions, hv], by simp [faceCount, hf], ⟨[], by simp⟩,
        ⟨[], by simp⟩⟩

theorem vertexPositions_append (a b : List (Line K)) :
    vertexPositions (a ++ b) = vertexPositions a ++ vertexPositions b := by
  simp [vertexPositions]

theorem faceCount_append (a b : List (Line K)) :
    faceCount (a ++ b) = faceCount a + faceCount b := by
  simp [faceCount]

theorem loadLines_extends (ops : FloatOps K) (lines : List (Line K)) :
    ∀ (m m' : Model K) (ps ps' : List (Vec3 K)), loadLines ops m ps lines = some (m', ps') →
      ps' = ps ++ vertexPositions lines ∧
      m'.faces.length = m.faces.length + faceCount lines ∧
      (∃ t, m'.faces = m.faces ++ t) ∧ (∃ t, m'.faceNormals = m.faceNormals ++ t) := by
  induction lines with
  | nil =>
    intro m m' ps ps' h
    simp only [loadLines, Option.some.injEq, Prod.mk.injEq] at h
    obtain ⟨rfl, rfl⟩ := h
    exact ⟨by simp [vertexPositions], by simp [faceCount], ⟨[], by simp⟩, ⟨[], by simp⟩⟩
  | cons l rest ih =>
    intro m m' ps ps' h
    rw [loadLines_cons] at h
    cases hl : loadLine ops m ps l with
    | none => rw [hl] at h; exact absurd h (by simp)
    | some s =>
      rw [hl] at h
      obtain ⟨a1, a2, ⟨t3, a3⟩, ⟨t4, a4⟩⟩ := loadLine_extends hl
      obtain ⟨b1, b2, ⟨u3, b3⟩, ⟨u4, b4⟩⟩ := ih s.1 m' s.2 ps' h
      have hsplit : l :: rest = [l] ++ rest := rfl
      refine ⟨?_, ?_, ⟨t3 ++ u3, ?_⟩, ⟨t4 ++ u4, ?_⟩⟩
      · rw [b1, a1, hsplit, vertexPositions_append, List.append_assoc]
      · rw [b2, a2, hsplit, faceCount_append, Nat.add_assoc]
      · rw [b3, a3, List.append_assoc]
      · rw [b4, a4, List.append_assoc]

theorem decrU32_of_pos (a : Nat) (h1 : 1 ≤ a) (h2 : a < 2 ^ 32) : decrU32 a = a - 1 := by
  unfold decrU32
  omega

/-- A face record whose decremented indices are valid positions loads without undefined
behaviour. -/
theorem loadLine_face_total (ops : FloatOps K) (m : Model K) (ps : List (Vec3 K)) (l : Line K)
    (hinv : LoadInv m ps) (hv : ¬ l.tag = "v") (hf : l.tag = "f")
    (h1 : decrU32 l.v1 < ps.length) (h2 : decrU32 l.v2 < ps.length)
    (h3 : decrU32 l.v3 < ps.length) : ∃ m', loadLine ops m ps l = some (m', ps) := by
  have hplen : ps.length = m.vertices.length := by rw [hinv.1]; simp
  obtain ⟨pos1, q1⟩ : ∃ p, ps[decrU32 l.v1]? = some p :=
    ⟨_, List.getElem?_eq_getElem h1⟩
  obtain ⟨pos2, q2⟩ : ∃ p, ps[decrU32 l.v2]? = some p :=
    ⟨_, List.getElem?_eq_getElem h2⟩
  obtain ⟨pos3, q3⟩ : ∃ p, ps[decrU32 l.v3]? = some p :=
    ⟨_, List.getElem?_eq_getElem h3⟩
  obtain ⟨vs1, e1⟩ := addNormal_total m.vertices
    (Vec3.normalize ops (Vec3.cross (pos2 - pos1) (pos3 - pos1))) (hplen ▸ h1)
  obtain ⟨vs2, e2⟩ := addNormal_total vs1
    (Vec3.normalize ops (Vec3.cross (pos2 - pos1) (pos3 - pos1)))
    (by rw [addNormal_length e1, ← hplen]; exact h2)
  obtain ⟨vs3, e3⟩ := addNormal_total vs2
    (Vec3.normalize ops (Vec3.cross (pos2 - pos1) (pos3 - pos1)))
    (by rw [addNormal_length e2, addNormal_length e1, ← hplen]; exact h3)
  unfold loadLine
  rw [if_neg hv, if_pos hf]
  simp only [q1, q2, q3, e1, e2, e3]
  exact ⟨_, rfl⟩

theorem getElem?_append_cons_length {α : Type} (a : List α) (x : α) (t : List α) :
    (a ++ x :: t)[a.length]? = some x := by
  rw [List.getElem?_append_right (le_refl _)]
  simp

/-- On a file whose face records refer to vertex records already read, the loop of `loadModel`
runs to the end without undefined behaviour. -/
theorem loadLines_total (ops : FloatOps K) (lines : List (Line K)) :
    ∀ (m : Model K) (ps : List (Vec3 K)), LoadInv m ps → WellIndexedFrom ps.length lines →
      ∃ s, loadLines ops m ps lines = some s := by
  induction lines with
  | nil => intro m ps _ _; exact ⟨_, rfl⟩
  | cons l rest ih =>
    intro m ps hinv hw
    rw [loadLines_cons]
    by_cases hv : l.tag = "v"
    · simp only [WellIndexedFrom, if_pos hv] at hw
      have hl := loadLine_vertex ops m ps l hv
      rw [hl]
      exact ih _ _ (loadLine_inv hinv hl) (by simpa using hw)
    · by_cases hf : l.tag = "f"
      · simp only [WellIndexedFrom, if_neg hv, if_pos hf] at hw
        obtain ⟨⟨hu, h1, h2, h3⟩, hrest⟩ := hw
        obtain ⟨m', hl⟩ := loadLine_face_total ops m ps l hinv hv hf
          (by rw [decrU32_of_pos _ h1.1 hu.1]; omega)
          (by rw [decrU32_of_pos _ h2.1 hu.2.1]; omega)
          (by rw [decrU32_of_pos _ h3.1 hu.2.2]; omega)
        rw [hl]
        exact ih _ _ (loadLine_inv hinv hl) hrest
      · simp only [WellIndexedFrom, if_neg hv, if_neg hf] at hw
        rw [loadLine_other ops m ps l hv hf]
        exact ih _ _ hinv hw

/-- On a file whose face records refer to vertex records already read, `loadModel` returns. -/
theorem loadModel_total (ops : FloatOps K) (lines : List (Line K))
    (hw : WellIndexedFrom 0 lines) :
    ∃ m, loadModel ops Model.empty (some lines) = some m := by
  obtain ⟨s, hs⟩ := loadLines_total ops lines Model.empty [] LoadInv_empty hw
  simp only [loadModel, hs]
  exact ⟨_, rfl⟩

/-- A face record whose indices lie between 1 and the number of vertex records before it is
stored with decremented indices and the normal of its three positions. -/
theorem face_record_at (ops : FloatOps K) (pre post : List (Line K)) (l : Line K)
    (m : Model K) (hf : l.tag = "f") (hu : l.IsU32)
    (h1 : 1 ≤ l.v1 ∧ l.v1 ≤ (vertexPositions pre).length)
    (h2 : 1 ≤ l.v2 ∧ l.v2 ≤ (vertexPositions pre).length)
    (h3 : 1 ≤ l.v3 ∧ l.v3 ≤ (vertexPositions pre).length)
    (h : loadModel ops Model.empty (some (pre ++ l :: post)) = some m) :
    ∃ p1 p2 p3,
      (vertexPositions (pre ++ l :: post))[l.v1 - 1]? = some p1 ∧
      (vertexPositions (pre ++ l :: post))[l.v2 - 1]? = some p2 ∧
      (vertexPositions (pre ++ l :: post))[l.v3 - 1]? = some p3 ∧
      m.faces[faceCount pre]? = some ⟨l.v1 - 1, l.v2 - 1, l.v3 - 1⟩ ∧
      m.faceNormals[faceCount pre]? =
        some (Vec3.normalize ops (Vec3.cross (p2 - p1) (p3 - p1))) := by
  obtain ⟨mf, psf, hl, rfl⟩ := loadModel_eq_some h
  have hv : ¬ l.tag = "v" := by rw [hf]; decide
  rw [loadLines_append] at hl
  cases hpre : loadLines ops Model.empty [] pre with
  | none => rw [hpre] at hl; exact absurd hl (by simp)
  | some s1 =>
    rw [hpre] at hl
    simp only [Option.some_bind] at hl
    rw [loadLines_cons] at hl
    cases hline : loadLine ops s1.1 s1.2 l with
    | none => rw [hline] at hl; exact absurd hl (by simp)
    | some s2 =>
      rw [hline] at hl
      simp only [Option.some_bind] at hl
      obtain ⟨a1, a2, _, _⟩ := loadLines_extends ops pre _ _ _ _ hpre
      obtain ⟨_, _, alen, _, _⟩ := loadLines_inv ops pre _ _ _ _ LoadInv_empty hpre
      obtain ⟨pos1, pos2, pos3, vs1, vs2, vs3, q1, q2, q3, _, _, _, hs2, _⟩ :=
        loadLine_face hv hf hline
      obtain ⟨_, _, ⟨t3, b3⟩, ⟨t4, b4⟩⟩ := loadLines_extends ops post _ _ _ _ hl
      rw [decrU32_of_pos _ h1.1 hu.1] at q1 hs2
      rw [decrU32_of_pos _ h2.1 hu.2.1] at q2 hs2
      rw [decrU32_of_pos _ h3.1 hu.2.2] at q3 hs2
      simp only [List.nil_append] at a1
      have hfc : s1.1.faces.length = faceCount pre := by
        rw [a2]; simp [Model.empty]
      have hP : ∀ i, i < (vertexPositions pre).length →
          (vertexPositions (pre ++ l :: post))[i]? = s1.2[i]? := by
        intro i hi
        rw [vertexPositions_append, List.getElem?_append_left hi, a1]
      refine ⟨pos1, pos2, pos3, ?_, ?_, ?_, ?_, ?_⟩
      · rw [hP _ (by omega)]; exact q1
      · rw [hP _ (by omega)]; exact q2
      · rw [hP _ (by omega)]; exact q3
      · show mf.faces[faceCount pre]? = _
        rw [b3, hs2, ← hfc]
        simp only [List.append_assoc, List.singleton_append]
        exact getElem?_append_cons_length _ _ _
      · show mf.faceNormals[faceCount pre]? = _
        rw [b4, hs2, ← hfc, ← alen]
        simp only [List.append_assoc, List.singleton_append]
        exact getElem?_append_cons_length _ _ _

theorem eq_singleton_of_getElem? {α : Type} (xs : List α) (x : α) (hlen : xs.length = 1)
    (h0 : xs[0]? = some x) : xs = [x] := by
  match xs, hlen, h0 with
  | [y], _, h0 =>
    simp only [List.getElem?_cons_zero, Option.some.injEq] at h0
    rw [h0]

theorem vertexPositions_cons_vertex (x y z : K) (rest : List (Line K)) :
    vertexPositions (Line.vertex x y z :: rest) = ⟨x, y, z⟩ :: vertexPositions rest := by
  simp [vertexPositions, Line.vertex]

theorem faceCount_cons_vertex (x y z : K) (rest : List (Line K)) :
    faceCount (Line.vertex x y z :: rest) = faceCount rest := by
  simp [faceCount, Line.vertex]

theorem faceCount_cons_face (a b c : Nat) (rest : List (Line K)) :
    faceCount ((Line.face a b c : Line K) :: rest) = faceCount rest + 1 := by
  simp [faceCount, Line.face]

theorem vertexPositions_cons_face (a b c : Nat) (rest : List (Line K)) :
    vertexPositions ((Line.face a b c : Line K) :: rest) = vertexPositions rest := by
  simp [vertexPositions, Line.face]

/-- The file `v P0`, `v P1`, `v P2`, `f 1 2 3` loads, and yields one face. -/
theorem loadModel_single_triangle (ops : FloatOps K) (P0 P1 P2 : Vec3 K) :
    ∃ m3, loadModel ops Model.empty (some [Line.vertex P0.x P0.y P0.z,
        Line.vertex P1.x P1.y P1.z, Line.vertex P2.x P2.y P2.z, Line.face 1 2 3]) = some m3 ∧
      m3.faces = [⟨0, 1, 2⟩] ∧ m3.indices = [0, 1, 2] ∧
      m3.faceNormals = [Vec3.normalize ops (Vec3.cross (P1 - P0) (P2 - P0))] := by
  have hu : (Line.face 1 2 3 : Line K).IsU32 := by
    refine ⟨?_, ?_, ?_⟩ <;> show _ < 2 ^ 32 <;> norm_num [Line.face]
  have hw : WellIndexedFrom 0 [Line.vertex P0.x P0.y P0.z, Line.vertex P1.x P1.y P1.z,
      Line.vertex P2.x P2.y P2.z, (Line.face 1 2 3 : Line K)] := by
    have e1 : (Line.vertex P0.x P0.y P0.z).tag = "v" := rfl
    have e2 : (Line.vertex P1.x P1.y P1.z).tag = "v" := rfl
    have e3 : (Line.vertex P2.x P2.y P2.z).tag = "v" := rfl
    have e4 : ¬ (Line.face 1 2 3 : Line K).tag = "v" := by
      show ¬ ("f" : String) = "v"
      decide
    have e5 : (Line.face 1 2 3 : Line K).tag = "f" := rfl
    simp only [WellIndexedFrom, if_pos e1, if_pos e2, if_pos e3, if_neg e4, if_pos e5]
    exact ⟨⟨hu, ⟨le_refl 1, by norm_num [Line.face]⟩, ⟨by norm_num [Line.face],
      by norm_num [Line.face]⟩, ⟨by norm_num [Line.face], by norm_num [Line.face]⟩⟩, trivial⟩
  obtain ⟨m3, hm⟩ := loadModel_total ops _ hw
  have hpre : vertexPositions [Line.vertex P0.x P0.y P0.z, Line.vertex P1.x P1.y P1.z,
      Line.vertex P2.x P2.y P2.z] = [P0, P1, P2] := by
    rw [vertexPositions_cons_vertex, vertexPositions_cons_vertex, vertexPositions_cons_vertex]
    rfl
  have hfc : faceCount [Line.vertex P0.x P0.y P0.z, Line.vertex P1.x P1.y P1.z,
      Line.vertex P2.x P2.y P2.z] = 0 := by
    rw [faceCount_cons_vertex, faceCount_cons_vertex, faceCount_cons_vertex]
    rfl
  obtain ⟨p1, p2, p3, hp1, hp2, hp3, hface, hnormal⟩ := face_record_at ops
    [Line.vertex P0.x P0.y P0.z, Line.vertex P1.x P1.y P1.z, Line.vertex P2.x P2.y P2.z] []
    (Line.face 1 2 3) m3 rfl hu
    (by rw [hpre]; exact ⟨le_refl 1, by norm_num [Line.face]⟩)
    (by rw [hpre]; exact ⟨by norm_num [Line.face], by norm_num [Line.face]⟩)
    (by rw [hpre]; exact ⟨by norm_num [Line.face], by norm_num [Line.face]⟩) hm
  have hall : vertexPositions ([Line.vertex P0.x P0.y P0.z, Line.vertex P1.x P1.y P1.z,
      Line.vertex P2.x P2.y P2.z] ++ [(Line.face 1 2 3 : Line K)]) = [P0, P1, P2] := by
    rw [vertexPositions_append, hpre, vertexPositions_cons_face]
    rfl
  rw [hall] at hp1 hp2 hp3
  rw [hfc] at hface hnormal
  have q1 : p1 = P0 := by
    have : ([P0, P1, P2] : List (Vec3 K))[0]? = some p1 := hp1
    simpa using this.symm
  have q2 : p2 = P1 := by
    have : ([P0, P1, P2] : List (Vec3 K))[1]? = some p2 := hp2
    simpa using this.symm
  have q3 : p3 = P2 := by
    have : ([P0, P1, P2] : List (Vec3 K))[2]? = some p3 := hp3
    simpa using this.symm
  subst q1 q2 q3
  obtain ⟨m1, ps, hl, hm1⟩ := loadModel_eq_some hm
  obtain ⟨_, hflen, _, _⟩ := loadLines_extends ops _ _ _ _ _ hl
  obtain ⟨_, _, hnlen, hidx, _⟩ := loadLines_inv ops _ _ _ _ _ LoadInv_empty hl
  have hfaces1 : m3.faces.length = 1 := by
    rw [hm1]
    show m1.faces.length = 1
    rw [hflen, faceCount_cons_vertex, faceCount_cons_vertex, faceCount_cons_vertex,
      faceCount_cons_face]
    rfl
  have hfaces : m3.faces = [⟨0, 1, 2⟩] := eq_singleton_of_getElem? _ _ hfaces1 hface
  have hnormals : m3.faceNormals = [Vec3.normalize ops (Vec3.cross (p2 - p1) (p3 - p1))] :=
    eq_singleton_of_getElem? _ _
      (by rw [hm1]; show m1.faceNormals.length = 1; rw [hnlen, ← hfaces1, hm1]) hnormal
  refine ⟨m3, hm, hfaces, ?_, hnormals⟩
  have : m3.indices = flattenFaces m3.faces := by rw [hm1]; exact hidx
  rw [this, hfaces]
  rfl

/-- C8: a face record `f a b c` whose 1-based indices lie between 1 and the number of vertex
records before it is stored as the face `(a-1, b-1, c-1)` with the face normal
`normalize ((P[b-1] - P[a-1]) × (P[c-1] - P[a-1]))`, `P[i]` being the position of the `i`-th vertex
record of the file; `f 1 2 3` after vertex records at `P0 P1 P2` gives the triple `(0, 1, 2)` and
the normal `normalize ((P1 - P0) × (P2 - P0))`. -/
theorem face_record_stored (ops : FloatOps K) (pre post : List (Line K)) (l : Line K)
    (m : Model K) (hf : l.tag = "f") (hu : l.IsU32)
    (h1 : 1 ≤ l.v1 ∧ l.v1 ≤ (vertexPositions pre).length)
    (h2 : 1 ≤ l.v2 ∧ l.v2 ≤ (vertexPositions pre).length)
    (h3 : 1 ≤ l.v3 ∧ l.v3 ≤ (vertexPositions pre).length)
    (h : loadModel ops Model.empty (some (pre ++ l :: post)) = some m) :
    (∃ p1 p2 p3,
      (vertexPositions (pre ++ l :: post))[l.v1 - 1]? = some p1 ∧
      (vertexPositions (pre ++ l :: post))[l.v2 - 1]? = some p2 ∧
      (vertexPositions (pre ++ l :: post))[l.v3 - 1]? = some p3 ∧
      m.faces[faceCount pre]? = some ⟨l.v1 - 1, l.v2 - 1, l.v3 - 1⟩ ∧
      m.faceNormals[faceCount pre]? =
        some (Vec3.normalize ops (Vec3.cross (p2 - p1) (p3 - p1)))) ∧
    ∀ P0 P1 P2 : Vec3 K, ∃ m3,
      loadModel ops Model.empty (some [Line.vertex P0.x P0.y P0.z, Line.vertex P1.x P1.y P1.z,
        Line.vertex P2.x P2.y P2.z, Line.face 1 2 3]) = some m3 ∧
      m3.faces = [⟨0, 1, 2⟩] ∧ m3.indices = [0, 1, 2] ∧
      m3.faceNormals = [Vec3.normalize ops (Vec3.cross (P1 - P0) (P2 - P0))] :=
  ⟨face_record_at ops pre post l m hf hu h1 h2 h3 h, loadModel_single_triangle ops⟩

/-! ### The demo mesh -/

theorem heron_pos (q : ℚ) (hq : 0 < q) : ∀ (n : Nat) (x : ℚ), 0 < x → 0 < heron q n x := by
  intro n
  induction n with
  | zero => intro x hx; exact hx
  | succ k ih =>
    intro x hx
    exact ih _ (by positivity)

theorem ratSqrt_pos (q : ℚ) (hq : 0 < q) : 0 < ratSqrt q := by
  unfold ratSqrt
  rw [if_neg (not_le.2 hq)]
  exact heron_pos q hq 6 1 one_pos

theorem ratSqrt_one : ratSqrt 1 = 1 := by norm_num [ratSqrt, heron]

theorem decrU32_one : decrU32 1 = 0 := decrU32_of_pos 1 (le_refl 1) (by norm_num)

theorem decrU32_two : decrU32 2 = 1 := decrU32_of_pos 2 (by norm_num) (by norm_num)

theorem decrU32_three : decrU32 3 = 2 := decrU32_of_pos 3 (by norm_num) (by norm_num)

theorem decrU32_four : decrU32 4 = 3 := decrU32_of_pos 4 (by norm_num) (by norm_num)

theorem loadModel_demo : loadModel ratOps Model.empty (some demoLines) = some demoLoaded := by
  have h2 : (0 : ℚ) < ratSqrt 2 := ratSqrt_pos 2 (by norm_num)
  simp [loadModel, loadLines, loadLine, demoLines, demoLoaded, Line.vertex, Line.face,
    decrU32_one, decrU32_two, decrU32_three, decrU32_four, Model.empty, addNormal,
    normalizeVertex, Vec3.normalize, Vec3.cross, Vec3.length, Vec3.dot, Vec3.sub_def,
    Vec3.add_def, Vec3.mul_def, ratOps, ratSqrt_one, Vec3.zero]
  norm_num [h2]

theorem Model.new_demo : Model.new ratOps (some demoLines) demoColor = some demoModel := by
  simp only [Model.new, loadModel_demo, setupMesh, demoModel]

theorem updateNormals_demo : updateNormals demoFaceMode = some demoToggled := by
  simp [updateNormals, newNormals, overwriteFaceNormals, assignAt, interleave, demoFaceMode,
    demoToggled, demoModel, demoLoaded, Vec3.zero, List.replicate]

theorem accumulatedNormal_demo :
    accumulatedNormal demoLoaded.faces demoLoaded.faceNormals 0 =
      Vec3.zero + (⟨0, 0, 1⟩ : Vec3 ℚ) + ⟨1, 0, 0⟩ := by
  simp [accumulatedNormal, accumulateStep, demoLoaded]

theorem length_accumulatedNormal_demo :
    Vec3.length ratOps (accumulatedNormal demoLoaded.faces demoLoaded.faceNormals 0) > 0 := by
  rw [accumulatedNormal_demo]
  have h2 : (0 : ℚ) < ratSqrt 2 := ratSqrt_pos 2 (by norm_num)
  have e : Vec3.dot (Vec3.zero + (⟨0, 0, 1⟩ : Vec3 ℚ) + ⟨1, 0, 0⟩)
      (Vec3.zero + (⟨0, 0, 1⟩ : Vec3 ℚ) + ⟨1, 0, 0⟩) = 2 := by
    norm_num [Vec3.dot, Vec3.add_def, Vec3.zero]
  show ratSqrt _ > 0
  rw [e]
  exact h2

/-- Witness for C5: vertex `0` of the demo mesh is shared by the faces with normals `(0, 0, 1)`
and `(1, 0, 0)`; it stores the normalized sum of the two. -/
theorem vertex_normal_is_normalized_sum_witness :
    loadModel ratOps Model.empty (some demoLines) = some demoLoaded ∧
    demoLoaded.vertices[0]? = some ⟨⟨0, 0, 0⟩, Vec3.normalize ratOps ⟨1, 0, 1⟩⟩ ∧
    Vec3.length ratOps (accumulatedNormal demoLoaded.faces demoLoaded.faceNormals 0) > 0 ∧
    Vec3.normalize ratOps (⟨1, 0, 1⟩ : Vec3 ℚ) =
      Vec3.normalize ratOps (accumulatedNormal demoLoaded.faces demoLoaded.faceNormals 0) :=
  ⟨loadModel_demo, rfl, length_accumulatedNormal_demo,
    (vertex_normal_is_normalized_sum ratOps (some demoLines) demoLoaded loadModel_demo 0
      ⟨⟨0, 0, 0⟩, Vec3.normalize ratOps ⟨1, 0, 1⟩⟩ rfl length_accumulatedNormal_demo).1⟩

/-- Witness for C6: in the demo mesh vertex `0` occurs in face `0`, with normal `(0, 0, 1)`, and
last in face `1`, with normal `(1, 0, 0)`; its slot and the uploaded array hold `(1, 0, 0)`. -/
theorem face_mode_last_writer_wins_witness :
    demoFaceMode.useVertexNormal = false ∧
    updateNormals demoFaceMode = some demoToggled ∧
    (∃ normals, newNormals demoFaceMode = some normals ∧ normals[0]? = some ⟨1, 0, 0⟩) ∧
    demoToggled.vboData[6 * 0 + 3]? = some 1 ∧ demoToggled.vboData[6 * 0 + 4]? = some 0 ∧
    demoToggled.vboData[6 * 0 + 5]? = some 0 := by
  obtain ⟨normals, hn, _, hall⟩ :=
    face_mode_last_writer_wins demoFaceMode demoToggled rfl updateNormals_demo
  have hlast : ∀ j g, 1 < j → demoFaceMode.faces[j]? = some g → ¬ g.Mentions 0 := by
    intro j g hj hg
    have hnone : demoFaceMode.faces[j]? = none :=
      List.getElem?_eq_none (by show 2 ≤ j; omega)
    rw [hnone] at hg
    exact absurd hg (by simp)
  obtain ⟨h0, h3, h4, h5⟩ := hall 0 1 ⟨0, 2, 3⟩ ⟨1, 0, 0⟩ rfl rfl (Or.inl rfl) hlast
  exact ⟨rfl, updateNormals_demo, ⟨normals, hn, h0⟩, h3, h4, h5⟩

/-- Witness for C7: the demo model, toggled twice. -/
theorem toggleNormalMode_involution_witness :
    Model.new ratOps (some demoLines) demoColor = some demoModel ∧
    (∃ m1, toggleNormalMode demoModel = some m1 ∧ m1.useVertexNormal = false ∧
      toggleNormalMode m1 = some demoModel) :=
  ⟨Model.new_demo,
    (toggleNormalMode_involution ratOps (some demoLines) demoColor demoModel
      Model.new_demo).2.1⟩

/-- Witness for C8: the record `f 1 2 3` of the demo file, after four vertex records and a
comment line and before the record `f 1 3 4`. -/
theorem face_record_stored_witness :
    loadModel ratOps Model.empty
      (some ([Line.vertex 0 0 0, Line.vertex 1 0 0, Line.vertex 0 1 0, Line.vertex 0 0 1,
        ⟨"#", 0, 0, 0, 0, 0, 0⟩] ++ Line.face 1 2 3 :: [Line.face 1 3 4])) = some demoLoaded ∧
    demoLoaded.faces[0]? = some ⟨0, 1, 2⟩ ∧
    demoLoaded.faceNormals[0]? =
      some (Vec3.normalize ratOps
        (Vec3.cross ((⟨1, 0, 0⟩ : Vec3 ℚ) - ⟨0, 0, 0⟩) (⟨0, 1, 0⟩ - ⟨0, 0, 0⟩))) := by
  obtain ⟨⟨p1, p2, p3, hp1, hp2, hp3, hface, hn⟩, _⟩ := face_record_stored ratOps
    [Line.vertex 0 0 0, Line.vertex 1 0 0, Line.vertex 0 1 0, Line.vertex 0 0 1,
      ⟨"#", 0, 0, 0, 0, 0, 0⟩]
    [Line.face 1 3 4] (Line.face 1 2 3) demoLoaded rfl
    (by norm_num [Line.IsU32, Line.face])
    (by simp [vertexPositions, Line.vertex, Line.face])
    (by simp [vertexPositions, Line.vertex, Line.face])
    (by simp [vertexPositions, Line.vertex, Line.face])
    loadModel_demo
  have e1 : p1 = ⟨0, 0, 0⟩ := by
    simpa [vertexPositions, Line.vertex, Line.face] using hp1.symm
  have e2 : p2 = ⟨1, 0, 0⟩ := by
    simpa [vertexPositions, Line.vertex, Line.face] using hp2.symm
  have e3 : p3 = ⟨0, 1, 0⟩ := by
    simpa [vertexPositions, Line.vertex, Line.face] using hp3.symm
  subst e1 e2 e3
  refine ⟨loadModel_demo, ?_, ?_⟩
  · simpa [faceCount, Line.vertex, Line.face] using hface
  · simpa [faceCount, Line.vertex, Line.face] using hn

/-- Witness for C9: the demo mesh, after loading and after construction and three toggles. -/
theorem mesh_shape_invariant_witness :
    loadModel ratOps Model.empty (some demoLines) = some demoLoaded ∧
    MeshShape demoLoaded ∧
    ∃ mc s, Model.new ratOps (some demoLines) demoColor = some mc ∧
      toggleTimes 3 mc = some s ∧ MeshShape s :=
  ⟨loadModel_demo,
    (mesh_shape_invariant ratOps (some demoLines) demoLoaded loadModel_demo).1,
    (mesh_shape_invariant ratOps (some demoLines) demoLoaded loadModel_demo).2 demoColor 3⟩

end ModelTheorems

/-! ## Theorems: light -/

section LightTheorems

variable {K : Type} [LinearOrderedField K]

theorem Light.adjustIntensity_intensity (l : Light K) (amount : K) :
    (l.adjustIntensity amount).intensity = clamp (l.intensity + amount) 0.1 3 := by
  rw [← clamp_low_then_high _ _ _ (by norm_num)]
  simp only [Light.adjustIntensity]
  split_ifs <;> rfl

/-- C11: for every light state and every delta, `adjustIntensity` sets the intensity to
`clamp (intensity + delta) 0.1 3.0`, so the new intensity lies between `0.1` and `3.0`; from the
default intensity `1.0`, a delta of `+10` gives exactly `3.0` and a delta of `-10` exactly `0.1`. -/
theorem Light.adjustIntensity_spec (l : Light K) (amount : K) :
    (l.adjustIntensity amount).intensity = clamp (l.intensity + amount) 0.1 3 ∧
    (0.1 ≤ (l.adjustIntensity amount).intensity ∧ (l.adjustIntensity amount).intensity ≤ 3) ∧
    (Light.default : Light K).intensity = 1 ∧
    ((Light.default : Light K).adjustIntensity 10).intensity = 3 ∧
    ((Light.default : Light K).adjustIntensity (-10)).intensity = 0.1 := by
  refine ⟨Light.adjustIntensity_intensity l amount, ?_, rfl, ?_, ?_⟩
  · rw [Light.adjustIntensity_intensity]
    exact clamp_mem _ _ _ (by norm_num)
  · rw [Light.adjustIntensity_intensity]
    show clamp ((1 : K) + 10) 0.1 3 = 3
    unfold clamp
    norm_num
  · rw [Light.adjustIntensity_intensity]
    show clamp ((1 : K) + -10) 0.1 3 = 0.1
    unfold clamp
    norm_num

theorem Light.adjustIntensity_frame (l : Light K) (amount : K) :
    (l.adjustIntensity amount).position = l.position ∧
    (l.adjustIntensity amount).ambient = l.ambient ∧
    (l.adjustIntensity amount).diffuse = l.diffuse ∧
    (l.adjustIntensity amount).specular = l.specular ∧
    (l.adjustIntensity amount).direction = l.direction := by
  simp only [Light.adjustIntensity]
  split_ifs <;> exact ⟨rfl, rfl, rfl, rfl, rfl⟩

/-- C13: each mutator of the light writes one member.  `move` sets the position to
`position + offset`, without clamping, and keeps the rest; `adjustIntensity` keeps everything but
the intensity; `rotate` keeps everything but the direction, and the light it produces is the same
for every pivot. -/
theorem Light.mutators_frame (ops : FloatOps K) (l : Light K) (offset : Vec3 K) (amount angle : K)
    (axis pivot pivot' : Vec3 K) :
    ((l.move offset).position = l.position + offset ∧
      (l.move offset).ambient = l.ambient ∧ (l.move offset).diffuse = l.diffuse ∧
      (l.move offset).specular = l.specular ∧ (l.move offset).intensity = l.intensity ∧
      (l.move offset).direction = l.direction) ∧
    ((l.adjustIntensity amount).position = l.position ∧
      (l.adjustIntensity amount).ambient = l.ambient ∧
      (l.adjustIntensity amount).diffuse = l.diffuse ∧
      (l.adjustIntensity amount).specular = l.specular ∧
      (l.adjustIntensity amount).direction = l.direction) ∧
    ((Light.rotate ops l angle axis pivot).position = l.position ∧
      (Light.rotate ops l angle axis pivot).ambient = l.ambient ∧
      (Light.rotate ops l angle axis pivot).diffuse = l.diffuse ∧
      (Light.rotate ops l angle axis pivot).specular = l.specular ∧
      (Light.rotate ops l angle axis pivot).intensity = l.intensity) ∧
    Light.rotate ops l angle axis pivot = Light.rotate ops l angle axis pivot' :=
  ⟨⟨rfl, rfl, rfl, rfl, rfl, rfl⟩, Light.adjustIntensity_frame l amount,
    ⟨rfl, rfl, rfl, rfl, rfl⟩, rfl⟩

end LightTheorems

/-! ## Theorems: unrecognized lines and index safety -/

section LoaderTheorems

variable {K : Type} [LinearOrderedField K]

theorem recognizedLines_cons_of_recognized (l : Line K) (rest : List (Line K))
    (h : l.tag = "v" ∨ l.tag = "f") :
    recognizedLines (l :: rest) = l :: recognizedLines rest := by
  simp [recognizedLines, h]

theorem recognizedLines_cons_of_other (l : Line K) (rest : List (Line K))
    (hv : ¬ l.tag = "v") (hf : ¬ l.tag = "f") :
    recognizedLines (l :: rest) = recognizedLines rest := by
  simp [recognizedLines, hv, hf]

/-- The loop of `loadModel` does on a file what it does on its vertex and face records. -/
theorem loadLines_recognizedLines (ops : FloatOps K) (lines : List (Line K)) :
    ∀ (m : Model K) (ps : List (Vec3 K)),
      loadLines ops m ps lines = loadLines ops m ps (recognizedLines lines) := by
  induction lines with
  | nil => intro m ps; rfl
  | cons l rest ih =>
    intro m ps
    by_cases h : l.tag = "v" ∨ l.tag = "f"
    · rw [recognizedLines_cons_of_recognized l rest h, loadLines_cons, loadLines_cons]
      cases loadLine ops m ps l with
      | none => rfl
      | some s => exact ih s.1 s.2
    · simp only [not_or] at h
      rw [recognizedLines_cons_of_other l rest h.1 h.2, loadLines_cons,
        loadLine_other ops m ps l h.1 h.2]
      exact ih m ps

/-- C14: lines whose first token is neither `v` nor `f` have no effect: on every file, from every
state of the members, `loadModel` behaves as on the file with these lines removed, and so does
the constructor; vertices, faces, face normals and index buffer are the same. -/
theorem loadModel_ignores_unrecognized (ops : FloatOps K) (lines : List (Line K)) :
    (∀ m : Model K,
      loadModel ops m (some lines) = loadModel ops m (some (recognizedLines lines))) ∧
    (∀ color : Vec3 K,
      Model.new ops (some lines) color = Model.new ops (some (recognizedLines lines)) color) ∧
    (∀ l ∈ recognizedLines lines, l.tag = "v" ∨ l.tag = "f") ∧
    (∀ l ∈ lines, (l.tag = "v" ∨ l.tag = "f") → l ∈ recognizedLines lines) := by
  have hload : ∀ m : Model K,
      loadModel ops m (some lines) = loadModel ops m (some (recognizedLines lines)) := by
    intro m
    simp only [loadModel]
    rw [loadLines_recognizedLines]
  refine ⟨hload, ?_, ?_, ?_⟩
  · intro color
    simp only [Model.new]
    rw [hload]
  · intro l hl
    simpa [recognizedLines] using (List.mem_filter.1 hl).2
  · intro l hl h
    exact List.mem_filter.2 ⟨hl, by simpa using h⟩

theorem vertexPositions_length_cons (l : Line K) (pre : List (Line K)) :
    (vertexPositions (l :: pre)).length =
      (vertexPositions [l]).length + (vertexPositions pre).length := by
  have h : l :: pre = [l] ++ pre := rfl
  rw [h, vertexPositions_append, List.length_append]

theorem vertexPositions_length_singleton (l : Line K) :
    (vertexPositions [l]).length = if l.tag = "v" then 1 else 0 := by
  by_cases hv : l.tag = "v" <;> simp [vertexPositions, hv]

/-- The declarative index condition, counted from `n` vertex records, gives the recursive one. -/
theorem WellIndexedFrom_of_splits (lines : List (Line K)) :
    ∀ n : Nat,
      (∀ (pre : List (Line K)) (l : Line K) (post : List (Line K)), lines = pre ++ l :: post →
        l.tag = "f" →
        l.IsU32 ∧ (1 ≤ l.v1 ∧ l.v1 ≤ n + (vertexPositions pre).length) ∧
        (1 ≤ l.v2 ∧ l.v2 ≤ n + (vertexPositions pre).length) ∧
        (1 ≤ l.v3 ∧ l.v3 ≤ n + (vertexPositions pre).length)) →
      WellIndexedFrom n lines := by
  induction lines with
  | nil => intro n _; simp only [WellIndexedFrom]
  | cons l rest ih =>
    intro n h
    have hrest : WellIndexedFrom (n + (vertexPositions [l]).length) rest := by
      apply ih
      intro pre l' post hsplit hf'
      obtain ⟨hu, h1, h2, h3⟩ := h (l :: pre) l' post (by rw [hsplit]; rfl) hf'
      rw [vertexPositions_length_cons] at h1 h2 h3
      exact ⟨hu, ⟨h1.1, by omega⟩, ⟨h2.1, by omega⟩, ⟨h3.1, by omega⟩⟩
    rw [vertexPositions_length_singleton] at hrest
    by_cases hv : l.tag = "v"
    · simp only [WellIndexedFrom, if_pos hv]
      simpa [hv] using hrest
    · rw [if_neg hv] at hrest
      by_cases hf : l.tag = "f"
      · simp only [WellIndexedFrom, if_neg hv, if_pos hf]
        obtain ⟨hu, h1, h2, h3⟩ := h [] l rest rfl hf
        have h0 : (vertexPositions ([] : List (Line K))).length = 0 := rfl
        rw [h0] at h1 h2 h3
        exact ⟨⟨hu, ⟨h1.1, by omega⟩, ⟨h2.1, by omega⟩, ⟨h3.1, by omega⟩⟩, hrest⟩
      · simp only [WellIndexedFrom, if_neg hv, if_neg hf]
        exact hrest

/-- The recursive index condition gives the declarative one, counted from `n` vertex records. -/
theorem splits_of_WellIndexedFrom (lines : List (Line K)) :
    ∀ n : Nat, WellIndexedFrom n lines →
      ∀ (pre : List (Line K)) (l : Line K) (post : List (Line K)), lines = pre ++ l :: post →
        l.tag = "f" →
        l.IsU32 ∧ (1 ≤ l.v1 ∧ l.v1 ≤ n + (vertexPositions pre).length) ∧
        (1 ≤ l.v2 ∧ l.v2 ≤ n + (vertexPositions pre).length) ∧
        (1 ≤ l.v3 ∧ l.v3 ≤ n + (vertexPositions pre).length) := by
  induction lines with
  | nil => intro n _ pre l post hsplit; simp at hsplit
  | cons l0 rest ih =>
    intro n hw pre l post hsplit hf
    cases pre with
    | nil =>
      simp only [List.nil_append, List.cons.injEq] at hsplit
      obtain ⟨rfl, rfl⟩ := hsplit
      have hv : ¬ l0.tag = "v" := by rw [hf]; decide
      simp only [WellIndexedFrom, if_neg hv, if_pos hf] at hw
      obtain ⟨⟨hu, h1, h2, h3⟩, _⟩ := hw
      have h0 : (vertexPositions ([] : List (Line K))).length = 0 := rfl
      rw [h0]
      exact ⟨hu, ⟨h1.1, by omega⟩, ⟨h2.1, by omega⟩, ⟨h3.1, by omega⟩⟩
    | cons p pre' =>
      simp only [List.cons_append, List.cons.injEq] at hsplit
      obtain ⟨rfl, hrest⟩ := hsplit
      have hw' : WellIndexedFrom (n + (vertexPositions [l0]).length) rest := by
        rw [vertexPositions_length_singleton]
        by_cases hv : l0.tag = "v"
        · simp only [WellIndexedFrom, if_pos hv] at hw
          simpa [hv] using hw
        · rw [if_neg hv]
          by_cases hf0 : l0.tag = "f"
          · simp only [WellIndexedFrom, if_neg hv, if_pos hf0] at hw
            exact hw.2
          · simp only [WellIndexedFrom, if_neg hv, if_neg hf0] at hw
            exact hw
      obtain ⟨hu, h1, h2, h3⟩ := ih _ hw' pre' l post hrest hf
      rw [vertexPositions_length_cons]
      exact ⟨hu, ⟨h1.1, by omega⟩, ⟨h2.1, by omega⟩, ⟨h3.1, by omega⟩⟩

theorem WellIndexedFrom_of_WellIndexed {lines : List (Line K)} (h : WellIndexed lines) :
    WellIndexedFrom 0 lines := by
  apply WellIndexedFrom_of_splits
  intro pre l post hsplit hf
  simpa using h pre l post hsplit hf

theorem WellIndexed_of_WellIndexedFrom {lines : List (Line K)} (h : WellIndexedFrom 0 lines) :
    WellIndexed lines := by
  intro pre l post hsplit hf
  simpa using splits_of_WellIndexedFrom lines 0 h pre l post hsplit hf

theorem mem_flattenFaces (fs : List Face) (i : Nat) (h : i ∈ flattenFaces fs) :
    ∃ f ∈ fs, f.Mentions i := by
  induction fs with
  | nil => simp [flattenFaces] at h
  | cons g gs ih =>
    simp only [flattenFaces, List.mem_cons] at h
    rcases h with h | h | h | h
    · exact ⟨g, List.mem_cons_self _ _, Or.inl h.symm⟩
    · exact ⟨g, List.mem_cons_self _ _, Or.inr (Or.inl h.symm)⟩
    · exact ⟨g, List.mem_cons_self _ _, Or.inr (Or.inr h.symm)⟩
    · obtain ⟨f, hf, hm⟩ := ih h
      exact ⟨f, List.mem_cons_of_mem _ hf, hm⟩

/-- C15: if every face record's three indices lie between 1 and the number of vertex records
before it, then `loadModel` runs without an out-of-range access (the model returns `none` at one),
no decrement wraps, every stored face index and every index-buffer entry is below
`vertices.size()`, `updateNormals` runs without an out-of-range access in either mode, and so
does any number of calls of `toggleNormalMode` on the constructed model. -/
theorem index_safety (ops : FloatOps K) (lines : List (Line K)) (hw : WellIndexed lines) :
    (∀ l ∈ lines, l.tag = "f" →
      decrU32 l.v1 + 1 = l.v1 ∧ decrU32 l.v2 + 1 = l.v2 ∧ decrU32 l.v3 + 1 = l.v3) ∧
    ∃ m, loadModel ops Model.empty (some lines) = some m ∧
      (∀ f ∈ m.faces, f.v1 < m.vertices.length ∧ f.v2 < m.vertices.length ∧
        f.v3 < m.vertices.length) ∧
      (∀ i ∈ m.indices, i < m.vertices.length) ∧
      (∀ b : Bool, ∃ m', updateNormals { m with useVertexNormal := b } = some m') ∧
      (∀ (color : Vec3 K) (n : Nat), ∃ mc s,
        Model.new ops (some lines) color = some mc ∧ toggleTimes n mc = some s) := by
  constructor
  · intro l hl hf
    obtain ⟨pre, post, hsplit⟩ := List.append_of_mem hl
    obtain ⟨hu, h1, h2, h3⟩ := hw pre l post hsplit hf
    rw [decrU32_of_pos _ h1.1 hu.1, decrU32_of_pos _ h2.1 hu.2.1, decrU32_of_pos _ h3.1 hu.2.2]
    omega
  · obtain ⟨m, hm⟩ := loadModel_total ops lines (WellIndexedFrom_of_WellIndexed hw)
    obtain ⟨hbelow, hlen, hidx⟩ := loadModel_inv hm
    refine ⟨m, hm, hbelow, ?_, ?_, ?_⟩
    · intro i hi
      rw [hidx] at hi
      obtain ⟨f, hf, hmen⟩ := mem_flattenFaces _ i hi
      have hb := hbelow f hf
      rcases hmen with e | e | e <;> omega
    · intro b
      exact updateNormals_total _ hbelow (le_of_eq hlen.symm)
    · intro color n
      have hnew : Model.new ops (some lines) color =
          some { m with vboData := meshData m.vertices, eboData := m.indices,
                        useVertexNormal := true, modelColor := color } := by
        simp only [Model.new, hm, setupMesh]
      obtain ⟨s, hs, _, _⟩ := toggleTimes_shape n
        { m with vboData := meshData m.vertices, eboData := m.indices,
                 useVertexNormal := true, modelColor := color } hbelow
        (MeshShape_of_flatten hidx hlen)
      exact ⟨_, s, hnew, hs⟩

theorem WellIndexedFrom_demo : WellIndexedFrom 0 demoLines := by
  have d : (2 : ℕ) ^ 32 = 4294967296 := by norm_num
  simp [WellIndexedFrom, demoLines, Line.vertex, Line.face, Line.IsU32, d]

/-- Witness for C15: the demo file is well indexed. -/
theorem index_safety_witness :
    WellIndexed demoLines ∧
    ∃ m, loadModel ratOps Model.empty (some demoLines) = some m ∧
      (∀ i ∈ m.indices, i < m.vertices.length) ∧
      (∀ b : Bool, ∃ m', updateNormals { m with useVertexNormal := b } = some m') :=
  ⟨WellIndexed_of_WellIndexedFrom WellIndexedFrom_demo, by
    obtain ⟨_, m, hm, _, hi, hu, _⟩ :=
      index_safety ratOps demoLines (WellIndexed_of_WellIndexedFrom WellIndexedFrom_demo)
    exact ⟨m, hm, hi, hu⟩⟩

theorem cross_degenerate :
    Vec3.cross ((⟨1, 0, 0⟩ : Vec3 K) - ⟨0, 0, 0⟩) (⟨2, 0, 0⟩ - ⟨0, 0, 0⟩) = Vec3.zero := by
  simp only [Vec3.cross, Vec3.sub_def, Vec3.zero]
  ext <;> simp

/-- C12, the code at a degenerate face: on the file `v 0 0 0`, `v 1 0 0`, `v 2 0 0`, `f 1 2 3`
the cross product is the zero vector and `loadModel` normalizes it, which multiplies the zero
vector by `inversesqrt 0`; that product is the stored face normal and is what each of the three
vertex normals is accumulated from. -/
theorem loadModel_degenerate_normalizes_zero (ops : FloatOps K) :
    ∃ m, loadModel ops Model.empty (some degenerateLines) = some m ∧
      m.faces = [⟨0, 1, 2⟩] ∧
      m.faceNormals = [Vec3.normalize ops Vec3.zero] ∧
      Vec3.dot (Vec3.zero : Vec3 K) Vec3.zero = 0 ∧
      Vec3.normalize ops (Vec3.zero : Vec3 K) = (Vec3.zero : Vec3 K) * ops.inversesqrt 0 ∧
      ∀ (v : Nat) (x : Vertex K), v < 3 → m.vertices[v]? = some x →
        ∃ x1 : Vertex K, x1.Normal = Vec3.zero + Vec3.normalize ops Vec3.zero ∧
          x = normalizeVertex ops x1 := by
  obtain ⟨m, hm, hfaces, _, hnormals⟩ :=
    loadModel_single_triangle ops ⟨0, 0, 0⟩ ⟨1, 0, 0⟩ ⟨2, 0, 0⟩
  rw [cross_degenerate] at hnormals
  have hdot : Vec3.dot (Vec3.zero : Vec3 K) Vec3.zero = 0 := by
    simp [Vec3.dot, Vec3.zero]
  refine ⟨m, hm, hfaces, hnormals, hdot, ?_, ?_⟩
  · unfold Vec3.normalize
    rw [hdot]
  · intro v x hv hx
    obtain ⟨x1, hx1, hxe⟩ := loadModel_vertex_normal hm v x hx
    refine ⟨x1, ?_, hxe⟩
    rw [hx1, hfaces, hnormals]
    interval_cases v <;> simp [accumulatedNormal, accumulateStep]

end LoaderTheorems

/-! ## Theorems: binary32 arithmetic and the camera basis in binary32 -/

section Binary32Lemmas

set_option exponentiation.threshold 1024

theorem F32.ofMag_mag (n : Bool) (m : Nat) : (F32.ofMag n m).mag = m := by
  unfold F32.ofMag
  split
  · next h => exact h.symm
  · rfl

theorem F32.ofMag_neg (n : Bool) (m : Nat) (h : m ≠ 0) : (F32.ofMag n m).neg = n := by
  unfold F32.ofMag
  rw [if_neg h]

theorem F32.ofMag_neg_zero (n : Bool) (m : Nat) (h : m = 0) : (F32.ofMag n m).neg = false := by
  unfold F32.ofMag
  rw [if_pos h]

theorem F32.findShift_spec (fuel : Nat) : ∀ (s0 n : Nat),
    s0 ≤ F32.findShift fuel s0 n ∧
      ∀ t, s0 ≤ t → t < F32.findShift fuel s0 n → 2 ^ 24 ≤ n / 2 ^ t := by
  induction fuel with
  | zero =>
    intro s0 n
    exact ⟨le_refl _, fun t h1 h2 => absurd (lt_of_le_of_lt h1 h2) (lt_irrefl _)⟩
  | succ fuel ih =>
    intro s0 n
    unfold F32.findShift
    split
    · exact ⟨le_refl _, fun t h1 h2 => absurd (lt_of_le_of_lt h1 h2) (lt_irrefl _)⟩
    · next hc =>
      obtain ⟨h1, h2⟩ := ih (s0 + 1) n
      refine ⟨by omega, fun t ht1 ht2 => ?_⟩
      by_cases hts : t = s0
      · subst hts
        exact Nat.le_of_not_lt hc
      · exact h2 t (by omega) ht2

theorem F32.roundNat_zero (m : Nat) : F32.roundNat m 0 = 0 := by
  simp [F32.roundNat]

theorem F32.roundNat_ge (m n k : Nat) (hk : m ≤ k) (h : 2 ^ k ≤ n) :
    2 ^ k ≤ F32.roundNat m n := by
  obtain ⟨hs1, hs2⟩ := F32.findShift_spec 1000 m n
  unfold F32.roundNat
  simp only []
  generalize F32.findShift 1000 m n = s at hs1 hs2
  have hq : n / 2 ^ s * 2 ^ s ≤
      (if 2 * (n % 2 ^ s) > 2 ^ s ∨ (2 * (n % 2 ^ s) = 2 ^ s ∧ n / 2 ^ s % 2 = 1)
        then n / 2 ^ s + 1 else n / 2 ^ s) * 2 ^ s := by
    apply Nat.mul_le_mul_right
    split <;> omega
  refine le_trans ?_ hq
  by_cases hsk : s ≤ k
  · have h2 : 2 ^ (k - s) ≤ n / 2 ^ s := by
      rw [Nat.le_div_iff_mul_le (Nat.two_pow_pos s), ← pow_add, Nat.sub_add_cancel hsk]
      exact h
    calc 2 ^ k = 2 ^ (k - s) * 2 ^ s := by rw [← pow_add, Nat.sub_add_cancel hsk]
      _ ≤ n / 2 ^ s * 2 ^ s := Nat.mul_le_mul_right _ h2
  · have h3 := hs2 (s - 1) (by omega) (by omega)
    have h4 : 2 ^ 24 * 2 ^ (s - 1) ≤ n := by
      rwa [Nat.le_div_iff_mul_le (Nat.two_pow_pos _)] at h3
    have h5 : 1 ≤ n / 2 ^ s := by
      rw [Nat.le_div_iff_mul_le (Nat.two_pow_pos s)]
      have : 2 ^ s = 2 * 2 ^ (s - 1) := by
        rw [← pow_succ']
        congr 1
        omega
      omega
    have h6 : 2 ^ k ≤ 2 ^ s := Nat.pow_le_pow_right (by norm_num) (by omega)
    calc 2 ^ k ≤ 2 ^ s := h6
      _ = 1 * 2 ^ s := (one_mul _).symm
      _ ≤ n / 2 ^ s * 2 ^ s := Nat.mul_le_mul_right _ h5

theorem F32.roundNat_le (m n k : Nat) (hk : m ≤ k) (h : n ≤ 2 ^ k) :
    F32.roundNat m n ≤ 2 ^ k := by
  obtain ⟨hs1, hs2⟩ := F32.findShift_spec 1000 m n
  unfold F32.roundNat
  simp only []
  generalize F32.findShift 1000 m n = s at hs1 hs2
  have hsk : s ≤ k := by
    by_contra hcon
    have h3 := hs2 (s - 1) (by omega) (by omega)
    have h4 : 2 ^ 24 * 2 ^ (s - 1) ≤ n := by
      rwa [Nat.le_div_iff_mul_le (Nat.two_pow_pos _)] at h3
    have h6 : 2 ^ k ≤ 2 ^ (s - 1) := Nat.pow_le_pow_right (by norm_num) (by omega)
    have h7 : 0 < 2 ^ (s - 1) := Nat.two_pow_pos _
    omega
  have hpow : 2 ^ k = 2 ^ (k - s) * 2 ^ s := by rw [← pow_add, Nat.sub_add_cancel hsk]
  have hq : n / 2 ^ s ≤ 2 ^ (k - s) := by
    apply Nat.div_le_of_le_mul
    rw [mul_comm, ← hpow]
    exact h
  rw [hpow]
  apply Nat.mul_le_mul_right
  by_cases heq : n / 2 ^ s = 2 ^ (k - s)
  · have hdm := Nat.div_add_mod n (2 ^ s)
    rw [heq, mul_comm, ← hpow] at hdm
    have hr : n % 2 ^ s = 0 := by omega
    rw [hr, heq]
    have : 0 < 2 ^ s := Nat.two_pow_pos s
    rw [if_neg (by omega)]
  · split <;> omega

theorem F32.isqrtAux_spec (b : Nat) : ∀ (n acc : Nat), acc * acc ≤ n →
    n < (acc + 2 ^ b) * (acc + 2 ^ b) →
    F32.isqrtAux b n acc * F32.isqrtAux b n acc ≤ n ∧
      n < (F32.isqrtAux b n acc + 1) * (F32.isqrtAux b n acc + 1) := by
  induction b with
  | zero =>
    intro n acc h1 h2
    exact ⟨h1, by simpa using h2⟩
  | succ b ih =>
    intro n acc h1 h2
    unfold F32.isqrtAux
    split
    · next hc =>
      apply ih _ _ hc
      have : acc + 2 ^ b + 2 ^ b = acc + 2 ^ (b + 1) := by rw [pow_succ]; omega
      rw [this]
      exact h2
    · next hc =>
      exact ih _ _ h1 (Nat.lt_of_not_le hc)

theorem F32.isqrt_spec (n : Nat) (h : n < 2 ^ 600) :
    F32.isqrt n * F32.isqrt n ≤ n ∧ n < (F32.isqrt n + 1) * (F32.isqrt n + 1) := by
  unfold F32.isqrt
  apply F32.isqrtAux_spec 300 n 0 (by omega)
  have : (0 + 2 ^ 300) * (0 + 2 ^ 300) = 2 ^ 600 := by norm_num
  omega

end Binary32Lemmas

section Binary32OpLemmas

set_option exponentiation.threshold 1024
set_option maxRecDepth 100000

theorem F32.ofMag_false_neg (m : Nat) : (F32.ofMag false m).neg = false := by
  unfold F32.ofMag
  split <;> rfl

theorem F32.roundNat_ne_zero (m n : Nat) (h : F32.roundNat m n ≠ 0) : n ≠ 0 := by
  intro hn
  rw [hn, F32.roundNat_zero] at h
  exact h rfl

theorem F32.one_mag : (1 : F32).mag = 2 ^ 149 := by decide

theorem F32.one_neg : (1 : F32).neg = false := by decide

theorem F32.zero_mag : (0 : F32).mag = 0 := by decide

theorem F32.mul_mag (a b : F32) : (a * b).mag = F32.roundNat 149 (a.mag * b.mag) / 2 ^ 149 :=
  F32.ofMag_mag _ _

theorem F32.mul_mag_ge (a b : F32) (p q : Nat) (hpq : 149 ≤ p + q) (ha : 2 ^ p ≤ a.mag)
    (hb : 2 ^ q ≤ b.mag) : 2 ^ (p + q - 149) ≤ (a * b).mag := by
  rw [F32.mul_mag, Nat.le_div_iff_mul_le (Nat.two_pow_pos _), ← pow_add,
    Nat.sub_add_cancel hpq]
  apply F32.roundNat_ge _ _ _ hpq
  rw [pow_add]
  exact Nat.mul_le_mul ha hb

theorem F32.mul_mag_le (a b : F32) (p q : Nat) (hpq : 149 ≤ p + q) (ha : a.mag ≤ 2 ^ p)
    (hb : b.mag ≤ 2 ^ q) : (a * b).mag ≤ 2 ^ (p + q - 149) := by
  rw [F32.mul_mag]
  apply Nat.div_le_of_le_mul
  rw [← pow_add, Nat.add_sub_cancel' hpq]
  apply F32.roundNat_le _ _ _ hpq
  rw [pow_add]
  exact Nat.mul_le_mul ha hb

theorem F32.mul_mag_zero_left (a b : F32) (h : a.mag = 0) : (a * b).mag = 0 := by
  rw [F32.mul_mag, h, Nat.zero_mul, F32.roundNat_zero, Nat.zero_div]

theorem F32.mul_mag_zero_right (a b : F32) (h : b.mag = 0) : (a * b).mag = 0 := by
  rw [F32.mul_mag, h, Nat.mul_zero, F32.roundNat_zero, Nat.zero_div]

theorem F32.mul_mag_ne_zero (a b : F32) (h : (a * b).mag ≠ 0) : a.mag ≠ 0 ∧ b.mag ≠ 0 :=
  ⟨fun ha => h (F32.mul_mag_zero_left a b ha), fun hb => h (F32.mul_mag_zero_right a b hb)⟩

theorem F32.mul_neg (a b : F32) (h : (a * b).mag ≠ 0) : (a * b).neg = (a.neg != b.neg) := by
  rw [F32.mul_mag] at h
  exact F32.ofMag_neg _ _ h

theorem F32.mul_neg_of_mag_zero (a b : F32) (h : (a * b).mag = 0) : (a * b).neg = false := by
  rw [F32.mul_mag] at h
  exact F32.ofMag_neg_zero _ _ h

theorem F32.mul_self_neg (a : F32) : (a * a).neg = false := by
  by_cases h : (a * a).mag = 0
  · exact F32.mul_neg_of_mag_zero a a h
  · rw [F32.mul_neg a a h]
    cases a.neg <;> rfl

theorem F32.negate_mag (a : F32) : (-a).mag = a.mag := F32.ofMag_mag _ _

theorem F32.add_nonneg (a b : F32) (ha : a.neg = false) (hb : b.neg = false) :
    (a + b).neg = false ∧ (a + b).mag = F32.roundNat 0 (a.mag + b.mag) := by
  show (F32.add a b).neg = false ∧ (F32.add a b).mag = _
  unfold F32.add
  rw [if_pos (ha.trans hb.symm), ha]
  exact ⟨F32.ofMag_false_neg _, F32.ofMag_mag _ _⟩

theorem F32.sub_of_mag_zero_right (a b : F32) (hb : b.mag = 0) :
    (a - b).mag = F32.roundNat 0 a.mag ∧ ((a - b).mag ≠ 0 → (a - b).neg = a.neg) := by
  show (F32.add a (F32.negate b)).mag = _ ∧
    ((F32.add a (F32.negate b)).mag ≠ 0 → (F32.add a (F32.negate b)).neg = a.neg)
  have hm : (F32.negate b).mag = 0 := (F32.ofMag_mag _ _).trans hb
  unfold F32.add
  rw [hm]
  split
  · rw [Nat.add_zero]
    exact ⟨F32.ofMag_mag _ _, fun h => F32.ofMag_neg _ _ (by rwa [F32.ofMag_mag] at h)⟩
  · rw [if_pos (Nat.zero_le _), Nat.sub_zero]
    exact ⟨F32.ofMag_mag _ _, fun h => F32.ofMag_neg _ _ (by rwa [F32.ofMag_mag] at h)⟩

theorem F32.sub_of_mag_zero_left (a b : F32) (ha : a.mag = 0) :
    (a - b).mag = F32.roundNat 0 b.mag ∧ ((a - b).mag ≠ 0 → (a - b).neg = !b.neg) := by
  show (F32.add a (F32.negate b)).mag = _ ∧
    ((F32.add a (F32.negate b)).mag ≠ 0 → (F32.add a (F32.negate b)).neg = !b.neg)
  have hm : (F32.negate b).mag = b.mag := F32.ofMag_mag _ _
  by_cases hb : b.mag = 0
  · have h0 : (F32.add a (F32.negate b)).mag = 0 := by
      unfold F32.add
      rw [hm, ha, hb]
      split
      · rw [F32.ofMag_mag]; exact F32.roundNat_zero 0
      · rw [if_pos (le_refl _), F32.ofMag_mag]; exact F32.roundNat_zero 0
    rw [h0, hb, F32.roundNat_zero]
    exact ⟨rfl, fun h => absurd rfl h⟩
  · have hn : (F32.negate b).neg = !b.neg := F32.ofMag_neg _ _ hb
    unfold F32.add
    rw [hm, ha, hn]
    split
    · next he =>
      rw [Nat.zero_add, he]
      exact ⟨F32.ofMag_mag _ _, fun h => F32.ofMag_neg _ _ (by rwa [F32.ofMag_mag] at h)⟩
    · rw [if_neg (by omega), Nat.sub_zero]
      exact ⟨F32.ofMag_mag _ _, fun h => F32.ofMag_neg _ _ (by rwa [F32.ofMag_mag] at h)⟩

theorem F32.sub_of_neg (a b : F32) (ha : a.neg = false) (hb : b.neg = true ∨ b.mag = 0) :
    (a - b).mag = F32.roundNat 0 (a.mag + b.mag) := by
  show (F32.add a (F32.negate b)).mag = _
  have hm : (F32.negate b).mag = b.mag := F32.ofMag_mag _ _
  have hn : (F32.negate b).neg = false := by
    by_cases h0 : b.mag = 0
    · exact F32.ofMag_neg_zero _ _ h0
    · rw [F32.negate, F32.ofMag_neg _ _ h0]
      rcases hb with hb | hb
      · rw [hb]; rfl
      · exact absurd hb h0
  exact hm ▸ (F32.add_nonneg a (F32.negate b) ha hn).2

theorem F32.sqrt_neg (a : F32) : (F32.sqrt a).neg = false := F32.ofMag_false_neg _

theorem F32.sqrt_mag_le (a : F32) (e h : Nat) (he : e + 277 = 2 * h)
    (ha : a.mag ≤ 2 ^ e) (h600 : 2 * h < 600) : (F32.sqrt a).mag ≤ 2 ^ (h - 64) := by
  have e1 : (2 : Nat) ^ (2 * h) = 2 ^ e * 2 ^ 277 := by rw [← pow_add, he]
  have e2 : a.mag * 2 ^ 149 * 2 ^ 128 = a.mag * 2 ^ 277 := by rw [mul_assoc, ← pow_add]
  have hnum : a.mag * 2 ^ 149 * 2 ^ 128 ≤ 2 ^ (2 * h) := by
    rw [e1, e2]
    exact Nat.mul_le_mul_right _ ha
  have hlt : a.mag * 2 ^ 149 * 2 ^ 128 < 2 ^ 600 :=
    lt_of_le_of_lt hnum (Nat.pow_lt_pow_right (by norm_num) h600)
  obtain ⟨h1, h2⟩ := F32.isqrt_spec _ hlt
  unfold F32.sqrt
  simp only []
  rw [F32.ofMag_mag]
  generalize F32.isqrt (a.mag * 2 ^ 149 * 2 ^ 128) = t at h1 h2
  generalize a.mag * 2 ^ 149 * 2 ^ 128 = num at h1 h2 hnum
  apply Nat.div_le_of_le_mul
  rw [← pow_add, show 65 + (h - 64) = h + 1 by omega]
  apply F32.roundNat_le _ _ _ (by omega)
  have hsq : 2 ^ (2 * h) = 2 ^ h * 2 ^ h := by rw [← pow_add]; congr 1; omega
  have ht : t ≤ 2 ^ h := by
    by_contra hcon
    have : 2 ^ h * 2 ^ h < t * t := Nat.mul_lt_mul'' (by omega) (by omega)
    omega
  rw [pow_succ]
  by_cases hteq : t = 2 ^ h
  · have : t * t = num := by
      subst hteq
      omega
    rw [if_pos this, hteq]
    omega
  · split <;> omega

theorem F32.sqrt_mag_ge (a : F32) (e h : Nat) (he : e + 277 = 2 * h)
    (ha : 2 ^ e ≤ a.mag) (hup : a.mag ≤ 2 ^ 300) : 2 ^ (h - 64) ≤ (F32.sqrt a).mag := by
  have e1 : (2 : Nat) ^ (2 * h) = 2 ^ e * 2 ^ 277 := by rw [← pow_add, he]
  have e2 : a.mag * 2 ^ 149 * 2 ^ 128 = a.mag * 2 ^ 277 := by rw [mul_assoc, ← pow_add]
  have hnum : 2 ^ (2 * h) ≤ a.mag * 2 ^ 149 * 2 ^ 128 := by
    rw [e1, e2]
    exact Nat.mul_le_mul_right _ ha
  have hlt : a.mag * 2 ^ 149 * 2 ^ 128 < 2 ^ 600 := by
    have : a.mag * 2 ^ 149 * 2 ^ 128 ≤ 2 ^ 300 * 2 ^ 149 * 2 ^ 128 :=
      Nat.mul_le_mul_right _ (Nat.mul_le_mul_right _ hup)
    have h2 : (2 : Nat) ^ 300 * 2 ^ 149 * 2 ^ 128 < 2 ^ 600 := by norm_num
    omega
  obtain ⟨h1, h2⟩ := F32.isqrt_spec _ hlt
  unfold F32.sqrt
  simp only []
  rw [F32.ofMag_mag]
  generalize F32.isqrt (a.mag * 2 ^ 149 * 2 ^ 128) = t at h1 h2
  generalize a.mag * 2 ^ 149 * 2 ^ 128 = num at h1 h2 hnum
  rw [Nat.le_div_iff_mul_le (Nat.two_pow_pos _), ← pow_add, show h - 64 + 65 = h + 1 by omega]
  apply F32.roundNat_ge _ _ _ (by omega)
  have hsq : 2 ^ (2 * h) = 2 ^ h * 2 ^ h := by rw [← pow_add]; congr 1; omega
  have ht : 2 ^ h ≤ t := by
    by_contra hcon
    have : (t + 1) * (t + 1) ≤ 2 ^ h * 2 ^ h := Nat.mul_le_mul (by omega) (by omega)
    omega
  rw [pow_succ]
  omega

theorem F32.inv_neg (s : F32) (hs : s.neg = false) : (1 / s).neg = false := by
  show (F32.div 1 s).neg = false
  unfold F32.div
  rw [hs, F32.one_neg]
  exact F32.ofMag_false_neg _

theorem F32.inv_mag_ge (s : F32) (e : Nat) (he : e ≤ 298) (hpos : 0 < s.mag)
    (hs : s.mag ≤ 2 ^ e) : 2 ^ (298 - e) ≤ (1 / s).mag := by
  show 2 ^ (298 - e) ≤ (F32.div 1 s).mag
  unfold F32.div F32.divMag
  simp only []
  rw [F32.ofMag_mag, F32.one_mag, ← pow_add]
  rw [Nat.le_div_iff_mul_le (Nat.two_pow_pos _), ← pow_add]
  apply F32.roundNat_ge _ _ _ (by omega)
  have ht : 2 ^ (362 - e) ≤ 2 ^ (149 + (149 + 64)) / s.mag := by
    rw [Nat.le_div_iff_mul_le hpos]
    calc 2 ^ (362 - e) * s.mag ≤ 2 ^ (362 - e) * 2 ^ e := Nat.mul_le_mul_left _ hs
      _ = 2 ^ (149 + (149 + 64)) := by rw [← pow_add]; congr 1; omega
  have : 2 ^ (298 - e + 65) = 2 * 2 ^ (362 - e) := by
    rw [← pow_succ']
    congr 1
    omega
  omega

theorem F32.inv_mag_le (s : F32) (e : Nat) (he : e ≤ 298) (hs : 2 ^ e ≤ s.mag) :
    (1 / s).mag ≤ 2 ^ (299 - e) := by
  show (F32.div 1 s).mag ≤ 2 ^ (299 - e)
  have hpos : 0 < s.mag := lt_of_lt_of_le (Nat.two_pow_pos e) hs
  unfold F32.div F32.divMag
  simp only []
  rw [F32.ofMag_mag, F32.one_mag, ← pow_add]
  apply Nat.div_le_of_le_mul
  rw [← pow_add]
  apply F32.roundNat_le _ _ _ (by omega)
  have ht : 2 ^ (149 + (149 + 64)) / s.mag ≤ 2 ^ (362 - e) := by
    apply Nat.div_le_of_le_mul
    calc 2 ^ (149 + (149 + 64)) = 2 ^ e * 2 ^ (362 - e) := by rw [← pow_add]; congr 1; omega
      _ ≤ s.mag * 2 ^ (362 - e) := Nat.mul_le_mul_right _ hs
  have h1 : 2 ^ (65 + (299 - e)) = 4 * 2 ^ (362 - e) := by
    rw [show 65 + (299 - e) = (362 - e) + 2 by omega, pow_add]
    omega
  have h2 : 0 < 2 ^ (362 - e) := Nat.two_pow_pos _
  split <;> omega

theorem Binary32.dot_self (v : Vec3 F32) :
    (Binary32.dot v v).neg = false ∧
    (Binary32.dot v v).mag =
      F32.roundNat 0 (F32.roundNat 0 ((v.x * v.x).mag + (v.y * v.y).mag) + (v.z * v.z).mag) := by
  have h1 := F32.add_nonneg (v.x * v.x) (v.y * v.y) (F32.mul_self_neg _) (F32.mul_self_neg _)
  have h2 := F32.add_nonneg (v.x * v.x + v.y * v.y) (v.z * v.z) h1.1 (F32.mul_self_neg _)
  refine ⟨h2.1, ?_⟩
  rw [show Binary32.dot v v = v.x * v.x + v.y * v.y + v.z * v.z from rfl, h2.2, h1.2]

theorem Binary32.dot_self_mag_ge (v : Vec3 F32) (p k : Nat) (hk : 149 ≤ p + p)
    (hpk : k = p + p - 149)
    (h : 2 ^ p ≤ v.x.mag ∨ 2 ^ p ≤ v.y.mag ∨ 2 ^ p ≤ v.z.mag) :
    2 ^ k ≤ (Binary32.dot v v).mag := by
  subst hpk
  rw [(Binary32.dot_self v).2]
  apply F32.roundNat_ge 0 _ _ (Nat.zero_le _)
  rcases h with h | h | h
  · have hx := F32.mul_mag_ge v.x v.x p p hk h h
    exact le_trans (F32.roundNat_ge 0 _ _ (Nat.zero_le _) (le_trans hx (Nat.le_add_right _ _)))
      (Nat.le_add_right _ _)
  · have hy := F32.mul_mag_ge v.y v.y p p hk h h
    exact le_trans (F32.roundNat_ge 0 _ _ (Nat.zero_le _) (le_trans hy (Nat.le_add_left _ _)))
      (Nat.le_add_right _ _)
  · have hz := F32.mul_mag_ge v.z v.z p p hk h h
    exact le_trans hz (Nat.le_add_left _ _)

theorem Binary32.dot_self_mag_le (v : Vec3 F32) (p k : Nat) (hk : 149 ≤ p + p)
    (hpk : k = p + p - 149 + 2)
    (hx : v.x.mag ≤ 2 ^ p) (hy : v.y.mag ≤ 2 ^ p) (hz : v.z.mag ≤ 2 ^ p) :
    (Binary32.dot v v).mag ≤ 2 ^ k := by
  subst hpk
  rw [(Binary32.dot_self v).2]
  have mx := F32.mul_mag_le v.x v.x p p hk hx hx
  have my := F32.mul_mag_le v.y v.y p p hk hy hy
  have mz := F32.mul_mag_le v.z v.z p p hk hz hz
  generalize p + p - 149 = j at mx my mz
  have e1 : 2 ^ (j + 1) = 2 * 2 ^ j := pow_succ' 2 j
  have e2 : 2 ^ (j + 2) = 2 * 2 ^ (j + 1) := pow_succ' 2 (j + 1)
  have hxy : F32.roundNat 0 ((v.x * v.x).mag + (v.y * v.y).mag) ≤ 2 ^ (j + 1) :=
    F32.roundNat_le 0 _ _ (Nat.zero_le _) (by omega)
  exact F32.roundNat_le 0 _ _ (Nat.zero_le _) (by omega)

/-- Bounds on the factor `inversesqrt(dot(v, v))` of `normalize` from bounds on the
components of `v`: all magnitudes at most `2^p`, one at least `2^q`. -/
theorem Binary32.normalize_factor (ops : FloatOps F32)
    (hinv : ∀ x, ops.inversesqrt x = 1 / F32.sqrt x) (v : Vec3 F32) (p q : Nat)
    (hp : 149 ≤ p + p) (hq : 149 ≤ q + q) (hp2 : p ≤ 200) (hq2 : q ≤ 200)
    (hx : v.x.mag ≤ 2 ^ p) (hy : v.y.mag ≤ 2 ^ p) (hz : v.z.mag ≤ 2 ^ p)
    (hbig : 2 ^ q ≤ v.x.mag ∨ 2 ^ q ≤ v.y.mag ∨ 2 ^ q ≤ v.z.mag) :
    (Binary32.dot v v).mag ≠ 0 ∧
    Binary32.normalize ops v =
      ⟨v.x * ops.inversesqrt (Binary32.dot v v), v.y * ops.inversesqrt (Binary32.dot v v),
       v.z * ops.inversesqrt (Binary32.dot v v)⟩ ∧
    (ops.inversesqrt (Binary32.dot v v)).neg = false ∧
    2 ^ (297 - p) ≤ (ops.inversesqrt (Binary32.dot v v)).mag ∧
    (ops.inversesqrt (Binary32.dot v v)).mag ≤ 2 ^ (299 - q) := by
  have hlo := Binary32.dot_self_mag_ge v q (q + q - 149) hq rfl hbig
  have hhi := Binary32.dot_self_mag_le v p (p + p - 149 + 2) hp rfl hx hy hz
  have hpos : 0 < (Binary32.dot v v).mag := lt_of_lt_of_le (Nat.two_pow_pos _) hlo
  have h300 : (Binary32.dot v v).mag ≤ 2 ^ 300 :=
    le_trans hhi (Nat.pow_le_pow_right (by norm_num) (by omega))
  have hs1 := F32.sqrt_mag_le (Binary32.dot v v) (p + p - 149 + 2) (p + 65) (by omega) hhi
    (by omega)
  have hs2 := F32.sqrt_mag_ge (Binary32.dot v v) (q + q - 149) (q + 64) (by omega) hlo h300
  rw [show p + 65 - 64 = p + 1 by omega] at hs1
  rw [show q + 64 - 64 = q by omega] at hs2
  have hspos : 0 < (F32.sqrt (Binary32.dot v v)).mag := lt_of_lt_of_le (Nat.two_pow_pos _) hs2
  have hi1 := F32.inv_mag_ge (F32.sqrt (Binary32.dot v v)) (p + 1) (by omega) hspos hs1
  have hi2 := F32.inv_mag_le (F32.sqrt (Binary32.dot v v)) q (by omega) hs2
  rw [show 298 - (p + 1) = 297 - p by omega] at hi1
  refine ⟨Nat.pos_iff_ne_zero.1 hpos, rfl, ?_⟩
  rw [hinv]
  exact ⟨F32.inv_neg _ (F32.sqrt_neg _), hi1, hi2⟩

end Binary32OpLemmas

section Binary32Basis

set_option exponentiation.threshold 1024
set_option maxRecDepth 100000

/-- In binary32, with library results in range and world up `(0, 1, 0)`, none of the three
vectors that `updateCameraVectors` normalizes has a zero scalar square. -/
theorem Binary32.updateCameraVectors_nonzero (ops : FloatOps F32)
    (hinv : ∀ x, ops.inversesqrt x = 1 / F32.sqrt x) (c : Camera F32)
    (hw : c.WorldUp = ⟨0, 1, 0⟩) (ht : Binary32.TrigInRange ops c.Yaw c.Pitch) :
    Binary32.dot (Binary32.rawFront ops c.Yaw c.Pitch) (Binary32.rawFront ops c.Yaw c.Pitch) ≠ 0 ∧
    Binary32.dot (Binary32.cross (Binary32.updateCameraVectors ops c).Front c.WorldUp)
      (Binary32.cross (Binary32.updateCameraVectors ops c).Front c.WorldUp) ≠ 0 ∧
    Binary32.dot
      (Binary32.cross (Binary32.updateCameraVectors ops c).Right
        (Binary32.updateCameraVectors ops c).Front)
      (Binary32.cross (Binary32.updateCameraVectors ops c).Right
        (Binary32.updateCameraVectors ops c).Front) ≠ 0 := by
  obtain ⟨hcy, hsy, hcp, hsp, hcp2, hys⟩ := ht
  have hne : ∀ a : F32, a.mag ≠ 0 → a ≠ 0 := fun a h h0 => h (by rw [h0]; exact F32.zero_mag)
  have hF : (Binary32.updateCameraVectors ops c).Front =
      Binary32.normalize ops (Binary32.rawFront ops c.Yaw c.Pitch) := rfl
  have hR : (Binary32.updateCameraVectors ops c).Right =
      Binary32.normalize ops
        (Binary32.cross (Binary32.updateCameraVectors ops c).Front c.WorldUp) := rfl
  rw [hR, hF, hw]
  -- the un-normalized front
  have bfx : (Binary32.rawFront ops c.Yaw c.Pitch).x.mag ≤ 2 ^ 149 :=
    F32.mul_mag_le _ _ 149 149 (by norm_num) hcy hcp
  have bfy : (Binary32.rawFront ops c.Yaw c.Pitch).y.mag ≤ 2 ^ 149 := hsp
  have bfz : (Binary32.rawFront ops c.Yaw c.Pitch).z.mag ≤ 2 ^ 149 :=
    F32.mul_mag_le _ _ 149 149 (by norm_num) hsy hcp
  have bfbig : 2 ^ 142 ≤ (Binary32.rawFront ops c.Yaw c.Pitch).x.mag ∨
      2 ^ 142 ≤ (Binary32.rawFront ops c.Yaw c.Pitch).z.mag := by
    rcases hys with h | h
    · exact Or.inl (F32.mul_mag_ge _ _ 148 143 (by norm_num) h hcp2)
    · exact Or.inr (F32.mul_mag_ge _ _ 148 143 (by norm_num) h hcp2)
  generalize Binary32.rawFront ops c.Yaw c.Pitch = f at bfx bfy bfz bfbig ⊢
  obtain ⟨hd1, hN1, hi1n, hi1lo, hi1hi⟩ :=
    Binary32.normalize_factor ops hinv f 149 142 (by norm_num) (by norm_num) (by norm_num)
      (by norm_num) bfx bfy bfz (by
        rcases bfbig with h | h
        · exact Or.inl h
        · exact Or.inr (Or.inr h))
  rw [hN1]
  generalize ops.inversesqrt (Binary32.dot f f) = i1 at hi1n hi1lo hi1hi ⊢
  -- the front vector
  have bFx : (f.x * i1).mag ≤ 2 ^ 157 := F32.mul_mag_le _ _ 149 157 (by norm_num) bfx hi1hi
  have bFy : (f.y * i1).mag ≤ 2 ^ 157 := F32.mul_mag_le _ _ 149 157 (by norm_num) bfy hi1hi
  have bFz : (f.z * i1).mag ≤ 2 ^ 157 := F32.mul_mag_le _ _ 149 157 (by norm_num) bfz hi1hi
  have bFbig : 2 ^ 141 ≤ (f.x * i1).mag ∨ 2 ^ 141 ≤ (f.z * i1).mag := by
    rcases bfbig with h | h
    · exact Or.inl (F32.mul_mag_ge _ _ 142 148 (by norm_num) h hi1lo)
    · exact Or.inr (F32.mul_mag_ge _ _ 142 148 (by norm_num) h hi1lo)
  generalize f.x * i1 = Fx at bFx bFbig ⊢
  generalize f.y * i1 = Fy at bFy ⊢
  generalize f.z * i1 = Fz at bFz bFbig ⊢
  -- the cross product with the world up vector
  have hcr : Binary32.cross (⟨Fx, Fy, Fz⟩ : Vec3 F32) ⟨0, 1, 0⟩ =
      ⟨Fy * 0 - 1 * Fz, Fz * 0 - 0 * Fx, Fx * 1 - 0 * Fy⟩ := rfl
  rw [hcr]
  have z1 : (Fy * 0).mag = 0 := F32.mul_mag_zero_right _ _ F32.zero_mag
  have z2 : (Fz * 0).mag = 0 := F32.mul_mag_zero_right _ _ F32.zero_mag
  have z3 : ((0 : F32) * Fx).mag = 0 := F32.mul_mag_zero_left _ _ F32.zero_mag
  have z4 : ((0 : F32) * Fy).mag = 0 := F32.mul_mag_zero_left _ _ F32.zero_mag
  obtain ⟨mx, nx⟩ := F32.sub_of_mag_zero_left (Fy * 0) (1 * Fz) z1
  obtain ⟨my, _⟩ := F32.sub_of_mag_zero_right (Fz * 0) (0 * Fx) z3
  obtain ⟨mz, nz⟩ := F32.sub_of_mag_zero_right (Fx * 1) (0 * Fy) z4
  rw [z2, F32.roundNat_zero] at my
  have b1z : ((1 : F32) * Fz).mag ≤ 2 ^ 157 :=
    F32.mul_mag_le _ _ 149 157 (by norm_num) (le_of_eq F32.one_mag) bFz
  have bx1 : (Fx * 1).mag ≤ 2 ^ 157 :=
    F32.mul_mag_le _ _ 157 149 (by norm_num) bFx (le_of_eq F32.one_mag)
  have bcx : (Fy * 0 - 1 * Fz).mag ≤ 2 ^ 157 := by
    rw [mx]; exact F32.roundNat_le 0 _ _ (Nat.zero_le _) b1z
  have bcy : (Fz * 0 - 0 * Fx).mag ≤ 2 ^ 157 := by
    rw [my]; exact Nat.zero_le _
  have bcz : (Fx * 1 - 0 * Fy).mag ≤ 2 ^ 157 := by
    rw [mz]; exact F32.roundNat_le 0 _ _ (Nat.zero_le _) bx1
  have bcbigx : 2 ^ 141 ≤ Fz.mag → 2 ^ 141 ≤ (Fy * 0 - 1 * Fz).mag := by
    intro h
    rw [mx]
    exact F32.roundNat_ge 0 _ _ (Nat.zero_le _)
      (F32.mul_mag_ge _ _ 149 141 (by norm_num) (le_of_eq F32.one_mag.symm) h)
  have bcbigz : 2 ^ 141 ≤ Fx.mag → 2 ^ 141 ≤ (Fx * 1 - 0 * Fy).mag := by
    intro h
    rw [mz]
    exact F32.roundNat_ge 0 _ _ (Nat.zero_le _)
      (F32.mul_mag_ge _ _ 141 149 (by norm_num) h (le_of_eq F32.one_mag.symm))
  -- signs of the cross product
  have sx : (Fy * 0 - 1 * Fz).mag ≠ 0 → (Fy * 0 - 1 * Fz).neg = !Fz.neg := by
    intro h
    rw [nx h]
    have h1 : ((1 : F32) * Fz).mag ≠ 0 := F32.roundNat_ne_zero _ _ (mx ▸ h)
    rw [F32.mul_neg _ _ h1, F32.one_neg]
    cases Fz.neg <;> rfl
  have sz : (Fx * 1 - 0 * Fy).mag ≠ 0 → (Fx * 1 - 0 * Fy).neg = Fx.neg := by
    intro h
    rw [nz h]
    have h1 : (Fx * 1).mag ≠ 0 := F32.roundNat_ne_zero _ _ (mz ▸ h)
    rw [F32.mul_neg _ _ h1, F32.one_neg]
    cases Fx.neg <;> rfl
  generalize Fy * 0 - 1 * Fz = cx at bcx bcbigx sx ⊢
  generalize Fz * 0 - 0 * Fx = cy at bcy my ⊢
  generalize Fx * 1 - 0 * Fy = cz at bcz bcbigz sz ⊢
  obtain ⟨hd2, hN2, hi2n, hi2lo, hi2hi⟩ :=
    Binary32.normalize_factor ops hinv ⟨cx, cy, cz⟩ 157 141 (by norm_num) (by norm_num)
      (by norm_num) (by norm_num) bcx bcy bcz (by
        rcases bFbig with h | h
        · exact Or.inr (Or.inr (bcbigz h))
        · exact Or.inl (bcbigx h))
  rw [hN2]
  generalize ops.inversesqrt (Binary32.dot (⟨cx, cy, cz⟩ : Vec3 F32) ⟨cx, cy, cz⟩) = i2
    at hi2n hi2lo hi2hi ⊢
  -- the cross product of right and front
  have hy : (Binary32.cross (⟨cx * i2, cy * i2, cz * i2⟩ : Vec3 F32) ⟨Fx, Fy, Fz⟩).y =
      cz * i2 * Fx - Fz * (cx * i2) := rfl
  have hA : (cz * i2 * Fx).neg = false := by
    by_cases h0 : (cz * i2 * Fx).mag = 0
    · exact F32.mul_neg_of_mag_zero _ _ h0
    · obtain ⟨h1, _⟩ := F32.mul_mag_ne_zero _ _ h0
      obtain ⟨h2, _⟩ := F32.mul_mag_ne_zero _ _ h1
      rw [F32.mul_neg _ _ h0, F32.mul_neg _ _ h1, sz h2, hi2n]
      cases Fx.neg <;> rfl
  have hB : (Fz * (cx * i2)).neg = true ∨ (Fz * (cx * i2)).mag = 0 := by
    by_cases h0 : (Fz * (cx * i2)).mag = 0
    · exact Or.inr h0
    · obtain ⟨_, h1⟩ := F32.mul_mag_ne_zero _ _ h0
      obtain ⟨h2, _⟩ := F32.mul_mag_ne_zero _ _ h1
      left
      rw [F32.mul_neg _ _ h0, F32.mul_neg _ _ h1, sx h2, hi2n]
      cases Fz.neg <;> rfl
  have hymag := F32.sub_of_neg _ _ hA hB
  have hybig : 2 ^ 124 ≤
      (Binary32.cross (⟨cx * i2, cy * i2, cz * i2⟩ : Vec3 F32) ⟨Fx, Fy, Fz⟩).y.mag := by
    rw [hy, hymag]
    apply F32.roundNat_ge 0 _ _ (Nat.zero_le _)
    rcases bFbig with h | h
    · have h1 : 2 ^ 132 ≤ (cz * i2).mag :=
        F32.mul_mag_ge _ _ 141 140 (by norm_num) (bcbigz h) hi2lo
      exact le_trans (F32.mul_mag_ge _ _ 132 141 (by norm_num) h1 h) (Nat.le_add_right _ _)
    · have h1 : 2 ^ 132 ≤ (cx * i2).mag :=
        F32.mul_mag_ge _ _ 141 140 (by norm_num) (bcbigx h) hi2lo
      exact le_trans (F32.mul_mag_ge _ _ 141 132 (by norm_num) h h1) (Nat.le_add_left _ _)
  have hd3 := Binary32.dot_self_mag_ge _ 124 99 (by norm_num) (by norm_num)
    (Or.inr (Or.inl hybig))
  exact ⟨hne _ hd1, hne _ hd2, hne _ (Nat.pos_iff_ne_zero.1 (lt_of_lt_of_le (Nat.two_pow_pos _) hd3))⟩

end Binary32Basis

section Binary32Reach

set_option exponentiation.threshold 1024
set_option maxRecDepth 100000

/-- The two guarded assignments of the pitch clamp, in binary32. -/
theorem F32.clamp_pitch (p : F32) :
    ¬ (if (if p > 89 then (89 : F32) else p) < -89 then (-89 : F32)
        else (if p > 89 then (89 : F32) else p)) > 89 ∧
    ¬ (if (if p > 89 then (89 : F32) else p) < -89 then (-89 : F32)
        else (if p > 89 then (89 : F32) else p)) < -89 := by
  have a1 : ¬ (89 : F32) > 89 := by decide
  have a2 : ¬ (89 : F32) < -89 := by decide
  have a3 : ¬ (-89 : F32) > 89 := by decide
  have a4 : ¬ (-89 : F32) < -89 := by decide
  split_ifs with h1 h2
  · exact ⟨a1, a2⟩
  · exact ⟨a3, a4⟩
  · exact ⟨h1, h2⟩

theorem Binary32.ProcessMouseMovement_Pitch_eq (ops : FloatOps F32) (c : Camera F32)
    (dx dy : F32) :
    (Binary32.ProcessMouseMovement ops c dx dy true).Pitch =
      if (if c.Pitch + dy * c.MouseSensitivity > 89 then (89 : F32)
          else c.Pitch + dy * c.MouseSensitivity) < -89 then (-89 : F32)
      else (if c.Pitch + dy * c.MouseSensitivity > 89 then (89 : F32)
          else c.Pitch + dy * c.MouseSensitivity) := by
  simp only [Binary32.ProcessMouseMovement, Binary32.updateCameraVectors]
  split_ifs <;> rfl

/-- The binary32 pitch clamp leaves the pitch neither above 89 nor below -89. -/
theorem Binary32.ProcessMouseMovement_Pitch_range (ops : FloatOps F32) (c : Camera F32)
    (dx dy : F32) :
    ¬ (Binary32.ProcessMouseMovement ops c dx dy true).Pitch > 89 ∧
    ¬ (Binary32.ProcessMouseMovement ops c dx dy true).Pitch < -89 := by
  rw [Binary32.ProcessMouseMovement_Pitch_eq]
  exact F32.clamp_pitch _

theorem Binary32.run_WorldUp (ops : FloatOps F32) (c : Camera F32) (call : CameraOp F32) :
    (Binary32.run ops c call).WorldUp = c.WorldUp := by
  cases call with
  | rotate dx dy cp =>
    simp only [Binary32.run, Binary32.ProcessMouseMovement, Binary32.updateCameraVectors]
    split_ifs <;> rfl
  | pan dx dy => rfl
  | zoom dy =>
    simp only [Binary32.run, Binary32.ProcessMouseScroll, Binary32.updateCameraVectors]
    split_ifs <;> rfl

theorem Binary32.ProcessMouseScroll_Pitch_eq (ops : FloatOps F32) (c : Camera F32) (dy : F32) :
    (Binary32.ProcessMouseScroll ops c dy).Pitch = c.Pitch := by
  simp only [Binary32.ProcessMouseScroll, Binary32.updateCameraVectors]
  split_ifs <;> rfl

/-- In binary32, with every rotation clamped, a pitch within the clamp interval and the world up
vector stay as they are through any sequence of calls. -/
theorem Binary32.runCameraOps_precondition (ops : FloatOps F32) (calls : List (CameraOp F32)) :
    ∀ c : Camera F32, Binary32.PitchConstrained calls → (¬ c.Pitch > 89 ∧ ¬ c.Pitch < -89) →
      (¬ (Binary32.runCameraOps ops c calls).Pitch > 89 ∧
        ¬ (Binary32.runCameraOps ops c calls).Pitch < -89) ∧
      (Binary32.runCameraOps ops c calls).WorldUp = c.WorldUp := by
  induction calls with
  | nil => intro c _ h; exact ⟨h, rfl⟩
  | cons call rest ih =>
    intro c hpc h
    show (¬ (Binary32.runCameraOps ops (Binary32.run ops c call) rest).Pitch > 89 ∧
        ¬ (Binary32.runCameraOps ops (Binary32.run ops c call) rest).Pitch < -89) ∧
      (Binary32.runCameraOps ops (Binary32.run ops c call) rest).WorldUp = c.WorldUp
    rw [← Binary32.run_WorldUp ops c call]
    cases call with
    | rotate dx dy cp =>
      obtain ⟨hcp, hrest⟩ := hpc
      subst hcp
      exact ih _ hrest (Binary32.ProcessMouseMovement_Pitch_range ops c dx dy)
    | pan dx dy => exact ih _ hpc h
    | zoom dy =>
      apply ih _ hpc
      show ¬ (Binary32.ProcessMouseScroll ops c dy).Pitch > 89 ∧
        ¬ (Binary32.ProcessMouseScroll ops c dy).Pitch < -89
      rw [Binary32.ProcessMouseScroll_Pitch_eq]
      exact h

end Binary32Reach

/-! ## Theorems: the camera basis in exact arithmetic -/

section BasisTheorems

variable {K : Type} [LinearOrderedField K]

theorem Vec3.length_of_dot_sq {ops : FloatOps K}
    (hsq : ∀ x : K, 0 ≤ x → ops.sqrt (x * x) = x) (v : Vec3 K) (x : K)
    (hx : 0 ≤ x) (hv : Vec3.dot v v = x * x) : Vec3.length ops v = x := by
  unfold Vec3.length
  rw [hv, hsq x hx]

theorem Vec3.length_of_dot_one {ops : FloatOps K}
    (hsq : ∀ x : K, 0 ≤ x → ops.sqrt (x * x) = x) (v : Vec3 K)
    (hv : Vec3.dot v v = 1) : Vec3.length ops v = 1 :=
  Vec3.length_of_dot_sq hsq v 1 zero_le_one (by rw [hv, mul_one])

theorem Vec3.normalize_of_dot_one {ops : FloatOps K}
    (hinv : ∀ x : K, 0 < x → ops.inversesqrt (x * x) * x = 1) (v : Vec3 K)
    (hv : Vec3.dot v v = 1) : Vec3.normalize ops v = v := by
  have h1 : ops.inversesqrt 1 = 1 := by
    have := hinv 1 one_pos
    rwa [mul_one, mul_one] at this
  unfold Vec3.normalize
  rw [hv, h1, Vec3.mul_def]
  ext <;> simp

theorem rawFront_dot (ops : FloatOps K)
    (hcs : ∀ t : K, ops.cos t * ops.cos t + ops.sin t * ops.sin t = 1) (yaw pitch : K) :
    Vec3.dot (rawFront ops yaw pitch) (rawFront ops yaw pitch) = 1 := by
  have h1 := hcs (ops.radians yaw)
  have h2 := hcs (ops.radians pitch)
  simp only [Vec3.dot, rawFront]
  linear_combination (ops.cos (ops.radians pitch) * ops.cos (ops.radians pitch)) * h1 + h2

theorem cross_rawFront_worldUp (ops : FloatOps K) (yaw pitch : K) :
    Vec3.cross (rawFront ops yaw pitch) ⟨0, 1, 0⟩ =
      ⟨-(ops.sin (ops.radians yaw) * ops.cos (ops.radians pitch)), 0,
       ops.cos (ops.radians yaw) * ops.cos (ops.radians pitch)⟩ := by
  simp only [Vec3.cross, rawFront]
  ext <;> simp

theorem cross_rawFront_worldUp_dot (ops : FloatOps K)
    (hcs : ∀ t : K, ops.cos t * ops.cos t + ops.sin t * ops.sin t = 1) (yaw pitch : K) :
    Vec3.dot (Vec3.cross (rawFront ops yaw pitch) ⟨0, 1, 0⟩)
        (Vec3.cross (rawFront ops yaw pitch) ⟨0, 1, 0⟩) =
      ops.cos (ops.radians pitch) * ops.cos (ops.radians pitch) := by
  have h1 := hcs (ops.radians yaw)
  rw [cross_rawFront_worldUp]
  simp only [Vec3.dot]
  linear_combination (ops.cos (ops.radians pitch) * ops.cos (ops.radians pitch)) * h1

theorem normalize_cross_rawFront_worldUp (ops : FloatOps K)
    (hinv : ∀ x : K, 0 < x → ops.inversesqrt (x * x) * x = 1)
    (hcs : ∀ t : K, ops.cos t * ops.cos t + ops.sin t * ops.sin t = 1) (yaw pitch : K)
    (hc : 0 < ops.cos (ops.radians pitch)) :
    Vec3.normalize ops (Vec3.cross (rawFront ops yaw pitch) ⟨0, 1, 0⟩) =
      explicitRight ops yaw := by
  have hi := hinv _ hc
  unfold Vec3.normalize
  rw [cross_rawFront_worldUp_dot ops hcs, cross_rawFront_worldUp, Vec3.mul_def]
  simp only [explicitRight]
  ext
  · show -(ops.sin (ops.radians yaw) * ops.cos (ops.radians pitch)) * _ = _
    linear_combination (-ops.sin (ops.radians yaw)) * hi
  · show (0 : K) * _ = 0
    exact zero_mul _
  · show ops.cos (ops.radians yaw) * ops.cos (ops.radians pitch) * _ = _
    linear_combination (ops.cos (ops.radians yaw)) * hi

theorem cross_explicitRight_rawFront (ops : FloatOps K)
    (hcs : ∀ t : K, ops.cos t * ops.cos t + ops.sin t * ops.sin t = 1) (yaw pitch : K) :
    Vec3.cross (explicitRight ops yaw) (rawFront ops yaw pitch) = explicitUp ops yaw pitch := by
  have h1 := hcs (ops.radians yaw)
  simp only [Vec3.cross, explicitRight, rawFront, explicitUp]
  ext
  · show _ = -(ops.sin (ops.radians pitch) * ops.cos (ops.radians yaw))
    ring
  · show _ = ops.cos (ops.radians pitch)
    linear_combination (ops.cos (ops.radians pitch)) * h1
  · show _ = -(ops.sin (ops.radians yaw) * ops.sin (ops.radians pitch))
    ring

theorem explicitUp_dot (ops : FloatOps K)
    (hcs : ∀ t : K, ops.cos t * ops.cos t + ops.sin t * ops.sin t = 1) (yaw pitch : K) :
    Vec3.dot (explicitUp ops yaw pitch) (explicitUp ops yaw pitch) = 1 := by
  have h1 := hcs (ops.radians yaw)
  have h2 := hcs (ops.radians pitch)
  simp only [Vec3.dot, explicitUp]
  linear_combination (ops.sin (ops.radians pitch) * ops.sin (ops.radians pitch)) * h1 + h2

theorem explicitRight_dot (ops : FloatOps K)
    (hcs : ∀ t : K, ops.cos t * ops.cos t + ops.sin t * ops.sin t = 1) (yaw : K) :
    Vec3.dot (explicitRight ops yaw) (explicitRight ops yaw) = 1 := by
  have h1 := hcs (ops.radians yaw)
  simp only [Vec3.dot, explicitRight]
  linear_combination h1

/-- Closed form of the basis that `updateCameraVectors` computes for the world up vector
`(0, 1, 0)` when the cosine of the pitch is positive and the primitives are exact. -/
theorem updateCameraVectors_explicit (ops : FloatOps K)
    (hinv : ∀ x : K, 0 < x → ops.inversesqrt (x * x) * x = 1)
    (hcs : ∀ t : K, ops.cos t * ops.cos t + ops.sin t * ops.sin t = 1) (c : Camera K)
    (hc : 0 < ops.cos (ops.radians c.Pitch)) (hw : c.WorldUp = ⟨0, 1, 0⟩) :
    (updateCameraVectors ops c).Front = rawFront ops c.Yaw c.Pitch ∧
    (updateCameraVectors ops c).Right = explicitRight ops c.Yaw ∧
    (updateCameraVectors ops c).Up = explicitUp ops c.Yaw c.Pitch := by
  have hF : (updateCameraVectors ops c).Front = rawFront ops c.Yaw c.Pitch :=
    Vec3.normalize_of_dot_one hinv _ (rawFront_dot ops hcs c.Yaw c.Pitch)
  have hR : (updateCameraVectors ops c).Right = explicitRight ops c.Yaw := by
    show Vec3.normalize ops (Vec3.cross (updateCameraVectors ops c).Front c.WorldUp) = _
    rw [hF, hw]
    exact normalize_cross_rawFront_worldUp ops hinv hcs c.Yaw c.Pitch hc
  refine ⟨hF, hR, ?_⟩
  show Vec3.normalize ops
    (Vec3.cross (updateCameraVectors ops c).Right (updateCameraVectors ops c).Front) = _
  rw [hR, hF, cross_explicitRight_rawFront ops hcs]
  exact Vec3.normalize_of_dot_one hinv _ (explicitUp_dot ops hcs c.Yaw c.Pitch)

theorem explicit_orthonormal (ops : FloatOps K)
    (hsq : ∀ x : K, 0 ≤ x → ops.sqrt (x * x) = x)
    (hcs : ∀ t : K, ops.cos t * ops.cos t + ops.sin t * ops.sin t = 1) (yaw pitch : K) :
    OrthonormalBasis ops (rawFront ops yaw pitch) (explicitRight ops yaw)
      (explicitUp ops yaw pitch) := by
  have h1 := hcs (ops.radians yaw)
  refine ⟨Vec3.length_of_dot_one hsq _ (rawFront_dot ops hcs yaw pitch),
    Vec3.length_of_dot_one hsq _ (explicitRight_dot ops hcs yaw),
    Vec3.length_of_dot_one hsq _ (explicitUp_dot ops hcs yaw pitch), ?_, ?_, ?_⟩
  · simp only [Vec3.dot, rawFront, explicitRight]
    ring
  · simp only [Vec3.dot, rawFront, explicitUp]
    linear_combination
      (-(ops.cos (ops.radians pitch) * ops.sin (ops.radians pitch))) * h1
  · simp only [Vec3.dot, explicitRight, explicitUp]
    ring

theorem ProcessMouseMovement_WorldUp (ops : FloatOps K) (c : Camera K) (dx dy : K) (cp : Bool) :
    (ProcessMouseMovement ops c dx dy cp).WorldUp = c.WorldUp := by
  simp only [ProcessMouseMovement, updateCameraVectors]
  split_ifs <;> rfl

theorem ProcessMouseScroll_WorldUp (ops : FloatOps K) (c : Camera K) (dy : K) :
    (ProcessMouseScroll ops c dy).WorldUp = c.WorldUp := by
  simp only [ProcessMouseScroll, updateCameraVectors]
  split_ifs <;> rfl

theorem runCameraOps_WorldUp (ops : FloatOps K) (calls : List (CameraOp K)) :
    ∀ c : Camera K, (runCameraOps ops c calls).WorldUp = c.WorldUp := by
  induction calls with
  | nil => intro c; rfl
  | cons call rest ih =>
    intro c
    show (runCameraOps ops (call.run ops c) rest).WorldUp = _
    rw [ih]
    cases call with
    | rotate dx dy cp => exact ProcessMouseMovement_WorldUp ops c dx dy cp
    | pan dx dy => rfl
    | zoom dy => exact ProcessMouseScroll_WorldUp ops c dy

/-- With every rotation clamped, the pitch stays between -89 and 89. -/
theorem runCameraOps_Pitch_range (ops : FloatOps K) (calls : List (CameraOp K)) :
    ∀ c : Camera K, PitchConstrained calls → (-89 ≤ c.Pitch ∧ c.Pitch ≤ 89) →
      -89 ≤ (runCameraOps ops c calls).Pitch ∧ (runCameraOps ops c calls).Pitch ≤ 89 := by
  induction calls with
  | nil => intro c _ h; exact h
  | cons call rest ih =>
    intro c hpc h
    show -89 ≤ (runCameraOps ops (call.run ops c) rest).Pitch ∧
      (runCameraOps ops (call.run ops c) rest).Pitch ≤ 89
    cases call with
    | rotate dx dy cp =>
      obtain ⟨hcp, hrest⟩ := hpc
      subst hcp
      apply ih _ hrest
      show -89 ≤ (ProcessMouseMovement ops c dx dy true).Pitch ∧
        (ProcessMouseMovement ops c dx dy true).Pitch ≤ 89
      rw [ProcessMouseMovement_Pitch]
      exact clamp_mem _ _ _ (by norm_num)
    | pan dx dy => exact ih _ hpc h
    | zoom dy =>
      apply ih _ hpc
      show -89 ≤ (ProcessMouseScroll ops c dy).Pitch ∧ (ProcessMouseScroll ops c dy).Pitch ≤ 89
      rw [(ProcessMouseScroll_frame ops c dy).2.1]
      exact h

/-- A consistent camera with positive cosine of the pitch and world up `(0, 1, 0)` holds the
closed-form basis, when the primitives are exact. -/
theorem CacheConsistent.explicit {ops : FloatOps K}
    (hinv : ∀ x : K, 0 < x → ops.inversesqrt (x * x) * x = 1)
    (hcs : ∀ t : K, ops.cos t * ops.cos t + ops.sin t * ops.sin t = 1) {c : Camera K}
    (hc : CacheConsistent ops c) (hcos : 0 < ops.cos (ops.radians c.Pitch))
    (hw : c.WorldUp = ⟨0, 1, 0⟩) :
    c.Front = rawFront ops c.Yaw c.Pitch ∧ c.Right = explicitRight ops c.Yaw ∧
    c.Up = explicitUp ops c.Yaw c.Pitch := by
  obtain ⟨hF', hR', hU'⟩ := updateCameraVectors_explicit ops hinv hcs c hcos hw
  obtain ⟨_, hF, hR, hU⟩ := hc
  have eF : c.Front = rawFront ops c.Yaw c.Pitch := hF.trans hF'
  have eR : c.Right = explicitRight ops c.Yaw := by
    rw [hR, eF, hw]
    exact normalize_cross_rawFront_worldUp ops hinv hcs c.Yaw c.Pitch hcos
  refine ⟨eF, eR, ?_⟩
  rw [hU, eR, eF, cross_explicitRight_rawFront ops hcs]
  exact Vec3.normalize_of_dot_one hinv _ (explicitUp_dot ops hcs c.Yaw c.Pitch)

/-- The real square root, cosine and sine, with `1 / sqrt x` for `inversesqrt` and `π / 180`
radians to the degree: the square root of a square of a non-negative number is that number,
`inversesqrt` of the square of a positive number is its reciprocal, cosine and sine lie on the
unit circle, and the cosine of an angle between -89 and 89 degrees is positive. -/
theorem real_primitives (ops : FloatOps ℝ)
    (hops : ops = ⟨Real.sqrt, fun x => 1 / Real.sqrt x, Real.cos, Real.sin,
      fun d => d * (Real.pi / 180)⟩) :
    (∀ x : ℝ, 0 ≤ x → ops.sqrt (x * x) = x) ∧
    (∀ x : ℝ, 0 < x → ops.inversesqrt (x * x) * x = 1) ∧
    (∀ t : ℝ, ops.cos t * ops.cos t + ops.sin t * ops.sin t = 1) ∧
    (∀ p : ℝ, -89 ≤ p → p ≤ 89 → 0 < ops.cos (ops.radians p)) := by
  subst hops
  refine ⟨fun x hx => Real.sqrt_mul_self hx, ?_, ?_, ?_⟩
  · intro x hx
    show 1 / Real.sqrt (x * x) * x = 1
    rw [Real.sqrt_mul_self (le_of_lt hx)]
    exact one_div_mul_cancel (ne_of_gt hx)
  · intro t
    show Real.cos t * Real.cos t + Real.sin t * Real.sin t = 1
    have := Real.cos_sq_add_sin_sq t
    nlinarith [this]
  · intro p h1 h2
    show 0 < Real.cos (p * (Real.pi / 180))
    apply Real.cos_pos_of_mem_Ioo
    constructor <;> nlinarith [Real.pi_pos]

set_option maxRecDepth 100000
set_option exponentiation.threshold 1024

/-- C16, counterexample: in binary32 the state reached from the default camera by
`ProcessMouseMovement(600, 300)` has yaw 0, pitch 45 and world up `(0, 1, 0)`.  With correctly
rounded library results the un-normalized front there has length `0.99999994` (bits
`0x3f7fffff`), not 1, and `Right = (0, 0, 0.99999994)` has length `0.99999994`, not 1.  The length
of `Right` differs from 1 for each of the nine combinations of the correctly rounded cosine
and sine of `0.7853982` and their two neighbours. -/
theorem camera_basis_not_unit_in_binary32 :
    (Binary32.ProcessMouseMovement Binary32.roundedOps
      (Binary32.Camera.default Binary32.roundedOps) 600 300 true).Yaw = 0 ∧
    (Binary32.ProcessMouseMovement Binary32.roundedOps
      (Binary32.Camera.default Binary32.roundedOps) 600 300 true).Pitch = 45 ∧
    (Binary32.ProcessMouseMovement Binary32.roundedOps
      (Binary32.Camera.default Binary32.roundedOps) 600 300 true).WorldUp = ⟨0, 1, 0⟩ ∧
    Binary32.length Binary32.roundedOps (Binary32.rawFront Binary32.roundedOps 0 45) =
      F32.ofBits 0x3f7fffff ∧
    Binary32.length Binary32.roundedOps (Binary32.rawFront Binary32.roundedOps 0 45) ≠ 1 ∧
    (Binary32.ProcessMouseMovement Binary32.roundedOps
      (Binary32.Camera.default Binary32.roundedOps) 600 300 true).Right =
      ⟨0, 0, F32.ofBits 0x3f7fffff⟩ ∧
    Binary32.length Binary32.roundedOps
      (Binary32.ProcessMouseMovement Binary32.roundedOps
        (Binary32.Camera.default Binary32.roundedOps) 600 300 true).Right =
      F32.ofBits 0x3f7fffff ∧
    Binary32.length Binary32.roundedOps
      (Binary32.ProcessMouseMovement Binary32.roundedOps
        (Binary32.Camera.default Binary32.roundedOps) 600 300 true).Right ≠ 1 ∧
    ∀ cp ∈ [F32.ofBits 0x3f3504f2, F32.ofBits 0x3f3504f3, F32.ofBits 0x3f3504f4],
    ∀ sp ∈ [F32.ofBits 0x3f3504f2, F32.ofBits 0x3f3504f3, F32.ofBits 0x3f3504f4],
      Binary32.length (Binary32.tableOps (F32.ofBits 0xb33bbd2e) cp sp)
        (Binary32.ProcessMouseMovement (Binary32.tableOps (F32.ofBits 0xb33bbd2e) cp sp)
          (Binary32.Camera.default (Binary32.tableOps (F32.ofBits 0xb33bbd2e) cp sp))
          600 300 true).Right ≠ 1 := by
  decide

/-- C16, amended.  In exact real arithmetic (real square root, cosine and sine,
`inversesqrt x = 1 / sqrt x`, `π / 180` radians to the degree), for every yaw, every pitch
between -89 and 89 degrees and the world up vector `(0, 1, 0)`, `updateCameraVectors` never
normalizes a zero vector: the un-normalized front has length 1, `Front × WorldUp` has length
`cos (radians Pitch) > 0`, and `Right × Front` has length 1; the resulting `Front`, `Right`, `Up`
are mutually orthogonal unit vectors; every state reached from the default camera by pans, zooms
and rotations that clamp the pitch has its pitch between -89 and 89, the world up vector
`(0, 1, 0)` and such a basis.  In binary32, with `inversesqrt x = 1 / sqrt x`, the world up vector
`(0, 1, 0)` and library results in range (`TrigInRange`), none of the three vectors that
`updateCameraVectors` normalizes has a zero scalar square; and for every library, every state
reached from the default camera by pans, zooms and rotations that clamp the pitch has a pitch
neither above 89 nor below -89 and the world up vector `(0, 1, 0)`. -/
theorem camera_basis_real_and_binary32 (ops : FloatOps ℝ)
    (hops : ops = ⟨Real.sqrt, fun x => 1 / Real.sqrt x, Real.cos, Real.sin,
      fun d => d * (Real.pi / 180)⟩)
    (c : Camera ℝ) (hp : -89 ≤ c.Pitch ∧ c.Pitch ≤ 89) (hw : c.WorldUp = ⟨0, 1, 0⟩)
    (fops : FloatOps F32) (hinv : ∀ x, fops.inversesqrt x = 1 / F32.sqrt x)
    (fc : Camera F32) (hfw : fc.WorldUp = ⟨0, 1, 0⟩)
    (hft : Binary32.TrigInRange fops fc.Yaw fc.Pitch) :
    ((Vec3.length ops (rawFront ops c.Yaw c.Pitch) = 1 ∧
      (updateCameraVectors ops c).Front = Vec3.normalize ops (rawFront ops c.Yaw c.Pitch) ∧
      Vec3.length ops (Vec3.cross (updateCameraVectors ops c).Front c.WorldUp) =
        ops.cos (ops.radians c.Pitch) ∧
      0 < ops.cos (ops.radians c.Pitch) ∧
      Vec3.length ops (Vec3.cross (updateCameraVectors ops c).Right
        (updateCameraVectors ops c).Front) = 1) ∧
    OrthonormalBasis ops (updateCameraVectors ops c).Front (updateCameraVectors ops c).Right
      (updateCameraVectors ops c).Up ∧
    ∀ calls : List (CameraOp ℝ), PitchConstrained calls →
      (-89 ≤ (runCameraOps ops (Camera.default ops) calls).Pitch ∧
        (runCameraOps ops (Camera.default ops) calls).Pitch ≤ 89) ∧
      (runCameraOps ops (Camera.default ops) calls).WorldUp = ⟨0, 1, 0⟩ ∧
      OrthonormalBasis ops (runCameraOps ops (Camera.default ops) calls).Front
        (runCameraOps ops (Camera.default ops) calls).Right
        (runCameraOps ops (Camera.default ops) calls).Up) ∧
    ((Binary32.dot (Binary32.rawFront fops fc.Yaw fc.Pitch)
        (Binary32.rawFront fops fc.Yaw fc.Pitch) ≠ 0 ∧
      Binary32.dot (Binary32.cross (Binary32.updateCameraVectors fops fc).Front fc.WorldUp)
        (Binary32.cross (Binary32.updateCameraVectors fops fc).Front fc.WorldUp) ≠ 0 ∧
      Binary32.dot
        (Binary32.cross (Binary32.updateCameraVectors fops fc).Right
          (Binary32.updateCameraVectors fops fc).Front)
        (Binary32.cross (Binary32.updateCameraVectors fops fc).Right
          (Binary32.updateCameraVectors fops fc).Front) ≠ 0) ∧
    ∀ fcalls : List (CameraOp F32), Binary32.PitchConstrained fcalls →
      (¬ (Binary32.runCameraOps fops (Binary32.Camera.default fops) fcalls).Pitch > 89 ∧
        ¬ (Binary32.runCameraOps fops (Binary32.Camera.default fops) fcalls).Pitch < -89) ∧
      (Binary32.runCameraOps fops (Binary32.Camera.default fops) fcalls).WorldUp =
        ⟨0, 1, 0⟩) := by
  obtain ⟨hsq, hiv, hcs, hpos⟩ := real_primitives ops hops
  have hc := hpos c.Pitch hp.1 hp.2
  obtain ⟨hF, hR, hU⟩ := updateCameraVectors_explicit ops hiv hcs c hc hw
  refine ⟨⟨⟨Vec3.length_of_dot_one hsq _ (rawFront_dot ops hcs c.Yaw c.Pitch), rfl, ?_, hc, ?_⟩,
    ?_, ?_⟩, Binary32.updateCameraVectors_nonzero fops hinv fc hfw hft, ?_⟩
  · rw [hF, hw]
    exact Vec3.length_of_dot_sq hsq _ _ (le_of_lt hc)
      (cross_rawFront_worldUp_dot ops hcs c.Yaw c.Pitch)
  · rw [hR, hF, cross_explicitRight_rawFront ops hcs]
    exact Vec3.length_of_dot_one hsq _ (explicitUp_dot ops hcs c.Yaw c.Pitch)
  · rw [hF, hR, hU]
    exact explicit_orthonormal ops hsq hcs c.Yaw c.Pitch
  · intro calls hcalls
    have hrange := runCameraOps_Pitch_range ops calls (Camera.default ops) hcalls
      (by
        show (-89 : ℝ) ≤ PITCH ∧ (PITCH : ℝ) ≤ 89
        unfold PITCH
        constructor <;> norm_num)
    have hwu : (runCameraOps ops (Camera.default ops) calls).WorldUp = ⟨0, 1, 0⟩ := by
      rw [runCameraOps_WorldUp]
      rfl
    have hcons := runCameraOps_consistent ops calls (Camera.default ops)
      (updateCameraVectors_consistent ops _)
    obtain ⟨eF, eR, eU⟩ :=
      hcons.explicit hiv hcs (hpos _ hrange.1 hrange.2) hwu
    refine ⟨hrange, hwu, ?_⟩
    rw [eF, eR, eU]
    exact explicit_orthonormal ops hsq hcs _ _
  · intro fcalls hfcalls
    have h0 : ¬ (0 : F32) > 89 ∧ ¬ (0 : F32) < -89 := by decide
    obtain ⟨hr, hwu⟩ :=
      Binary32.runCameraOps_precondition fops fcalls (Binary32.Camera.default fops) hfcalls h0
    exact ⟨hr, hwu⟩

/-- Witness for C16: the default camera in real arithmetic, and in binary32 the state of yaw 0
and pitch 45 with the correctly rounded library results. -/
theorem camera_basis_real_and_binary32_witness :
    ((-89 : ℝ) ≤ (Camera.default (⟨Real.sqrt, fun x => 1 / Real.sqrt x, Real.cos, Real.sin,
        fun d => d * (Real.pi / 180)⟩ : FloatOps ℝ)).Pitch ∧
      (Camera.default (⟨Real.sqrt, fun x => 1 / Real.sqrt x, Real.cos, Real.sin,
        fun d => d * (Real.pi / 180)⟩ : FloatOps ℝ)).Pitch ≤ 89) ∧
    (Camera.default (⟨Real.sqrt, fun x => 1 / Real.sqrt x, Real.cos, Real.sin,
      fun d => d * (Real.pi / 180)⟩ : FloatOps ℝ)).WorldUp = ⟨0, 1, 0⟩ ∧
    (∀ x, Binary32.roundedOps.inversesqrt x = 1 / F32.sqrt x) ∧
    (Binary32.ProcessMouseMovement Binary32.roundedOps
      (Binary32.Camera.default Binary32.roundedOps) 600 300 true).WorldUp = ⟨0, 1, 0⟩ ∧
    Binary32.TrigInRange Binary32.roundedOps
      (Binary32.ProcessMouseMovement Binary32.roundedOps
        (Binary32.Camera.default Binary32.roundedOps) 600 300 true).Yaw
      (Binary32.ProcessMouseMovement Binary32.roundedOps
        (Binary32.Camera.default Binary32.roundedOps) 600 300 true).Pitch ∧
    OrthonormalBasis (⟨Real.sqrt, fun x => 1 / Real.sqrt x, Real.cos, Real.sin,
        fun d => d * (Real.pi / 180)⟩ : FloatOps ℝ)
      (updateCameraVectors ⟨Real.sqrt, fun x => 1 / Real.sqrt x, Real.cos, Real.sin,
        fun d => d * (Real.pi / 180)⟩ (Camera.default ⟨Real.sqrt, fun x => 1 / Real.sqrt x,
        Real.cos, Real.sin, fun d => d * (Real.pi / 180)⟩)).Front
      (updateCameraVectors ⟨Real.sqrt, fun x => 1 / Real.sqrt x, Real.cos, Real.sin,
        fun d => d * (Real.pi / 180)⟩ (Camera.default ⟨Real.sqrt, fun x => 1 / Real.sqrt x,
        Real.cos, Real.sin, fun d => d * (Real.pi / 180)⟩)).Right
      (updateCameraVectors ⟨Real.sqrt, fun x => 1 / Real.sqrt x, Real.cos, Real.sin,
        fun d => d * (Real.pi / 180)⟩ (Camera.default ⟨Real.sqrt, fun x => 1 / Real.sqrt x,
        Real.cos, Real.sin, fun d => d * (Real.pi / 180)⟩)).Up ∧
    Binary32.dot
      (Binary32.cross
        (Binary32.updateCameraVectors Binary32.roundedOps
          (Binary32.ProcessMouseMovement Binary32.roundedOps
            (Binary32.Camera.default Binary32.roundedOps) 600 300 true)).Right
        (Binary32.updateCameraVectors Binary32.roundedOps
          (Binary32.ProcessMouseMovement Binary32.roundedOps
            (Binary32.Camera.default Binary32.roundedOps) 600 300 true)).Front)
      (Binary32.cross
        (Binary32.updateCameraVectors Binary32.roundedOps
          (Binary32.ProcessMouseMovement Binary32.roundedOps
            (Binary32.Camera.default Binary32.roundedOps) 600 300 true)).Right
        (Binary32.updateCameraVectors Binary32.roundedOps
          (Binary32.ProcessMouseMovement Binary32.roundedOps
            (Binary32.Camera.default Binary32.roundedOps) 600 300 true)).Front) ≠ 0 :=
  have hp : (-89 : ℝ) ≤ (Camera.default (⟨Real.sqrt, fun x => 1 / Real.sqrt x, Real.cos,
        Real.sin, fun d => d * (Real.pi / 180)⟩ : FloatOps ℝ)).Pitch ∧
      (Camera.default (⟨Real.sqrt, fun x => 1 / Real.sqrt x, Real.cos, Real.sin,
        fun d => d * (Real.pi / 180)⟩ : FloatOps ℝ)).Pitch ≤ 89 := by
    show (-89 : ℝ) ≤ PITCH ∧ (PITCH : ℝ) ≤ 89
    unfold PITCH
    constructor <;> norm_num
  have hfw : (Binary32.ProcessMouseMovement Binary32.roundedOps
      (Binary32.Camera.default Binary32.roundedOps) 600 300 true).WorldUp = ⟨0, 1, 0⟩ := by
    decide
  have hft : Binary32.TrigInRange Binary32.roundedOps
      (Binary32.ProcessMouseMovement Binary32.roundedOps
        (Binary32.Camera.default Binary32.roundedOps) 600 300 true).Yaw
      (Binary32.ProcessMouseMovement Binary32.roundedOps
        (Binary32.Camera.default Binary32.roundedOps) 600 300 true).Pitch := by
    unfold Binary32.TrigInRange
    decide
  ⟨hp, rfl, fun _ => rfl, hfw, hft,
    (camera_basis_real_and_binary32 _ rfl _ hp rfl Binary32.roundedOps (fun _ => rfl) _ hfw
      hft).1.2.1,
    (camera_basis_real_and_binary32 _ rfl _ hp rfl Binary32.roundedOps (fun _ => rfl) _ hfw
      hft).2.1.2.2⟩

end BasisTheorems

end Illumination
